import Mathlib

/-!
# In-memory cache: LRU and FIFO eviction

A shallow embedding of `In-Memory Cache/cache/lru.go` and
`In-Memory Cache/cache/fifo.go`.

* A Go `string` is a Lean `String`; `len(key)` is its number of UTF-8 bytes.
* A Go `[]byte` is a `List UInt8`; the `nil` slice is `[]`.
* A Go `int` is an `Int`: the sizes added up are lengths of data held in
  memory, so the 64-bit range is never left.
* Pointers are explicit (`Ptr`): the two sentinel nodes live inside the cache
  struct, every `&Node{...}` allocates the next free heap address, and a
  dereference of `nil` (a Go panic) makes the operation return `none`.
* A Go map is a finite map (`Finmap`): it has no order of its own.

Three smaller embeddings follow the definitions of the cache:
`Dopey Object Relational Mapper/dorm/dorm.go` (namespace `Dorm`: the
conversion of names, a Go string of ASCII letters being a list of characters,
and the statement text that `Create` builds),
`HTTP Routing Framework/http_router/router.go` (namespace `HttpRouter`:
`AddRoute` and the precedence of dynamic routes) and
`Socket Programming/client.go` (namespace `SocketClient`: the argument check
of `main`, an index out of range being an outcome of its own).
-/

namespace InMemoryCache

/-- Modelled from the spec: the `Stats` struct is declared in a file of the
package that is not among the sources; it holds the running counters of
lookup hits and misses. -/
structure Stats where
  Hits : Int
  Misses : Int
deriving DecidableEq, Repr

/-- A pointer to a list node: `nil`, the address of one of the two sentinel
fields of the cache struct, or the address of an allocated node. -/
inductive Ptr where
  | null
  | left
  | right
  | node (addr : Nat)
deriving DecidableEq, Repr

/-- The struct `Node` of lru.go; `FIFONode` of fifo.go has the same fields. -/
structure Node where
  key : String
  value : List UInt8
  storage : Int
  next : Ptr
  prev : Ptr
deriving DecidableEq, Repr

/-- The struct `FIFONode` of fifo.go. -/
abbrev FIFONode := Node

/-- The structs `LRU` and `FIFO` declare the same fields under the same
names; `heap` is the memory holding the nodes allocated so far, a node's
address being its index. -/
structure Cache where
  limit : Int
  currentSize : Int
  stats : Stats
  cache : Finmap (fun _ : String => Ptr)
  dummyLeft : Node
  dummyRight : Node
  heap : List Node
deriving DecidableEq

/-- The struct `LRU` of lru.go. -/
abbrev LRU := Cache

/-- The struct `FIFO` of fifo.go. -/
abbrev FIFO := Cache

/-- The bytes of a string literal, for writing `[]byte("...")`. -/
def bytes (s : String) : List UInt8 := s.toUTF8.data.toList

/-- Dereference of a pointer for reading: `none` is the nil-dereference
panic (or an address that was never allocated). -/
def Cache.load (s : Cache) : Ptr → Option Node
  | .null => none
  | .left => some s.dummyLeft
  | .right => some s.dummyRight
  | .node i => s.heap[i]?

/-- Write of a whole node through a pointer. -/
def Cache.store (s : Cache) (p : Ptr) (n : Node) : Option Cache :=
  match p with
  | .null => none
  | .left => some { s with dummyLeft := n }
  | .right => some { s with dummyRight := n }
  | .node i => if i < s.heap.length then some { s with heap := s.heap.set i n } else none

/-- The assignment `p.next = q`. -/
def Cache.setNext (s : Cache) (p q : Ptr) : Option Cache :=
  match s.load p with
  | none => none
  | some n => s.store p { n with next := q }

/-- The assignment `p.prev = q`. -/
def Cache.setPrev (s : Cache) (p q : Ptr) : Option Cache :=
  match s.load p with
  | none => none
  | some n => s.store p { n with prev := q }

/-- The assignment `p.value = v`. -/
def Cache.setValue (s : Cache) (p : Ptr) (v : List UInt8) : Option Cache :=
  match s.load p with
  | none => none
  | some n => s.store p { n with value := v }

/-- The assignment `p.storage = z`. -/
def Cache.setStorage (s : Cache) (p : Ptr) (z : Int) : Option Cache :=
  match s.load p with
  | none => none
  | some n => s.store p { n with storage := z }

/-- The expression `&Node{key: ..., value: ..., storage: ...}`: the new node
gets the next free address and nil links. -/
def Cache.alloc (s : Cache) (key : String) (value : List UInt8) (storage : Int) :
    Cache × Ptr :=
  ({ s with heap := s.heap ++ [{ key := key, value := value, storage := storage,
                                  next := .null, prev := .null }] },
   .node s.heap.length)

/-- The map read `m[key]`: the nil pointer when the key is absent. -/
def Cache.index (s : Cache) (key : String) : Ptr :=
  (s.cache.lookup key).getD .null

/-! ## lru.go -/

/-- The function `NewLru`. -/
def NewLru (limit : Int) : LRU :=
  { limit := limit
    currentSize := 0
    stats := { Hits := 0, Misses := 0 }
    cache := ∅
    dummyLeft := { key := "", value := [], storage := 0, next := .right, prev := .null }
    dummyRight := { key := "", value := [], storage := 0, next := .null, prev := .left }
    heap := [] }

/-- The method `LRU.RemainingStorage`. -/
def LRU.RemainingStorage (lru : LRU) : Int := lru.limit - lru.currentSize

/-- The method `LRU.InsertNode`. -/
def LRU.InsertNode (lru : LRU) (node : Ptr) : Option LRU := do
  let mruNode := lru.dummyRight.prev
  let lru ← lru.setPrev node mruNode
  let lru ← lru.setNext mruNode node
  let lru ← lru.setNext node .right
  lru.setPrev .right node

/-- The method `LRU.RemoveNode`. -/
def LRU.RemoveNode (lru : LRU) (node : Ptr) : Option LRU := do
  let n ← lru.load node
  let prevNode := n.prev
  let nextNode := n.next
  let lru ← lru.setNext prevNode nextNode
  lru.setPrev nextNode prevNode

/-- The method `LRU.Remove`. -/
def LRU.Remove (lru : LRU) (key : String) : Option (LRU × List UInt8 × Bool) :=
  match lru.cache.lookup key with
  | some node => do
    let n ← lru.load node
    let value := n.value
    let lru := { lru with currentSize := lru.currentSize - n.storage }
    let lru ← LRU.RemoveNode lru node
    let n ← lru.load node
    let lru := { lru with cache := lru.cache.erase n.key }
    some (lru, value, true)
  | none => some (lru, [], false)

/-- The method `LRU.Get`. -/
def LRU.Get (lru : LRU) (key : String) : Option (LRU × List UInt8 × Bool) :=
  match lru.cache.lookup key with
  | some node => do
    let lru ← LRU.RemoveNode lru node
    let lru ← LRU.InsertNode lru node
    let n ← lru.load (lru.index key)
    let value := n.value
    let lru := { lru with stats := { lru.stats with Hits := lru.stats.Hits + 1 } }
    some (lru, value, true)
  | none =>
    some ({ lru with stats := { lru.stats with Misses := lru.stats.Misses + 1 } }, [], false)

/-- The loop `for lru.currentSize > lru.limit { ... }` of `LRU.Set`. The loop
has no bound of its own; the model runs at most `fuel` iterations and gives
`none` when the condition still holds after them. -/
def LRU.evict : Nat → LRU → Option LRU
  | 0, lru => if lru.currentSize > lru.limit then none else some lru
  | fuel + 1, lru =>
    if lru.currentSize > lru.limit then do
      let lruNode := lru.dummyLeft.next
      let n ← lru.load lruNode
      let lru := { lru with currentSize := lru.currentSize - n.storage }
      let lru ← LRU.RemoveNode lru lruNode
      let n ← lru.load lruNode
      let lru := { lru with cache := lru.cache.erase n.key }
      LRU.evict fuel lru
    else some lru

/-- The method `LRU.Set`. The eviction loop is given one iteration for every
allocated node. -/
def LRU.Set (lru : LRU) (key : String) (value : List UInt8) : Option (LRU × Bool) :=
  let bindingSize : Int := (key.utf8ByteSize : Int) + (value.length : Int)
  if bindingSize > lru.limit then some (lru, false)
  else do
    let lru ← (match lru.cache.lookup key with
      | some node => do
        let n ← lru.load node
        let lru := { lru with currentSize := lru.currentSize - n.storage }
        LRU.RemoveNode lru node
      | none => some lru)
    let (lru, newNode) := lru.alloc key value bindingSize
    let lru := { lru with cache := lru.cache.insert key newNode }
    let n ← lru.load (lru.index key)
    let lru := { lru with currentSize := lru.currentSize + n.storage }
    let lru ← LRU.evict lru.heap.length lru
    match lru.cache.lookup key with
    | some node => do
      let lru ← LRU.InsertNode lru node
      some (lru, true)
    | none => some (lru, false)

/-- The method `LRU.Len`. -/
def LRU.Len (lru : LRU) : Int := lru.cache.keys.card

/-- The method `LRU.Stats`. -/
def LRU.Stats (lru : LRU) : Stats := lru.stats

/-! ## fifo.go -/

/-- The function `NewFifo`. -/
def NewFifo (limit : Int) : FIFO :=
  { limit := limit
    currentSize := 0
    stats := { Hits := 0, Misses := 0 }
    cache := ∅
    dummyLeft := { key := "", value := [], storage := 0, next := .right, prev := .null }
    dummyRight := { key := "", value := [], storage := 0, next := .null, prev := .left }
    heap := [] }

/-- The method `FIFO.RemainingStorage`. -/
def FIFO.RemainingStorage (fifo : FIFO) : Int := fifo.limit - fifo.currentSize

/-- The method `FIFO.Get`. -/
def FIFO.Get (fifo : FIFO) (key : String) : Option (FIFO × List UInt8 × Bool) :=
  match fifo.cache.lookup key with
  | some node => do
    let fifo := { fifo with stats := { fifo.stats with Hits := fifo.stats.Hits + 1 } }
    let n ← fifo.load node
    some (fifo, n.value, true)
  | none =>
    some ({ fifo with stats := { fifo.stats with Misses := fifo.stats.Misses + 1 } }, [], false)

/-- The method `FIFO.RemoveNode`. -/
def FIFO.RemoveNode (fifo : FIFO) (node : Ptr) : Option FIFO := do
  let n ← fifo.load node
  let prevNode := n.prev
  let nextNode := n.next
  let fifo ← fifo.setNext prevNode nextNode
  fifo.setPrev nextNode prevNode

/-- The method `FIFO.InsertNode`. -/
def FIFO.InsertNode (fifo : FIFO) (node : Ptr) : Option FIFO := do
  let tail := fifo.dummyRight.prev
  let fifo ← fifo.setNext node .right
  let fifo ← fifo.setPrev .right node
  let fifo ← fifo.setPrev node tail
  fifo.setNext tail node

/-- The method `FIFO.Remove`. -/
def FIFO.Remove (fifo : FIFO) (key : String) : Option (FIFO × List UInt8 × Bool) :=
  match fifo.cache.lookup key with
  | some node => do
    let n ← fifo.load node
    let value := n.value
    let fifo := { fifo with currentSize := fifo.currentSize - n.storage }
    let fifo ← FIFO.RemoveNode fifo node
    let fifo := { fifo with cache := fifo.cache.erase key }
    some (fifo, value, true)
  | none => some (fifo, [], false)

/-- The loop `for fifo.currentSize > fifo.limit { ... }` of `FIFO.Set`, run
for at most `fuel` iterations (`none` when the condition still holds after
them). -/
def FIFO.evict : Nat → FIFO → Option FIFO
  | 0, fifo => if fifo.currentSize > fifo.limit then none else some fifo
  | fuel + 1, fifo =>
    if fifo.currentSize > fifo.limit then do
      let oldest := fifo.dummyLeft.next
      let n ← fifo.load oldest
      let fifo := { fifo with currentSize := fifo.currentSize - n.storage }
      let fifo ← FIFO.RemoveNode fifo oldest
      let n ← fifo.load oldest
      let fifo := { fifo with cache := fifo.cache.erase n.key }
      FIFO.evict fuel fifo
    else some fifo

/-- The method `FIFO.Set`. The eviction loop is given one iteration for every
allocated node. -/
def FIFO.Set (fifo : FIFO) (key : String) (value : List UInt8) : Option (FIFO × Bool) :=
  let bindingSize : Int := (key.utf8ByteSize : Int) + (value.length : Int)
  if bindingSize > fifo.limit then some (fifo, false)
  else
    match fifo.cache.lookup key with
    | some node => do
      let n ← fifo.load node
      let fifo := { fifo with currentSize := fifo.currentSize - n.storage }
      let fifo ← fifo.setValue node value
      let fifo ← fifo.setStorage node bindingSize
      let fifo := { fifo with currentSize := fifo.currentSize + bindingSize }
      some (fifo, true)
    | none => do
      let (fifo, newNode) := fifo.alloc key value bindingSize
      let fifo := { fifo with cache := fifo.cache.insert key newNode }
      let fifo := { fifo with currentSize := fifo.currentSize + bindingSize }
      let fifo ← FIFO.evict fifo.heap.length fifo
      let fifo ← FIFO.InsertNode fifo newNode
      some (fifo, true)

/-- The method `FIFO.Len`. -/
def FIFO.Len (fifo : FIFO) : Int := fifo.cache.keys.card

/-- The method `FIFO.Stats`. -/
def FIFO.Stats (fifo : FIFO) : Stats := fifo.stats

/-! ## Call sequences and what a caller can observe -/

/-- One call of the public interface that changes or reads the bindings. -/
inductive Op where
  | set (key : String) (value : List UInt8)
  | get (key : String)
  | remove (key : String)
deriving DecidableEq, Repr

/-- The cache after one call on an LRU. -/
def LRU.step (lru : LRU) : Op → Option LRU
  | .set key value => (LRU.Set lru key value).map (·.1)
  | .get key => (LRU.Get lru key).map (·.1)
  | .remove key => (LRU.Remove lru key).map (·.1)

/-- The cache after one call on a FIFO. -/
def FIFO.step (fifo : FIFO) : Op → Option FIFO
  | .set key value => (FIFO.Set fifo key value).map (·.1)
  | .get key => (FIFO.Get fifo key).map (·.1)
  | .remove key => (FIFO.Remove fifo key).map (·.1)

/-- The cache after a sequence of calls on an LRU, first call first. -/
def LRU.run (lru : LRU) : List Op → Option LRU
  | [] => some lru
  | op :: ops => (LRU.step lru op).bind (fun lru => LRU.run lru ops)

/-- The cache after a sequence of calls on a FIFO, first call first. -/
def FIFO.run (fifo : FIFO) : List Op → Option FIFO
  | [] => some fifo
  | op :: ops => (FIFO.step fifo op).bind (fun fifo => FIFO.run fifo ops)

/-- The nodes met when following `next` from `p` until a pointer that is not
an allocated node (in a well-formed list: `&dummyRight`), at most `fuel` of
them. -/
def Cache.walk (s : Cache) : Nat → Ptr → List Node
  | 0, _ => []
  | fuel + 1, .node i =>
    match s.heap[i]? with
    | some n => n :: Cache.walk s fuel n.next
    | none => []
  | _ + 1, _ => []

/-- The eviction list, head first: the nodes from `dummyLeft.next` on. -/
def Cache.nodes (s : Cache) : List Node := s.walk s.heap.length s.dummyLeft.next

/-- The eviction order as data: key, value and stored size of every node of
the eviction list, the next one to be evicted first. -/
def Cache.entries (s : Cache) : List (String × List UInt8 × Int) :=
  s.nodes.map (fun n => (n.key, n.value, n.storage))

/-- The keys in eviction order. -/
def Cache.order (s : Cache) : List String := s.nodes.map (·.key)

/-- The value bound to a key in the store (the map), if any. -/
def Cache.binding (s : Cache) (key : String) : Option (List UInt8) :=
  match s.cache.lookup key with
  | some p => (s.load p).map (·.value)
  | none => none

/-! ## The eviction list as a sequence

The proofs read the doubly linked list between the two sentinels as a
sequence of entries. The definitions below say when a sequence describes the
memory of a cache; none of them is used by the operations above. -/

/-- The `next` field read through a pointer. -/
def Cache.nextOf (s : Cache) (p : Ptr) : Option Ptr := (s.load p).map (·.next)

/-- The `prev` field read through a pointer. -/
def Cache.prevOf (s : Cache) (p : Ptr) : Option Ptr := (s.load p).map (·.prev)

/-- The fields `key`, `value`, `storage` read through a pointer. -/
def Cache.dataOf (s : Cache) (p : Ptr) : Option (String × List UInt8 × Int) :=
  (s.load p).map (fun n => (n.key, n.value, n.storage))

/-- From `p` the `next` links run through the nodes at the addresses of the
list, in order, and end at `&dummyRight`; the `prev` links run back. -/
def ChainF (N P : Ptr → Option Ptr) : Ptr → List Nat → Prop
  | p, [] => N p = some .right ∧ P .right = some p
  | p, i :: l => N p = some (.node i) ∧ P (.node i) = some p ∧ ChainF N P (.node i) l

/-- The last pointer of the chain that starts at `p` and runs through `l`. -/
def lastPtr : Ptr → List Nat → Ptr
  | p, [] => p
  | _, i :: l => lastPtr (.node i) l

/-- The first pointer of a chain segment, `&dummyRight` when it is empty. -/
def headPtr : List Nat → Ptr
  | [] => .right
  | i :: _ => .node i

/-- Everything but the memory of the nodes is the same in both caches. -/
structure Frame (s s' : Cache) : Prop where
  limit : s'.limit = s.limit
  currentSize : s'.currentSize = s.currentSize
  stats : s'.stats = s.stats
  cache : s'.cache = s.cache
  heapLen : s'.heap.length = s.heap.length

/-- What an update of links leaves alone: all fields of the cache but the
node memory, and in the node memory the key, value and size of every node. -/
structure SameData (s s' : Cache) : Prop where
  frame : Frame s s'
  data : ∀ x, s'.dataOf x = s.dataOf x

/-- One binding as the proofs see it: the address of its node, its key and
its value. -/
structure Entry where
  addr : Nat
  key : String
  value : List UInt8
deriving DecidableEq, Repr

/-- The cost of a binding, `len(key) + len(value)`. -/
def Entry.size (e : Entry) : Int := (e.key.utf8ByteSize : Int) + (e.value.length : Int)

/-- The total cost of a sequence of bindings. -/
def sizeSum (l : List Entry) : Int := (l.map Entry.size).sum

/-- Key, value and cost of a binding. -/
def Entry.view (e : Entry) : String × List UInt8 × Int := (e.key, e.value, e.size)

/-- The node memory of `s` holds the list `l`: the nodes are distinct, they
are linked in this order between the sentinels, and each holds its key, its
value and their cost. -/
structure Shape (s : Cache) (l : List Entry) : Prop where
  nodup : (l.map (·.addr)).Nodup
  chain : ChainF s.nextOf s.prevOf .left (l.map (·.addr))
  data : ∀ e ∈ l, s.dataOf (.node e.addr) = some e.view

/-- The cache `s` holds exactly the bindings `l`, in eviction order: the list
and the map agree, keys are unique, and `currentSize` is their total cost. -/
structure Inv (s : Cache) (l : List Entry) : Prop where
  shape : Shape s l
  keys : (l.map (·.key)).Nodup
  cache : ∀ k p, s.cache.lookup k = some p ↔ ∃ e ∈ l, e.key = k ∧ p = .node e.addr
  size : s.currentSize = sizeSum l

/-- The state inside `Set` between the insertion into the map and the
insertion into the list: the list holds `l`, the map holds `l` and the new
binding `e`, and `currentSize` counts both. -/
structure PreInv (s : Cache) (l : List Entry) (e : Entry) : Prop where
  shape : Shape s l
  keys : ((l ++ [e]).map (·.key)).Nodup
  fresh : e.addr ∉ l.map (·.addr)
  data : s.dataOf (.node e.addr) = some e.view
  cache : ∀ k p, s.cache.lookup k = some p ↔ ∃ x ∈ l ++ [e], x.key = k ∧ p = .node x.addr
  size : s.currentSize = sizeSum l + e.size

/-- The number of iterations of the eviction loop when it starts with
`currentSize = c` on the list `l`: it stops at the first test
`currentSize > limit` that fails. -/
def evictCount (limit : Int) : Int → List Entry → Nat
  | _, [] => 0
  | c, e :: es => if c > limit then evictCount limit (c - e.size) es + 1 else 0

/-- The state of `Set` right before its eviction loop, for a key that is in
no node of the list: the new node is allocated and entered into the map, and
`currentSize` counts it. -/
def Cache.installed (s : Cache) (k : String) (v : List UInt8) : Cache :=
  { limit := s.limit
    currentSize := s.currentSize + ((k.utf8ByteSize : Int) + (v.length : Int))
    stats := s.stats
    cache := s.cache.insert k (.node s.heap.length)
    dummyLeft := s.dummyLeft
    dummyRight := s.dummyRight
    heap := s.heap ++ [{ key := k, value := v,
                         storage := (k.utf8ByteSize : Int) + (v.length : Int),
                         next := .null, prev := .null }] }

/-! ## Both policies at once, and what the theorems observe -/

/-- The two eviction policies of the package. -/
inductive Policy where
  | lru
  | fifo
deriving DecidableEq, Repr

/-- The constructor of a policy: `NewLru` or `NewFifo`. -/
def Policy.New : Policy → Int → Cache
  | .lru => NewLru
  | .fifo => NewFifo

/-- The method `Set` of a policy. -/
def Policy.Set : Policy → Cache → String → List UInt8 → Option (Cache × Bool)
  | .lru => LRU.Set
  | .fifo => FIFO.Set

/-- The method `Get` of a policy. -/
def Policy.Get : Policy → Cache → String → Option (Cache × List UInt8 × Bool)
  | .lru => LRU.Get
  | .fifo => FIFO.Get

/-- The method `Remove` of a policy. -/
def Policy.Remove : Policy → Cache → String → Option (Cache × List UInt8 × Bool)
  | .lru => LRU.Remove
  | .fifo => FIFO.Remove

/-- A sequence of calls on a cache of a policy. -/
def Policy.run : Policy → Cache → List Op → Option Cache
  | .lru => LRU.run
  | .fifo => FIFO.run

/-- The states a cache of policy `p` can be in: those reached from its
constructor by a finite sequence of `Set`, `Get` and `Remove` calls. -/
def Reachable (p : Policy) (s : Cache) : Prop :=
  ∃ limit ops, p.run (p.New limit) ops = some s

/-- A cache of 10 bytes after `Set("a", "12345")`, `Set("b", "1")` and
`Set("c", "2")`. -/
def demoThree (p : Policy) : Cache :=
  (p.run (p.New 10) [.set "a" (bytes "12345"), .set "b" (bytes "1"), .set "c" (bytes "2")]).getD
    (p.New 10)

/-- A call that is not a `Get`. -/
def Op.isUpdate : Op → Bool
  | .get _ => false
  | _ => true

/-- Two caches hold the same bindings in the same nodes and the same order,
under the same limit: they differ at most in their counters and in the links
of nodes that are no longer in the list. -/
def SameBindings (s t : Cache) : Prop :=
  ∃ l, Inv s l ∧ Inv t l ∧ s.limit = t.limit ∧ s.heap.length = t.heap.length

/-- The addresses of the nodes met when following `next` from `p`, at most
`fuel` of them. -/
def Cache.walkAddrs (s : Cache) : Nat → Ptr → List Nat
  | 0, _ => []
  | fuel + 1, .node i =>
    match s.heap[i]? with
    | some n => i :: Cache.walkAddrs s fuel n.next
    | none => []
  | _ + 1, _ => []

/-- The addresses of the nodes of the eviction list, head first. Addresses
are handed out in increasing order, so the address of a node tells when it
was allocated. -/
def Cache.addrs (s : Cache) : List Nat := s.walkAddrs s.heap.length s.dummyLeft.next

/-! ## Return values, quiet sequences and the instrumented Set -/

/-- What a call of the public interface returns. -/
inductive Ret where
  | set (ok : Bool)
  | get (value : List UInt8) (ok : Bool)
  | remove (value : List UInt8) (ok : Bool)
deriving DecidableEq, Repr

/-- One call on a cache of a policy: the cache afterwards and what the call
returned. -/
def Policy.call (p : Policy) (s : Cache) : Op → Option (Cache × Ret)
  | .set key value => (p.Set s key value).map (fun r => (r.1, .set r.2))
  | .get key => (p.Get s key).map (fun r => (r.1, .get r.2.1 r.2.2))
  | .remove key => (p.Remove s key).map (fun r => (r.1, .remove r.2.1 r.2.2))

/-- A sequence of calls on a cache of a policy, first call first: the cache
afterwards and what the calls returned, in order. -/
def Policy.exec (p : Policy) : Cache → List Op → Option (Cache × List Ret)
  | s, [] => some (s, [])
  | s, op :: ops =>
    (p.call s op).bind (fun r => (p.exec r.1 ops).map (fun q => (q.1, r.2 :: q.2)))

/-- The return value of a `Get` with `ok = true`. -/
def Ret.isHit : Ret → Bool
  | .get _ true => true
  | _ => false

/-- The return value of a `Get` with `ok = false`. -/
def Ret.isMiss : Ret → Bool
  | .get _ false => true
  | _ => false

/-- A call that repositions nothing in either policy: not a `Get` and not a
`Set` on a key that is bound. -/
def Op.isQuiet (s : Cache) : Op → Bool
  | .set key _ => decide (key ∉ s.cache)
  | .get key => decide (key ∉ s.cache)
  | .remove _ => true

/-- A sequence of calls, run on a cache of policy `p`, in which no `Get` and
no `Set` is made on a key bound at that time. -/
def Policy.quiet (p : Policy) : Cache → List Op → Bool
  | _, [] => true
  | s, op :: ops =>
    op.isQuiet s && (match p.call s op with
      | some r => p.quiet r.1 ops
      | none => false)

/-- The eviction loop of `LRU.Set` with a record of the nodes it unlinks:
the body is that of `LRU.evict`, and the pointer `lruNode` of every iteration
is appended to the record. -/
def LRU.evictLog : Nat → LRU → Option (LRU × List Ptr)
  | 0, lru => if lru.currentSize > lru.limit then none else some (lru, [])
  | fuel + 1, lru =>
    if lru.currentSize > lru.limit then do
      let lruNode := lru.dummyLeft.next
      let n ← lru.load lruNode
      let lru := { lru with currentSize := lru.currentSize - n.storage }
      let lru ← LRU.RemoveNode lru lruNode
      let n ← lru.load lruNode
      let lru := { lru with cache := lru.cache.erase n.key }
      let r ← LRU.evictLog fuel lru
      some (r.1, lruNode :: r.2)
    else some (lru, [])

/-- The method `LRU.Set` with the number of iterations allowed to its
eviction loop as a parameter and with the record of the nodes the loop
unlinks: the body is that of `LRU.Set`. -/
def LRU.SetLog (fuel : Nat) (lru : LRU) (key : String) (value : List UInt8) :
    Option (LRU × Bool × List Ptr) :=
  let bindingSize : Int := (key.utf8ByteSize : Int) + (value.length : Int)
  if bindingSize > lru.limit then some (lru, false, [])
  else do
    let lru ← (match lru.cache.lookup key with
      | some node => do
        let n ← lru.load node
        let lru := { lru with currentSize := lru.currentSize - n.storage }
        LRU.RemoveNode lru node
      | none => some lru)
    let (lru, newNode) := lru.alloc key value bindingSize
    let lru := { lru with cache := lru.cache.insert key newNode }
    let n ← lru.load (lru.index key)
    let lru := { lru with currentSize := lru.currentSize + n.storage }
    let (lru, log) ← LRU.evictLog fuel lru
    match lru.cache.lookup key with
    | some node => do
      let lru ← LRU.InsertNode lru node
      some (lru, true, log)
    | none => some (lru, false, log)

/-- The eviction loop of `FIFO.Set` with a record of the nodes it unlinks:
the body is that of `FIFO.evict`, and the pointer `oldest` of every iteration
is appended to the record. -/
def FIFO.evictLog : Nat → FIFO → Option (FIFO × List Ptr)
  | 0, fifo => if fifo.currentSize > fifo.limit then none else some (fifo, [])
  | fuel + 1, fifo =>
    if fifo.currentSize > fifo.limit then do
      let oldest := fifo.dummyLeft.next
      let n ← fifo.load oldest
      let fifo := { fifo with currentSize := fifo.currentSize - n.storage }
      let fifo ← FIFO.RemoveNode fifo oldest
      let n ← fifo.load oldest
      let fifo := { fifo with cache := fifo.cache.erase n.key }
      let r ← FIFO.evictLog fuel fifo
      some (r.1, oldest :: r.2)
    else some (fifo, [])

/-- The method `FIFO.Set` with the number of iterations allowed to its
eviction loop as a parameter and with the record of the nodes the loop
unlinks: the body is that of `FIFO.Set`. -/
def FIFO.SetLog (fuel : Nat) (fifo : FIFO) (key : String) (value : List UInt8) :
    Option (FIFO × Bool × List Ptr) :=
  let bindingSize : Int := (key.utf8ByteSize : Int) + (value.length : Int)
  if bindingSize > fifo.limit then some (fifo, false, [])
  else
    match fifo.cache.lookup key with
    | some node => do
      let n ← fifo.load node
      let fifo := { fifo with currentSize := fifo.currentSize - n.storage }
      let fifo ← fifo.setValue node value
      let fifo ← fifo.setStorage node bindingSize
      let fifo := { fifo with currentSize := fifo.currentSize + bindingSize }
      some (fifo, true, [])
    | none => do
      let (fifo, newNode) := fifo.alloc key value bindingSize
      let fifo := { fifo with cache := fifo.cache.insert key newNode }
      let fifo := { fifo with currentSize := fifo.currentSize + bindingSize }
      let (fifo, log) ← FIFO.evictLog fuel fifo
      let fifo ← FIFO.InsertNode fifo newNode
      some (fifo, true, log)

/-- The method `Set` of a policy with a bound on its eviction loop and the
record of the nodes the loop unlinks. -/
def Policy.SetLog : Policy → Nat → Cache → String → List UInt8 →
    Option (Cache × Bool × List Ptr)
  | .lru => LRU.SetLog
  | .fifo => FIFO.SetLog

/-! ## The call that inserted a key -/

/-- The key is bound after the first `n` calls of the sequence on
`NewFifo(limit)`. -/
def FIFO.boundAfter (limit : Int) (ops : List Op) (n : Nat) (key : String) : Bool :=
  match FIFO.run (NewFifo limit) (ops.take n) with
  | some s => decide (key ∈ s.cache)
  | none => false

/-- Among the first `n` calls of the sequence on `NewFifo(limit)`, call
number `i` (counted from 0) is the one that inserted `key` since the key was
last absent: it is a `Set` of `key`, the key is not bound before it, and the
key is bound after it and after every later one of the `n` calls. -/
def FIFO.insertedWithin (limit : Int) (ops : List Op) (n : Nat) (key : String) (i : Nat) :
    Bool :=
  decide (i < n) &&
    (match ops[i]? with
      | some (.set k _) => decide (k = key)
      | _ => false) &&
    !FIFO.boundAfter limit ops i key &&
    (List.range (n - i)).all (fun d => FIFO.boundAfter limit ops (i + 1 + d) key)

/-- In the whole sequence of calls on `NewFifo(limit)`, call number `i` is
the one that inserted `key` since the key was last absent. -/
def FIFO.insertedAt (limit : Int) (ops : List Op) (key : String) (i : Nat) : Bool :=
  FIFO.insertedWithin limit ops ops.length key i

/-- The calls `Set("a", "12345")`, `Set("b", "1")`, `Get("a")` and
`Set("a", "xy")`: the key "a" is read and updated after "b" was inserted. -/
def demoReadAndUpdate : List Op :=
  [.set "a" (bytes "12345"), .set "b" (bytes "1"), .get "a", .set "a" (bytes "xy")]

end InMemoryCache

/-! ## dorm.go: the conversion of names -/

namespace Dorm

/-- Go's `unicode.IsUpper` on the ASCII range: the letters 'A' to 'Z'. -/
def IsUpper (c : Char) : Bool := c.isUpper

/-- Go's `unicode.IsLower` on the ASCII range: the letters 'a' to 'z'. -/
def IsLower (c : Char) : Bool := c.isLower

/-- Go's `unicode.ToUpper` on the ASCII range. -/
def ToUpper (c : Char) : Char := c.toUpper

/-- Go's `unicode.ToLower` on the ASCII range. -/
def ToLower (c : Char) : Char := c.toLower

/-- Go's `strings.ToLower` on an ASCII string. -/
def stringsToLower (s : List Char) : List Char := s.map ToLower

/-- The condition `j < len(field) && unicode.IsUpper(rune(field[j]))`. -/
def upperAt (field : List Char) (j : Nat) : Bool :=
  match field[j]? with
  | some c => IsUpper c
  | none => false

/-- The condition `j < len(field) && unicode.IsLower(rune(field[j]))`. -/
def lowerAt (field : List Char) (j : Nat) : Bool :=
  match field[j]? with
  | some c => IsLower c
  | none => false

/-- The first inner loop of `CamelToUnderscore` (over a run of capitals),
started with the given `j`: the value of `j` when the loop is left. Every
iteration increases `j`, so `len(field)` iterations are enough. -/
def scanUpper (field : List Char) : Nat → Nat → Nat
  | 0, j => j
  | fuel + 1, j =>
    if upperAt field j then
      if lowerAt field (j + 1) then j
      else scanUpper field fuel (j + 1)
    else j

/-- The loops `for j < len(field) && unicode.IsLower(rune(field[j])) { j++ }`
of `CamelToUnderscore`: the value of `j` when the loop is left. -/
def scanLower (field : List Char) : Nat → Nat → Nat
  | 0, j => j
  | fuel + 1, j =>
    if lowerAt field j then scanLower field fuel (j + 1)
    else j

/-- The outer loop of `CamelToUnderscore`, started with the given `i`: the
components `field[i:j]` it appends. -/
def components (field : List Char) : Nat → Nat → List (List Char)
  | 0, _ => []
  | fuel + 1, i =>
    if i < field.length then
      let j :=
        if upperAt field i then
          scanLower field field.length (scanUpper field field.length (i + 1))
        else scanLower field field.length (i + 1)
      (field.drop i).take (j - i) :: components field fuel j
    else []

/-- The loop over the components in `CamelToUnderscore`, from index `i` on:
what it writes to the builder. -/
def writeComponents : Nat → List (List Char) → List Char
  | _, [] => []
  | i, component :: rest =>
    (if i > 0 then ['_'] else []) ++ stringsToLower component ++ writeComponents (i + 1) rest

/-- The function `CamelToUnderscore`. A Go string is indexed by bytes and the
model by characters, which is the same on ASCII strings. -/
def CamelToUnderscore (field : String) : String :=
  String.mk (writeComponents 0 (components field.data field.data.length 0))

/-- The loop of `UnderscoreToCamel`: the builder and the flag
`capitalizeNext` after one more character. -/
def camelStep (st : List Char × Bool) (char : Char) : List Char × Bool :=
  if char = '_' then (st.1, true)
  else if st.2 then (st.1 ++ [ToUpper char], false)
  else (st.1 ++ [ToLower char], false)

/-- The function `UnderscoreToCamel`. -/
def UnderscoreToCamel (field : String) : String :=
  String.mk (field.data.foldl camelStep ([], true)).1

/-- A word with its first letter upper-cased and its remaining letters
lower-cased. -/
def capitalizeSpec : List Char → List Char
  | [] => []
  | c :: rest => c.toUpper :: rest.map Char.toLower

/-- The words of a string: its non-empty maximal underscore-free parts, in
order. -/
def wordsSpec (s : List Char) : List (List Char) :=
  (s.splitOn '_').filter (fun w => w ≠ [])

/-- What the claim says `UnderscoreToCamel` returns: the words of the string,
each capitalised, one after the other. -/
def underscoreToCamelSpec (s : List Char) : List Char :=
  ((wordsSpec s).map capitalizeSpec).flatten

/-- Position `i` starts a new word: `i > 0`, `s[i]` is upper case, and
either `s[i-1]` is lower case or `s[i+1]` exists and is lower case. -/
def isWordStart (s : List Char) (i : Nat) : Bool :=
  decide (0 < i) && upperAt s i && (lowerAt s (i - 1) || lowerAt s (i + 1))

/-- What the claim puts at position `i` of the result: an underscore when a
word starts there, then the lower-cased `s[i]`. -/
def specAt (s : List Char) (i : Nat) : List Char :=
  (if isWordStart s i then ['_'] else []) ++ (s[i]?).toList.map Char.toLower

/-- What the claim says `CamelToUnderscore` returns: the lower-cased string
with one underscore before exactly the positions where a word starts. -/
def camelToUnderscoreSpec (s : List Char) : List Char :=
  (List.range s.length).flatMap (specAt s)

/-! ### dorm.go: table, columns and the statement of Create -/

/-- A field of a struct type as package `reflect` shows it: its name, its
package path (empty for an exported field) and the value of its `dorm` tag
(`field.Tag.Get("dorm")`, empty when there is none). -/
structure StructField where
  Name : String
  PkgPath : String
  DormTag : String
deriving DecidableEq, Repr

/-- A struct type as package `reflect` shows it: the type that
`reflect.TypeOf(v).Elem()` gives for a pointer to a model. -/
structure StructType where
  Name : String
  Fields : List StructField
deriving DecidableEq, Repr

/-- The function `ColumnNames` on the struct type of its argument. -/
def ColumnNames (structType : StructType) : List String :=
  structType.Fields.foldl
    (fun columnNames field =>
      if field.PkgPath = "" then columnNames ++ [CamelToUnderscore field.Name]
      else columnNames) []

/-- The function `TableName` on the struct type of its argument. -/
def TableName (structType : StructType) : String :=
  CamelToUnderscore structType.Name

/-- Go's `strings.Join(elems, sep)`. -/
def stringsJoin (elems : List String) (sep : String) : String :=
  sep.intercalate elems

/-- One iteration of the loop over the fields in `Create`: the slices
`colNames` and `placeHolder` after it. -/
def createStep (st : List String × List String) (field : StructField) :
    List String × List String :=
  if field.DormTag = "primary_key" then st
  else (st.1 ++ [UnderscoreToCamel field.Name], st.2 ++ ["?"])

/-- The string `queryStatement` that `Create` passes to `Exec`, for a model
of the given struct type. -/
def createQueryStatement (modelType : StructType) : String :=
  let tableName := TableName modelType
  let st := modelType.Fields.foldl createStep ([], [])
  "INSERT INTRO " ++ tableName ++ " (" ++ stringsJoin st.1 ", " ++ ") VALUES (" ++
    stringsJoin st.2 ", "

/-- The statement the claim describes for table `t` and columns `c1..cn`:
`INSERT INTO t (c1, ..., cn) VALUES (?, ..., ?)` with `n` placeholders. -/
def insertStatementSpec (t : String) (columns : List String) : String :=
  "INSERT INTO " ++ t ++ " (" ++ ", ".intercalate columns ++ ") VALUES (" ++
    ", ".intercalate (columns.map (fun _ => "?")) ++ ")"

/-- The statement the claim describes for a model type: the columns are the
underscore_case names of the fields that are not the primary key. -/
def createStatementSpec (modelType : StructType) : String :=
  insertStatementSpec (CamelToUnderscore modelType.Name)
    ((modelType.Fields.filter (fun field => field.DormTag ≠ "primary_key")).map
      (fun field => CamelToUnderscore field.Name))

/-- The type `User` of dorm_test.go. -/
def userType : StructType :=
  ⟨"User", [⟨"FirstName", "", ""⟩, ⟨"LastName", "", ""⟩]⟩

/-- The words joined by single underscores. -/
def joinWords (words : List (List Char)) : String :=
  String.mk (['_'].intercalate words)

/-- The character before or after a position is a lower-case letter (`none`
when there is no such character). -/
def lowerOpt : Option Char → Bool
  | some c => c.isLower
  | none => false

/-- The claim's description of `CamelToUnderscore`, read from left to right:
`previous` is the character before the rest of the string. -/
def renderFrom (previous : Option Char) : List Char → List Char
  | [] => []
  | c :: rest =>
    (if previous.isSome && c.isUpper && (lowerOpt previous || lowerOpt rest.head?) then ['_']
      else []) ++ c.toLower :: renderFrom (some c) rest

end Dorm

/-! ## router.go: the precedence of dynamic routes -/

namespace HttpRouter

/-- The struct `RoutesField`. The handler function is stood for by an
identifier. -/
structure RoutesField where
  Method : String
  Pattern : String
  Handler : Nat
deriving DecidableEq, Repr

/-- Go's `strings.Split(s, "/")`: the components of a pattern. -/
def stringsSplit (s : String) : List (List Char) := s.data.splitOn '/'

/-- Go's `strings.HasPrefix(component, ":")`: the component is a capture. -/
def isCapture (component : List Char) : Bool :=
  match component with
  | c :: _ => decide (c = ':')
  | [] => false

/-- The loop of `IsHigherPrecedence` over the indices below both lengths:
the value it returns from inside the loop, or `none` when the loop ends. -/
def precedenceLoop : List (List Char) → List (List Char) → Option Bool
  | current :: currentRest, best :: bestRest =>
    if isCapture current && !isCapture best then some false
    else if !isCapture current && isCapture best then some true
    else precedenceLoop currentRest bestRest
  | _, _ => none

/-- The function `IsHigherPrecedence`. -/
def IsHigherPrecedence (currentPattern bestPattern : String) : Bool :=
  let currentPatternSplit := stringsSplit currentPattern
  let bestPatternSplit := stringsSplit bestPattern
  match precedenceLoop currentPatternSplit bestPatternSplit with
  | some result => result
  | none => decide (currentPatternSplit.length < bestPatternSplit.length)

/-- One iteration of the loop over `dynamicRoutes` in `ServeHTTP`. The pair
of `bestRoute` and `bestRouteFound` is an optional route. -/
def bestStep (found : Option RoutesField) (route : RoutesField) : Option RoutesField :=
  match found with
  | none => some route
  | some best => if IsHigherPrecedence route.Pattern best.Pattern then some route else some best

/-- The loop over `dynamicRoutes` in `ServeHTTP`: the best route, if one was
found. -/
def bestRoute (dynamicRoutes : List RoutesField) : Option RoutesField :=
  dynamicRoutes.foldl bestStep none

/-- The number of non-capturing components to the left of the first capture
of a list of components (all of them when there is no capture). -/
def leadingStatic (components : List (List Char)) : Nat :=
  (components.takeWhile (fun component => !isCapture component)).length

/-- The number of non-capturing components to the left of the first capture
of a pattern. -/
def leadingStaticOf (pattern : String) : Nat := leadingStatic (stringsSplit pattern)

/-- Three routes that match `GET /users/nicholas/recent`. -/
def demoRoutes : List RoutesField :=
  [⟨"GET", ":a/:b/recent", 0⟩, ⟨"GET", "users/:user/:what", 1⟩, ⟨"GET", "users/:user/recent", 2⟩]

/-! ### router.go: AddRoute -/

/-- The struct `HTTPRouter`. -/
structure HTTPRouter where
  Routes : List RoutesField
deriving DecidableEq, Repr

/-- The function `NewRouter`: a router with no routes. -/
def NewRouter : HTTPRouter := ⟨[]⟩

/-- Go's `strings.ToUpper` restricted to ASCII strings, for calls whose
method is written in ASCII letters. `AddRoute` itself takes the library
function as a parameter, so what is proved of it holds for the upper-casing
of all of Unicode that Go performs. -/
def asciiToUpper (s : String) : String := String.mk (s.data.map Char.toUpper)

/-- Go's `strings.TrimPrefix(s, "/")`. -/
def trimLeadingSlash (s : String) : String :=
  match s.data with
  | '/' :: rest => String.mk rest
  | _ => s

/-- Go's `strings.TrimSuffix(s, "/")`. -/
def trimTrailingSlash (s : String) : String :=
  if s.data.getLast? = some '/' then String.mk s.data.dropLast else s

/-- The first lines of `AddRoute`: the pattern "/" becomes the empty pattern,
then one leading and one trailing '/' are cut off. -/
def normalisePattern (pattern : String) : String :=
  let pattern := if pattern = "/" then "" else pattern
  trimTrailingSlash (trimLeadingSlash pattern)

/-- The loop of `IsExistingPath` over the components, which it enters only
with two lists of the same length. -/
def existingPathLoop : List (List Char) → List (List Char) → Bool
  | newComponent :: newRest, existingComponent :: existingRest =>
    if isCapture existingComponent && isCapture newComponent then
      existingPathLoop newRest existingRest
    else if newComponent ≠ existingComponent then false
    else existingPathLoop newRest existingRest
  | _, _ => true

/-- The function `IsExistingPath`. -/
def IsExistingPath (newPattern existingPattern : String) : Bool :=
  let newPathSplit := stringsSplit newPattern
  let existingPathSplit := stringsSplit existingPattern
  if newPathSplit.length ≠ existingPathSplit.length then false
  else if newPattern = "" ∧ existingPattern = "" then true
  else existingPathLoop newPathSplit existingPathSplit

/-- The loop of `AddRoute` over `router.Routes`: the routes after the update
of the first entry that matches, or `none` when the loop ends without a
match. -/
def addRouteLoop (method pattern : String) (handler : Nat) :
    List RoutesField → Option (List RoutesField)
  | [] => none
  | route :: rest =>
    if route.Method = method ∧ route.Pattern = pattern then
      some ({ route with Handler := handler } :: rest)
    else if route.Method = method ∧ IsExistingPath pattern route.Pattern = true then
      some ({ route with Pattern := pattern, Handler := handler } :: rest)
    else (addRouteLoop method pattern handler rest).map (fun routes => route :: routes)

/-- The method `AddRoute`. The library function `strings.ToUpper` is the
parameter `stringsToUpper`. -/
def HTTPRouter.AddRoute (router : HTTPRouter) (stringsToUpper : String → String)
    (method pattern : String) (handler : Nat) : HTTPRouter :=
  let pattern := normalisePattern pattern
  let method := stringsToUpper method
  match addRouteLoop method pattern handler router.Routes with
  | some routes => ⟨routes⟩
  | none => ⟨router.Routes ++ [⟨method, pattern, handler⟩]⟩

/-- The arguments of one call of `AddRoute`. -/
structure AddRouteCall where
  method : String
  pattern : String
  handler : Nat
deriving DecidableEq, Repr

/-- The router reached from `NewRouter()` by a sequence of `AddRoute`
calls. -/
def routerAfter (stringsToUpper : String → String) (calls : List AddRouteCall) : HTTPRouter :=
  calls.foldl
    (fun router call => router.AddRoute stringsToUpper call.method call.pattern call.handler)
    NewRouter

/-- Two patterns are equal or differ only in the names of their captures:
they have the same number of components and, place by place, the two
components are both captures or are equal. -/
def sameUpToCaptureNames (p q : String) : Bool :=
  decide ((stringsSplit p).length = (stringsSplit q).length) &&
    (List.zipWith (fun a b => (isCapture a && isCapture b) || decide (a = b))
      (stringsSplit p) (stringsSplit q)).all id

/-- A component with the name of a capture forgotten. -/
def canonComponent (component : List Char) : List Char :=
  if isCapture component then [':'] else component

/-- What identifies a route: its method and its pattern with the names of
the captures forgotten. -/
def routeKey (route : RoutesField) : String × List (List Char) :=
  (route.Method, (stringsSplit route.Pattern).map canonComponent)

/-- The calls `AddRoute("get", "/users/:id/", 1)`,
`AddRoute("GET", "users/recent", 2)` and `AddRoute("post", "/", 3)`. -/
def demoCalls : List AddRouteCall :=
  [⟨"get", "/users/:id/", 1⟩, ⟨"GET", "users/recent", 2⟩, ⟨"post", "/", 3⟩]

end HttpRouter

namespace SocketClient

/-! ## client.go: the argument check of main -/

/-- How `main` of the client ends: with `log.Fatal` and the usage line, with
the run-time panic of an index out of range, or in the call of `client`. -/
inductive Outcome where
  | fatal (message : String)
  | indexOutOfRange (index : Nat) (length : Nat)
  | client (server_ip server_port : String)
deriving DecidableEq, Repr

/-- The function `main` of client.go on the argument vector `os.Args`. -/
def main (osArgs : List String) : Outcome :=
  if osArgs.length < 2 then
    .fatal "Usage: ./client [server IP] [server port] < [message file]"
  else
    match osArgs[1]? with
    | none => .indexOutOfRange 1 osArgs.length
    | some server_ip =>
      match osArgs[2]? with
      | none => .indexOutOfRange 2 osArgs.length
      | some server_port => .client server_ip server_port

end SocketClient

namespace InMemoryCache

/-! ## Chains of links -/

theorem lastPtr_mem (p : Ptr) (l : List Nat) :
    lastPtr p l = p ∨ ∃ i ∈ l, lastPtr p l = .node i := by
  induction l generalizing p with
  | nil => exact Or.inl rfl
  | cons a l ih =>
    rcases ih (.node a) with h | ⟨i, hi, h⟩
    · exact Or.inr ⟨a, List.mem_cons_self _ _, h⟩
    · exact Or.inr ⟨i, List.mem_cons_of_mem _ hi, h⟩

theorem lastPtr_append (p : Ptr) (l : List Nat) (i : Nat) :
    lastPtr p (l ++ [i]) = .node i := by
  induction l generalizing p with
  | nil => rfl
  | cons a l ih => exact ih _

theorem headPtr_cases (l : List Nat) :
    headPtr l = .right ∨ ∃ i ∈ l, headPtr l = .node i := by
  cases l with
  | nil => exact Or.inl rfl
  | cons a l => exact Or.inr ⟨a, List.mem_cons_self _ _, rfl⟩

theorem chainF_congr {N P N' P' : Ptr → Option Ptr} {p : Ptr} {l : List Nat}
    (h : ChainF N P p l)
    (hN : ∀ x, x = p ∨ (∃ i ∈ l, x = .node i) → N' x = N x)
    (hP : ∀ x, x = .right ∨ (∃ i ∈ l, x = .node i) → P' x = P x) :
    ChainF N' P' p l := by
  induction l generalizing p with
  | nil =>
    obtain ⟨h1, h2⟩ := h
    exact ⟨by rw [hN p (Or.inl rfl)]; exact h1, by rw [hP _ (Or.inl rfl)]; exact h2⟩
  | cons a l ih =>
    obtain ⟨h1, h2, h3⟩ := h
    refine ⟨by rw [hN p (Or.inl rfl)]; exact h1, ?_, ?_⟩
    · rw [hP _ (Or.inr ⟨a, List.mem_cons_self _ _, rfl⟩)]; exact h2
    · apply ih h3
      · intro x hx
        apply hN
        rcases hx with hx | ⟨i, hi, hx⟩
        · exact Or.inr ⟨a, List.mem_cons_self _ _, hx⟩
        · exact Or.inr ⟨i, List.mem_cons_of_mem _ hi, hx⟩
      · intro x hx
        apply hP
        rcases hx with hx | ⟨i, hi, hx⟩
        · exact Or.inl hx
        · exact Or.inr ⟨i, List.mem_cons_of_mem _ hi, hx⟩

theorem chainF_mid {N P : Ptr → Option Ptr} {p : Ptr} {l1 l2 : List Nat} {i : Nat}
    (h : ChainF N P p (l1 ++ i :: l2)) :
    P (.node i) = some (lastPtr p l1) ∧ N (.node i) = some (headPtr l2) ∧
      N (lastPtr p l1) = some (.node i) ∧ P (headPtr l2) = some (.node i) := by
  induction l1 generalizing p with
  | nil =>
    obtain ⟨h1, h2, h3⟩ := h
    refine ⟨h2, ?_, h1, ?_⟩
    · cases l2 with
      | nil => exact h3.1
      | cons b l2 => exact h3.1
    · cases l2 with
      | nil => exact h3.2
      | cons b l2 => exact h3.2.1
  | cons a l1 ih => exact ih h.2.2

theorem chainF_tail {N P : Ptr → Option Ptr} {p : Ptr} {l : List Nat}
    (h : ChainF N P p l) :
    P .right = some (lastPtr p l) ∧ N (lastPtr p l) = some .right := by
  induction l generalizing p with
  | nil => exact ⟨h.2, h.1⟩
  | cons a l ih => exact ih h.2.2

theorem chainF_remove {N P N' P' : Ptr → Option Ptr} {p : Ptr} {l1 l2 : List Nat} {i : Nat}
    (h : ChainF N P p (l1 ++ i :: l2)) (hnd : (l1 ++ i :: l2).Nodup)
    (hp : ∀ j ∈ l1 ++ i :: l2, p ≠ .node j) (hpr : p ≠ .right)
    (hN : ∀ x, N' x = if x = lastPtr p l1 then some (headPtr l2) else N x)
    (hP : ∀ x, P' x = if x = headPtr l2 then some (lastPtr p l1) else P x) :
    ChainF N' P' p (l1 ++ l2) := by
  induction l1 generalizing p with
  | nil =>
    obtain ⟨h1, h2, h3⟩ := h
    simp only [List.nil_append, lastPtr] at *
    have hnd' := List.nodup_cons.mp hnd
    cases l2 with
    | nil =>
      refine ⟨?_, ?_⟩
      · rw [hN]; simp [headPtr]
      · rw [hP]; simp [headPtr]
    | cons b l2 =>
      obtain ⟨c1, c2, c3⟩ := h3
      have hnd2 := List.nodup_cons.mp hnd'.2
      refine ⟨?_, ?_, ?_⟩
      · rw [hN]; simp [headPtr]
      · rw [hP]; simp [headPtr]
      · apply chainF_congr c3
        · intro x hx
          rw [hN, if_neg]
          rcases hx with hx | ⟨j, hj, hx⟩
          · subst hx; exact fun e => hp b (by simp) e.symm
          · subst hx; exact fun e => hp j (by simp [hj]) e.symm
        · intro x hx
          rw [hP, if_neg]
          rcases hx with hx | ⟨j, hj, hx⟩
          · subst hx; simp [headPtr]
          · subst hx; simp only [headPtr, Ptr.node.injEq]
            rintro rfl; exact hnd2.1 hj
  | cons a l1 ih =>
    obtain ⟨h1, h2, h3⟩ := h
    have hnd' := List.nodup_cons.mp (by simpa using hnd : (a :: (l1 ++ i :: l2)).Nodup)
    have ih' := ih h3 hnd'.2 (fun j hj e => hnd'.1 (by have := Ptr.node.inj e; subst this; exact hj))
      (by simp) (by simpa [lastPtr] using hN) (by simpa [lastPtr] using hP)
    refine ⟨?_, ?_, ih'⟩
    · rw [hN, if_neg]; exact h1
      simp only [lastPtr]
      rcases lastPtr_mem (.node a) l1 with e | ⟨j, hj, e⟩
      · rw [e]; exact hp a (by simp)
      · rw [e]; exact hp j (by simp [hj])
    · rw [hP, if_neg]; exact h2
      rcases headPtr_cases l2 with e | ⟨j, hj, e⟩
      · rw [e]; simp
      · rw [e]; simp only [Ptr.node.injEq]
        rintro rfl; exact hnd'.1 (by simp [hj])

theorem chainF_insert {N P N' P' : Ptr → Option Ptr} {p : Ptr} {l : List Nat} {i : Nat}
    (h : ChainF N P p l) (hnd : l.Nodup) (hi : i ∉ l)
    (hp : ∀ j ∈ l, p ≠ .node j) (hpi : p ≠ .node i) (hpr : p ≠ .right)
    (hN : ∀ x, N' x = if x = .node i then some .right
                      else if x = lastPtr p l then some (.node i) else N x)
    (hP : ∀ x, P' x = if x = .right then some (.node i)
                      else if x = .node i then some (lastPtr p l) else P x) :
    ChainF N' P' p (l ++ [i]) := by
  induction l generalizing p with
  | nil =>
    simp only [List.nil_append, lastPtr] at *
    refine ⟨?_, ?_, ?_, ?_⟩
    · rw [hN, if_neg hpi]; simp
    · rw [hP]; simp
    · rw [hN]; simp
    · rw [hP]; simp
  | cons a l ih =>
    obtain ⟨h1, h2, h3⟩ := h
    have hnd' := List.nodup_cons.mp hnd
    have hia : i ≠ a := fun e => hi (by simp [e])
    have ih' := ih h3 hnd'.2 (fun e => hi (by simp [e]))
      (fun j hj e => hnd'.1 (by have := Ptr.node.inj e; subst this; exact hj))
      (by simp only [ne_eq, Ptr.node.injEq]; exact fun e => hia e.symm) (by simp)
      (by simpa [lastPtr] using hN) (by simpa [lastPtr] using hP)
    refine ⟨?_, ?_, ih'⟩
    · rw [hN, if_neg hpi, if_neg]; exact h1
      simp only [lastPtr]
      rcases lastPtr_mem (.node a) l with e | ⟨j, hj, e⟩
      · rw [e]; exact hp a (by simp)
      · rw [e]; exact hp j (by simp [hj])
    · rw [hP, if_neg (by simp), if_neg]; exact h2
      simp only [Ptr.node.injEq]; exact fun e => hia e.symm

/-! ## Memory: reads and writes through pointers -/

theorem Frame.frame_refl (s : Cache) : Frame s s := ⟨rfl, rfl, rfl, rfl, rfl⟩

theorem Frame.frame_trans {s t u : Cache} (h1 : Frame s t) (h2 : Frame t u) : Frame s u :=
  ⟨h2.limit.trans h1.limit, h2.currentSize.trans h1.currentSize, h2.stats.trans h1.stats,
   h2.cache.trans h1.cache, h2.heapLen.trans h1.heapLen⟩

theorem SameData.same_refl (s : Cache) : SameData s s := ⟨Frame.frame_refl s, fun _ => rfl⟩

theorem SameData.same_trans {s t u : Cache} (h1 : SameData s t) (h2 : SameData t u) :
    SameData s u :=
  ⟨h1.frame.frame_trans h2.frame, fun x => (h2.data x).trans (h1.data x)⟩

theorem dataOf_isSome (s : Cache) (p : Ptr) : (s.dataOf p).isSome = (s.load p).isSome := by
  simp [Cache.dataOf]

theorem nextOf_isSome (s : Cache) (p : Ptr) : (s.nextOf p).isSome = (s.load p).isSome := by
  simp [Cache.nextOf]

theorem prevOf_isSome (s : Cache) (p : Ptr) : (s.prevOf p).isSome = (s.load p).isSome := by
  simp [Cache.prevOf]

theorem SameData.same_valid {s s' : Cache} (h : SameData s s') (p : Ptr) :
    (s'.load p).isSome = (s.load p).isSome := by
  rw [← dataOf_isSome, ← dataOf_isSome, h.data]

theorem store_spec {s : Cache} {p : Ptr} (n : Node) (h : (s.load p).isSome) :
    ∃ s', s.store p n = some s' ∧ Frame s s' ∧
      ∀ x, s'.load x = if x = p then some n else s.load x := by
  cases p with
  | null => simp [Cache.load] at h
  | left =>
    refine ⟨_, rfl, ⟨rfl, rfl, rfl, rfl, rfl⟩, ?_⟩
    intro x; cases x <;> simp [Cache.load]
  | right =>
    refine ⟨_, rfl, ⟨rfl, rfl, rfl, rfl, rfl⟩, ?_⟩
    intro x; cases x <;> simp [Cache.load]
  | node i =>
    have hi : i < s.heap.length := by
      simp only [Cache.load] at h
      obtain ⟨n0, h0⟩ := Option.isSome_iff_exists.mp h
      exact (List.getElem?_eq_some_iff.mp h0).1
    refine ⟨{ s with heap := s.heap.set i n }, by simp [Cache.store, hi],
      ⟨rfl, rfl, rfl, rfl, by simp⟩, ?_⟩
    intro x
    cases x with
    | null => simp [Cache.load]
    | left => simp [Cache.load]
    | right => simp [Cache.load]
    | node j =>
      simp only [Cache.load, Ptr.node.injEq]
      rw [List.getElem?_set]
      by_cases e : i = j
      · subst e; simp [hi]
      · have e' : ¬ j = i := fun h => e h.symm
        simp [e, e']

theorem setNext_spec {s : Cache} {p : Ptr} (q : Ptr) (h : (s.load p).isSome) :
    ∃ s', s.setNext p q = some s' ∧ SameData s s' ∧
      (∀ x, s'.nextOf x = if x = p then some q else s.nextOf x) ∧
      (∀ x, s'.prevOf x = s.prevOf x) := by
  obtain ⟨n, hn⟩ := Option.isSome_iff_exists.mp h
  obtain ⟨s', h1, h2, h3⟩ := store_spec { n with next := q } h
  refine ⟨s', by simp [Cache.setNext, hn, h1], ⟨h2, ?_⟩, ?_, ?_⟩ <;> intro x
  · simp only [Cache.dataOf, h3]; split
    · next e => subst e; simp [hn]
    · rfl
  · simp only [Cache.nextOf, h3]; split
    · simp
    · rfl
  · simp only [Cache.prevOf, h3]; split
    · next e => subst e; simp [hn]
    · rfl

theorem setPrev_spec {s : Cache} {p : Ptr} (q : Ptr) (h : (s.load p).isSome) :
    ∃ s', s.setPrev p q = some s' ∧ SameData s s' ∧
      (∀ x, s'.nextOf x = s.nextOf x) ∧
      (∀ x, s'.prevOf x = if x = p then some q else s.prevOf x) := by
  obtain ⟨n, hn⟩ := Option.isSome_iff_exists.mp h
  obtain ⟨s', h1, h2, h3⟩ := store_spec { n with prev := q } h
  refine ⟨s', by simp [Cache.setPrev, hn, h1], ⟨h2, ?_⟩, ?_, ?_⟩ <;> intro x
  · simp only [Cache.dataOf, h3]; split
    · next e => subst e; simp [hn]
    · rfl
  · simp only [Cache.nextOf, h3]; split
    · next e => subst e; simp [hn]
    · rfl
  · simp only [Cache.prevOf, h3]; split
    · simp
    · rfl

theorem RemoveNode_spec {s : Cache} {node pp nn : Ptr}
    (hp : s.prevOf node = some pp) (hn : s.nextOf node = some nn)
    (hpv : (s.load pp).isSome) (hnv : (s.load nn).isSome) :
    ∃ s', LRU.RemoveNode s node = some s' ∧ SameData s s' ∧
      (∀ x, s'.nextOf x = if x = pp then some nn else s.nextOf x) ∧
      (∀ x, s'.prevOf x = if x = nn then some pp else s.prevOf x) := by
  obtain ⟨n, hl, rfl⟩ : ∃ n, s.load node = some n ∧ n.prev = pp := by
    simpa [Cache.prevOf] using hp
  have hn' : n.next = nn := by simpa [Cache.nextOf, hl] using hn
  subst hn'
  obtain ⟨s1, e1, d1, n1, p1⟩ := setNext_spec n.next hpv
  obtain ⟨s2, e2, d2, n2, p2⟩ := setPrev_spec n.prev (by rw [d1.same_valid]; exact hnv : (s1.load n.next).isSome)
  refine ⟨s2, by simp [LRU.RemoveNode, hl, e1, e2], d1.same_trans d2, ?_, ?_⟩ <;> intro x
  · rw [n2, n1]
  · rw [p2, p1]

theorem fifo_RemoveNode_eq (s : Cache) (node : Ptr) :
    FIFO.RemoveNode s node = LRU.RemoveNode s node := rfl

theorem lru_InsertNode_spec {s : Cache} {node tail : Ptr}
    (ht : s.prevOf .right = some tail)
    (h : (s.load node).isSome) (htv : (s.load tail).isSome) :
    ∃ s', LRU.InsertNode s node = some s' ∧ SameData s s' ∧
      (∀ x, s'.nextOf x = if x = node then some .right
                          else if x = tail then some node else s.nextOf x) ∧
      (∀ x, s'.prevOf x = if x = .right then some node
                          else if x = node then some tail else s.prevOf x) := by
  have ht' : s.dummyRight.prev = tail := by simpa [Cache.prevOf, Cache.load] using ht
  obtain ⟨s1, e1, d1, n1, p1⟩ := setPrev_spec tail h
  obtain ⟨s2, e2, d2, n2, p2⟩ := setNext_spec node (by rw [d1.same_valid]; exact htv : (s1.load tail).isSome)
  obtain ⟨s3, e3, d3, n3, p3⟩ := setNext_spec .right
    (by rw [d2.same_valid, d1.same_valid]; exact h : (s2.load node).isSome)
  obtain ⟨s4, e4, d4, n4, p4⟩ := setPrev_spec node (rfl : (s3.load .right).isSome)
  refine ⟨s4, by simp [LRU.InsertNode, ht', e1, e2, e3, e4], ((d1.same_trans d2).same_trans d3).same_trans d4,
    ?_, ?_⟩ <;> intro x
  · rw [n4, n3, n2, n1]
  · rw [p4, p3, p2, p1]

theorem fifo_InsertNode_spec {s : Cache} {node tail : Ptr}
    (ht : s.prevOf .right = some tail)
    (h : (s.load node).isSome) (htv : (s.load tail).isSome)
    (hnr : node ≠ .right) (hnt : node ≠ tail) :
    ∃ s', FIFO.InsertNode s node = some s' ∧ SameData s s' ∧
      (∀ x, s'.nextOf x = if x = node then some .right
                          else if x = tail then some node else s.nextOf x) ∧
      (∀ x, s'.prevOf x = if x = .right then some node
                          else if x = node then some tail else s.prevOf x) := by
  have ht' : s.dummyRight.prev = tail := by simpa [Cache.prevOf, Cache.load] using ht
  obtain ⟨s1, e1, d1, n1, p1⟩ := setNext_spec .right h
  obtain ⟨s2, e2, d2, n2, p2⟩ := setPrev_spec node (rfl : (s1.load .right).isSome)
  obtain ⟨s3, e3, d3, n3, p3⟩ := setPrev_spec tail
    (by rw [d2.same_valid, d1.same_valid]; exact h : (s2.load node).isSome)
  obtain ⟨s4, e4, d4, n4, p4⟩ := setNext_spec node
    (by rw [d3.same_valid, d2.same_valid, d1.same_valid]; exact htv : (s3.load tail).isSome)
  refine ⟨s4, by simp [FIFO.InsertNode, ht', e1, e2, e3, e4], ((d1.same_trans d2).same_trans d3).same_trans d4,
    ?_, ?_⟩ <;> intro x
  · rw [n4, n3, n2, n1]
    by_cases e : x = node
    · subst e; simp [hnt]
    · simp [e]
  · rw [p4, p3, p2, p1]
    by_cases e : x = .right
    · subst e; simp [Ne.symm hnr]
    · simp [e]

/-! ## The list held by the node memory -/

theorem Entry.size_nonneg (e : Entry) : 0 ≤ e.size := by
  unfold Entry.size; positivity

theorem sizeSum_nil : sizeSum [] = 0 := rfl

theorem sizeSum_cons (e : Entry) (l : List Entry) : sizeSum (e :: l) = e.size + sizeSum l := by
  simp [sizeSum]

theorem sizeSum_append (l1 l2 : List Entry) : sizeSum (l1 ++ l2) = sizeSum l1 + sizeSum l2 := by
  simp [sizeSum]

theorem sizeSum_nonneg (l : List Entry) : 0 ≤ sizeSum l := by
  induction l with
  | nil => simp [sizeSum]
  | cons e l ih => rw [sizeSum_cons]; have := e.size_nonneg; omega

theorem valid_lt {s : Cache} {i : Nat} (h : (s.load (.node i)).isSome) : i < s.heap.length := by
  simp only [Cache.load] at h
  obtain ⟨n0, h0⟩ := Option.isSome_iff_exists.mp h
  exact (List.getElem?_eq_some_iff.mp h0).1

theorem Shape.node_valid {s : Cache} {l : List Entry} (h : Shape s l) {e : Entry} (he : e ∈ l) :
    (s.load (.node e.addr)).isSome := by
  rw [← dataOf_isSome, h.data e he]; rfl

theorem Shape.addr_lt {s : Cache} {l : List Entry} (h : Shape s l) {e : Entry} (he : e ∈ l) :
    e.addr < s.heap.length := valid_lt (h.node_valid he)

theorem nodup_length_le {l : List Nat} {n : Nat} (hnd : l.Nodup) (hb : ∀ i ∈ l, i < n) :
    l.length ≤ n := by
  have h1 : l.toFinset ⊆ Finset.range n := by
    intro x hx
    simp only [List.mem_toFinset] at hx
    simpa using hb x hx
  have h2 := Finset.card_le_card h1
  rw [List.toFinset_card_of_nodup hnd] at h2
  simpa using h2

theorem Shape.length_le {s : Cache} {l : List Entry} (h : Shape s l) :
    l.length ≤ s.heap.length := by
  have := nodup_length_le h.nodup (n := s.heap.length) (by
    intro i hi
    obtain ⟨e, he, rfl⟩ := List.mem_map.mp hi
    exact h.addr_lt he)
  simpa using this

theorem Shape.congr {s s' : Cache} {l : List Entry} (h : Shape s l)
    (hN : ∀ x, s'.nextOf x = s.nextOf x) (hP : ∀ x, s'.prevOf x = s.prevOf x)
    (hD : ∀ x, s'.dataOf x = s.dataOf x) : Shape s' l := by
  refine ⟨h.nodup, ?_, fun e he => by rw [hD]; exact h.data e he⟩
  have e1 : s'.nextOf = s.nextOf := funext hN
  have e2 : s'.prevOf = s.prevOf := funext hP
  rw [e1, e2]; exact h.chain

theorem Shape.of_load {s s' : Cache} {l : List Entry} (h : Shape s l)
    (hl : ∀ x, s'.load x = s.load x) : Shape s' l :=
  h.congr (fun x => by simp [Cache.nextOf, hl]) (fun x => by simp [Cache.prevOf, hl])
    (fun x => by simp [Cache.dataOf, hl])

theorem Shape.nil_new (limit : Int) : Shape (NewLru limit) [] :=
  ⟨List.nodup_nil, ⟨rfl, rfl⟩, fun _ h => by simp at h⟩

theorem Shape.remove {s : Cache} {l1 l2 : List Entry} {e : Entry}
    (h : Shape s (l1 ++ e :: l2)) :
    ∃ s', LRU.RemoveNode s (.node e.addr) = some s' ∧ SameData s s' ∧ Shape s' (l1 ++ l2) := by
  have hc := h.chain
  simp only [List.map_append, List.map_cons] at hc
  obtain ⟨m1, m2, m3, m4⟩ := chainF_mid hc
  obtain ⟨s', e1, d, n, p⟩ := RemoveNode_spec m1 m2
    (by rw [← nextOf_isSome, m3]; rfl) (by rw [← prevOf_isSome, m4]; rfl)
  refine ⟨s', e1, d, ?_, ?_, ?_⟩
  · have := h.nodup
    simp only [List.map_append, List.map_cons] at this ⊢
    exact this.sublist (List.Sublist.append_left (List.sublist_cons_self _ _) _)
  · simp only [List.map_append]
    exact chainF_remove hc (by simpa using h.nodup) (by simp) (by simp) n p
  · intro x hx
    rw [d.data]
    exact h.data x (by
      rcases List.mem_append.mp hx with hx | hx
      · exact List.mem_append_left _ hx
      · exact List.mem_append_right _ (List.mem_cons_of_mem _ hx))

theorem Shape.tail {s : Cache} {l : List Entry} (h : Shape s l) :
    s.prevOf .right = some (lastPtr .left (l.map (·.addr))) ∧
      (s.load (lastPtr .left (l.map (·.addr)))).isSome := by
  obtain ⟨t1, t2⟩ := chainF_tail h.chain
  exact ⟨t1, by rw [← nextOf_isSome, t2]; rfl⟩

theorem lastPtr_ne {l : List Nat} {i : Nat} (hi : i ∉ l) : Ptr.node i ≠ lastPtr .left l := by
  rcases lastPtr_mem .left l with e | ⟨j, hj, e⟩
  · rw [e]; simp
  · rw [e]; simp only [ne_eq, Ptr.node.injEq]; rintro rfl; exact hi hj

theorem Shape.insert_aux {s s' : Cache} {l : List Entry} {e : Entry}
    (h : Shape s l) (hd : s.dataOf (.node e.addr) = some e.view)
    (hi : e.addr ∉ l.map (·.addr)) (d : SameData s s')
    (n : ∀ x, s'.nextOf x = if x = .node e.addr then some .right
          else if x = lastPtr .left (l.map (·.addr)) then some (.node e.addr) else s.nextOf x)
    (p : ∀ x, s'.prevOf x = if x = .right then some (.node e.addr)
          else if x = .node e.addr then some (lastPtr .left (l.map (·.addr))) else s.prevOf x) :
    Shape s' (l ++ [e]) := by
  refine ⟨?_, ?_, ?_⟩
  · simp only [List.map_append, List.map_cons, List.map_nil]
    exact List.Nodup.append h.nodup (List.nodup_singleton _) (by simpa using hi)
  · simp only [List.map_append, List.map_cons, List.map_nil]
    exact chainF_insert h.chain h.nodup hi (by simp) (by simp) (by simp) n p
  · intro x hx
    rw [d.data]
    rcases List.mem_append.mp hx with hx | hx
    · exact h.data x hx
    · simp only [List.mem_singleton] at hx; subst hx; exact hd

theorem Shape.shape_insertLRU {s : Cache} {l : List Entry} {e : Entry}
    (h : Shape s l) (hd : s.dataOf (.node e.addr) = some e.view)
    (hi : e.addr ∉ l.map (·.addr)) :
    ∃ s', LRU.InsertNode s (.node e.addr) = some s' ∧ SameData s s' ∧ Shape s' (l ++ [e]) := by
  obtain ⟨t1, t2⟩ := h.tail
  obtain ⟨s', e1, d, n, p⟩ := lru_InsertNode_spec t1 (by rw [← dataOf_isSome, hd]; rfl) t2
  exact ⟨s', e1, d, h.insert_aux hd hi d n p⟩

theorem Shape.shape_insertFIFO {s : Cache} {l : List Entry} {e : Entry}
    (h : Shape s l) (hd : s.dataOf (.node e.addr) = some e.view)
    (hi : e.addr ∉ l.map (·.addr)) :
    ∃ s', FIFO.InsertNode s (.node e.addr) = some s' ∧ SameData s s' ∧ Shape s' (l ++ [e]) := by
  obtain ⟨t1, t2⟩ := h.tail
  obtain ⟨s', e1, d, n, p⟩ := fifo_InsertNode_spec t1 (by rw [← dataOf_isSome, hd]; rfl) t2
    (by simp) (lastPtr_ne hi)
  exact ⟨s', e1, d, h.insert_aux hd hi d n p⟩

theorem dataOf_eq_some {s : Cache} {p : Ptr} {d : String × List UInt8 × Int}
    (h : s.dataOf p = some d) :
    ∃ n, s.load p = some n ∧ n.key = d.1 ∧ n.value = d.2.1 ∧ n.storage = d.2.2 := by
  simp only [Cache.dataOf, Option.map_eq_some'] at h
  obtain ⟨n, h1, h2⟩ := h
  subst h2
  exact ⟨n, h1, rfl, rfl, rfl⟩

theorem walk_chain {s : Cache} : ∀ (l : List Entry) (p : Ptr) (fuel : Nat),
    ChainF s.nextOf s.prevOf p (l.map (·.addr)) →
    (∀ e ∈ l, s.dataOf (.node e.addr) = some e.view) → l.length ≤ fuel →
    ∃ q, s.nextOf p = some q ∧
      (s.walk fuel q).map (fun n => (n.key, n.value, n.storage)) = l.map Entry.view := by
  intro l
  induction l with
  | nil =>
    intro p fuel hc _ _
    refine ⟨.right, hc.1, ?_⟩
    cases fuel <;> simp [Cache.walk]
  | cons e l ih =>
    intro p fuel hc hd hf
    obtain ⟨c1, _, c3⟩ := hc
    refine ⟨.node e.addr, c1, ?_⟩
    cases fuel with
    | zero => simp at hf
    | succ f =>
      obtain ⟨n, hn, k1, k2, k3⟩ := dataOf_eq_some (hd e (List.mem_cons_self _ _))
      obtain ⟨q, hq, hw⟩ := ih (.node e.addr) f c3
        (fun x hx => hd x (List.mem_cons_of_mem _ hx)) (by simpa using hf)
      have hq' : n.next = q := by simpa [Cache.nextOf, hn] using hq
      simp only [Cache.load] at hn
      simp only [Cache.walk, hn, List.map_cons, hq', hw]
      simp [Entry.view, k1, k2, k3]

theorem Shape.entries {s : Cache} {l : List Entry} (h : Shape s l) :
    s.entries = l.map Entry.view := by
  obtain ⟨q, hq, hw⟩ := walk_chain l .left s.heap.length h.chain h.data h.length_le
  have : s.dummyLeft.next = q := by simpa [Cache.nextOf, Cache.load] using hq
  simp only [Cache.entries, Cache.nodes, this]
  exact hw

theorem Shape.order {s : Cache} {l : List Entry} (h : Shape s l) :
    s.order = l.map (·.key) := by
  have := congrArg (List.map (·.1)) h.entries
  simpa [Cache.entries, Cache.order, Entry.view, Function.comp_def] using this

theorem alloc_load (s : Cache) (k : String) (v : List UInt8) (z : Int) (x : Ptr)
    (h : (s.load x).isSome) : (s.alloc k v z).1.load x = s.load x := by
  cases x with
  | null => rfl
  | left => rfl
  | right => rfl
  | node i =>
    have := valid_lt h
    simp [Cache.load, Cache.alloc, List.getElem?_append_left this]

theorem alloc_new (s : Cache) (k : String) (v : List UInt8) (z : Int) :
    (s.alloc k v z).1.dataOf (.node s.heap.length) = some (k, v, z) := by
  simp [Cache.dataOf, Cache.load, Cache.alloc]

theorem Shape.alloc {s : Cache} {l : List Entry} (h : Shape s l)
    (k : String) (v : List UInt8) (z : Int) : Shape (s.alloc k v z).1 l := by
  have hv : ∀ x, (x = Ptr.left ∨ x = Ptr.right ∨ ∃ i ∈ l.map (·.addr), x = .node i) →
      (s.alloc k v z).1.load x = s.load x := by
    intro x hx
    apply alloc_load
    rcases hx with hx | hx | ⟨i, hi, hx⟩
    · subst hx; rfl
    · subst hx; rfl
    · subst hx
      obtain ⟨e, he, rfl⟩ := List.mem_map.mp hi
      exact h.node_valid he
  refine ⟨h.nodup, ?_, ?_⟩
  · apply chainF_congr h.chain
    · intro x hx
      simp only [Cache.nextOf]
      rw [hv]
      rcases hx with hx | hx
      · exact Or.inl hx
      · exact Or.inr (Or.inr hx)
    · intro x hx
      simp only [Cache.prevOf]
      rw [hv]
      rcases hx with hx | hx
      · exact Or.inr (Or.inl hx)
      · exact Or.inr (Or.inr hx)
  · intro e he
    simp only [Cache.dataOf]
    rw [hv _ (Or.inr (Or.inr ⟨e.addr, List.mem_map_of_mem _ he, rfl⟩))]
    exact h.data e he

/-! ## The eviction loop -/

theorem fifo_evict_eq : ∀ (fuel : Nat) (s : Cache), FIFO.evict fuel s = LRU.evict fuel s := by
  intro fuel
  induction fuel with
  | zero => intro s; rfl
  | succ f ih =>
    intro s
    simp only [FIFO.evict, LRU.evict, fifo_RemoveNode_eq, ih]

theorem lru_evict_spec : ∀ (l : List Entry) (fuel : Nat) (s : Cache),
    Shape s l → l.length ≤ fuel → s.currentSize - sizeSum l ≤ s.limit →
    ∃ s', LRU.evict fuel s = some s' ∧
      Shape s' (l.drop (evictCount s.limit s.currentSize l)) ∧
      s'.currentSize = s.currentSize - sizeSum (l.take (evictCount s.limit s.currentSize l)) ∧
      s'.cache = ((l.take (evictCount s.limit s.currentSize l)).map (·.key)).foldl
        (fun m k => m.erase k) s.cache ∧
      s'.limit = s.limit ∧ s'.stats = s.stats ∧ s'.heap.length = s.heap.length ∧
      (∀ x, s'.dataOf x = s.dataOf x) ∧ s'.currentSize ≤ s'.limit := by
  intro l
  induction l with
  | nil =>
    intro fuel s hs _ hc
    have hc' : ¬ s.currentSize > s.limit := by simpa [sizeSum] using hc
    refine ⟨s, ?_, by simpa [evictCount] using hs, by simp [evictCount, sizeSum], by simp [evictCount],
      rfl, rfl, rfl, fun _ => rfl, by simpa using hc'⟩
    cases fuel <;> simp [LRU.evict, hc']
  | cons e l ih =>
    intro fuel s hs hf hc
    by_cases hgt : s.currentSize > s.limit
    · cases fuel with
      | zero => simp at hf
      | succ f =>
        have hnext : s.dummyLeft.next = .node e.addr := by
          have := hs.chain.1
          simpa [Cache.nextOf, Cache.load] using this
        obtain ⟨n, hn, k1, k2, k3⟩ := dataOf_eq_some (hs.data e (List.mem_cons_self _ _))
        have hs1 : Shape { s with currentSize := s.currentSize - n.storage } ([] ++ e :: l) :=
          hs.of_load (fun _ => rfl)
        obtain ⟨s2, e2, d2, hs2⟩ := hs1.remove
        have hd2 : s2.dataOf (.node e.addr) = some e.view := by
          rw [d2.data]; exact hs.data e (List.mem_cons_self _ _)
        obtain ⟨n2, hn2, j1, j2, j3⟩ := dataOf_eq_some hd2
        have hs3 : Shape { s2 with cache := s2.cache.erase n2.key } l :=
          Shape.of_load (s := s2) (by simpa using hs2) (fun _ => rfl)
        obtain ⟨s', r1, r2, r3, r4, r5, r6, r7, r8, r9⟩ := ih f _ hs3 (by simpa using hf) (by
          simp only [d2.frame.currentSize, d2.frame.limit, k3, Entry.view]
          rw [sizeSum_cons] at hc
          omega)
        simp only [d2.frame.currentSize, d2.frame.limit, d2.frame.cache, d2.frame.stats,
          d2.frame.heapLen, k3, j1, Entry.view] at r2 r3 r4 r5 r6 r7
        refine ⟨s', ?_, ?_, ?_, ?_, r5, r6, r7, ?_, r9⟩
        · simp only [LRU.evict, hgt, if_true, hnext, hn]
          simp only [Option.bind_eq_bind, Option.some_bind, e2, hn2]
          exact r1
        · simpa [evictCount, hgt] using r2
        · rw [r3]; simp [evictCount, hgt, sizeSum_cons]; ring
        · rw [r4]; simp [evictCount, hgt]
        · intro x; rw [r8]; exact d2.data x
    · refine ⟨s, ?_, by simpa [evictCount, hgt] using hs, by simp [evictCount, hgt, sizeSum],
        by simp [evictCount, hgt], rfl, rfl, rfl, fun _ => rfl, by simpa using hgt⟩
      cases fuel <;> simp [LRU.evict, hgt]

theorem lookup_foldl_erase (ks : List String) (m : Finmap (fun _ : String => Ptr)) (k : String) :
    (ks.foldl (fun m k => m.erase k) m).lookup k = if k ∈ ks then none else m.lookup k := by
  induction ks generalizing m with
  | nil => simp
  | cons a ks ih =>
    simp only [List.foldl_cons, ih, List.mem_cons]
    by_cases h1 : k ∈ ks
    · simp [h1]
    · by_cases h2 : k = a
      · subst h2; simp [h1]
      · simp [h1, h2, Finmap.lookup_erase_ne h2]

/-! ## The operations on a well-formed cache -/

theorem Inv.lookup_mid {s : Cache} {l1 l2 : List Entry} {e : Entry}
    (h : Inv s (l1 ++ e :: l2)) : s.cache.lookup e.key = some (.node e.addr) :=
  (h.cache e.key _).mpr ⟨e, by simp, rfl, rfl⟩

theorem Inv.lookup_some {s : Cache} {l : List Entry} (h : Inv s l) {k : String} {p : Ptr}
    (hk : s.cache.lookup k = some p) :
    ∃ l1 e l2, l = l1 ++ e :: l2 ∧ e.key = k ∧ p = .node e.addr := by
  obtain ⟨e, he, h1, h2⟩ := (h.cache k p).mp hk
  obtain ⟨l1, l2, rfl⟩ := List.append_of_mem he
  exact ⟨l1, e, l2, rfl, h1, h2⟩

theorem Inv.lookup_none {s : Cache} {l : List Entry} (h : Inv s l) {k : String}
    (hk : s.cache.lookup k = none) : ∀ e ∈ l, e.key ≠ k := by
  intro e he hek
  have := (h.cache k (.node e.addr)).mpr ⟨e, he, hek, rfl⟩
  rw [hk] at this; cases this

theorem keys_mid {l1 l2 : List Entry} {e : Entry}
    (h : ((l1 ++ e :: l2).map (·.key)).Nodup) :
    ((l1 ++ l2).map (·.key)).Nodup ∧ ∀ x ∈ l1 ++ l2, x.key ≠ e.key := by
  simp only [List.map_append, List.map_cons] at h
  have h' := List.nodup_middle.mp h
  have h2 := List.nodup_cons.mp h'
  refine ⟨by simpa using h2.2, ?_⟩
  intro x hx hxe
  apply h2.1
  rw [← hxe, ← List.map_append]
  exact List.mem_map_of_mem _ hx

theorem addrs_mid {l1 l2 : List Entry} {e : Entry}
    (h : ((l1 ++ e :: l2).map (·.addr)).Nodup) :
    ((l1 ++ l2).map (·.addr)).Nodup ∧ e.addr ∉ (l1 ++ l2).map (·.addr) := by
  simp only [List.map_append, List.map_cons] at h
  have h' := List.nodup_middle.mp h
  have h2 := List.nodup_cons.mp h'
  exact ⟨by simpa using h2.2, by simpa using h2.1⟩

theorem mem_mid {l1 l2 : List Entry} {e x : Entry} :
    x ∈ l1 ++ e :: l2 ↔ x = e ∨ x ∈ l1 ++ l2 := by
  simp only [List.mem_append, List.mem_cons]; tauto

theorem cache_erase {m : Finmap (fun _ : String => Ptr)} {l1 l2 : List Entry} {e : Entry}
    (hk : ((l1 ++ e :: l2).map (·.key)).Nodup)
    (hc : ∀ k p, m.lookup k = some p ↔ ∃ x ∈ l1 ++ e :: l2, x.key = k ∧ p = .node x.addr) :
    ∀ k p, (m.erase e.key).lookup k = some p ↔ ∃ x ∈ l1 ++ l2, x.key = k ∧ p = .node x.addr := by
  intro k p
  obtain ⟨_, hne⟩ := keys_mid hk
  by_cases h : k = e.key
  · subst h
    rw [Finmap.lookup_erase]
    constructor
    · intro h; cases h
    · rintro ⟨x, hx, h1, _⟩; exact absurd h1 (hne x hx)
  · rw [Finmap.lookup_erase_ne h, hc]
    constructor
    · rintro ⟨x, hx, h1, h2⟩
      rcases mem_mid.mp hx with rfl | hx
      · exact absurd h1.symm h
      · exact ⟨x, hx, h1, h2⟩
    · rintro ⟨x, hx, h1, h2⟩
      exact ⟨x, mem_mid.mpr (Or.inr hx), h1, h2⟩

theorem sizeSum_mid (l1 l2 : List Entry) (e : Entry) :
    sizeSum (l1 ++ e :: l2) = e.size + sizeSum (l1 ++ l2) := by
  simp only [sizeSum_append, sizeSum_cons]; ring

/-- Removal of a bound key: both policies end in the same state. -/
theorem Remove_found {s : Cache} {l1 l2 : List Entry} {e : Entry}
    (h : Inv s (l1 ++ e :: l2)) :
    ∃ s', LRU.Remove s e.key = some (s', e.value, true) ∧
      FIFO.Remove s e.key = some (s', e.value, true) ∧ Inv s' (l1 ++ l2) ∧
      s'.limit = s.limit ∧ s'.stats = s.stats ∧ s'.heap.length = s.heap.length ∧
      s'.currentSize = s.currentSize - e.size ∧ s'.cache = s.cache.erase e.key := by
  have hl := h.lookup_mid
  obtain ⟨n, hn, k1, k2, k3⟩ := dataOf_eq_some (h.shape.data e (by simp))
  have hs1 : Shape { s with currentSize := s.currentSize - n.storage } (l1 ++ e :: l2) :=
    h.shape.of_load (fun _ => rfl)
  obtain ⟨s2, e2, d2, hs2⟩ := hs1.remove
  have hd2 : s2.dataOf (.node e.addr) = some e.view := by
    rw [d2.data]; exact h.shape.data e (by simp)
  obtain ⟨n2, hn2, j1, j2, j3⟩ := dataOf_eq_some hd2
  simp only [Entry.view] at k1 k2 k3 j1
  refine ⟨{ s2 with cache := s2.cache.erase e.key }, ?_, ?_, ?_, d2.frame.limit, d2.frame.stats,
    d2.frame.heapLen, ?_, ?_⟩
  · simp only [LRU.Remove, hl, hn]
    simp only [Option.bind_eq_bind, Option.some_bind, e2, hn2, j1, k2]
  · simp only [FIFO.Remove, hl, hn, fifo_RemoveNode_eq]
    simp only [Option.bind_eq_bind, Option.some_bind, e2, k2]
  · refine ⟨Shape.of_load (s := s2) hs2 (fun _ => rfl), (keys_mid h.keys).1, ?_, ?_⟩
    · simp only [d2.frame.cache]
      exact cache_erase h.keys h.cache
    · simp only [d2.frame.currentSize, k3]
      rw [h.size, sizeSum_mid]; ring
  · simp only [d2.frame.currentSize, k3]
  · simp only [d2.frame.cache]

theorem Remove_missing {s : Cache} {k : String} (h : s.cache.lookup k = none) :
    LRU.Remove s k = some (s, [], false) ∧ FIFO.Remove s k = some (s, [], false) := by
  simp [LRU.Remove, FIFO.Remove, h]

theorem lru_Get_hit {s : Cache} {l1 l2 : List Entry} {e : Entry}
    (h : Inv s (l1 ++ e :: l2)) :
    ∃ s', LRU.Get s e.key = some (s', e.value, true) ∧ Inv s' (l1 ++ l2 ++ [e]) ∧
      s'.limit = s.limit ∧ s'.heap.length = s.heap.length ∧
      s'.stats = { s.stats with Hits := s.stats.Hits + 1 } ∧
      s'.currentSize = s.currentSize ∧ s'.cache = s.cache := by
  have hl := h.lookup_mid
  obtain ⟨s1, e1, d1, hs1⟩ := h.shape.remove
  have hd1 : s1.dataOf (.node e.addr) = some e.view := by
    rw [d1.data]; exact h.shape.data e (by simp)
  obtain ⟨s2, e2, d2, hs2⟩ := hs1.shape_insertLRU hd1 (addrs_mid h.shape.nodup).2
  have hd2 : s2.dataOf (.node e.addr) = some e.view := by rw [d2.data]; exact hd1
  obtain ⟨n2, hn2, j1, j2, j3⟩ := dataOf_eq_some hd2
  have hc2 : s2.cache = s.cache := d2.frame.cache.trans d1.frame.cache
  have hidx : s2.index e.key = .node e.addr := by simp [Cache.index, hc2, hl]
  simp only [Entry.view] at j2
  refine ⟨{ s2 with stats := { s2.stats with Hits := s2.stats.Hits + 1 } }, ?_, ?_,
    d2.frame.limit.trans d1.frame.limit, d2.frame.heapLen.trans d1.frame.heapLen, ?_,
    d2.frame.currentSize.trans d1.frame.currentSize, hc2⟩
  · simp only [LRU.Get, hl]
    simp only [Option.bind_eq_bind, Option.some_bind, e1, e2, hidx, hn2, j2]
  · refine ⟨Shape.of_load (s := s2) hs2 (fun _ => rfl), ?_, ?_, ?_⟩
    · have := h.keys
      simp only [List.map_append, List.map_cons, List.map_nil] at this ⊢
      have h' := List.nodup_middle.mp this
      refine List.Nodup.append (List.nodup_cons.mp h').2 (List.nodup_singleton _) ?_
      intro a ha1 ha2
      simp only [List.mem_singleton] at ha2
      subst ha2
      exact (List.nodup_cons.mp h').1 ha1
    · intro k p
      simp only [hc2]
      rw [h.cache]
      constructor
      · rintro ⟨x, hx, r⟩
        exact ⟨x, by simp only [List.mem_append, List.mem_cons, List.mem_singleton, List.not_mem_nil,
          or_false] at hx ⊢; tauto, r⟩
      · rintro ⟨x, hx, r⟩
        exact ⟨x, by simp only [List.mem_append, List.mem_cons, List.mem_singleton, List.not_mem_nil,
          or_false] at hx ⊢; tauto, r⟩
    · simp only [d2.frame.currentSize, d1.frame.currentSize, h.size, sizeSum_append, sizeSum_cons,
        sizeSum_nil]
      ring
  · simp only [d2.frame.stats, d1.frame.stats]

theorem lru_Get_miss {s : Cache} {k : String} (h : s.cache.lookup k = none) :
    LRU.Get s k =
      some ({ s with stats := { s.stats with Misses := s.stats.Misses + 1 } }, [], false) := by
  simp [LRU.Get, h]

theorem Inv.stats {s : Cache} {l : List Entry} (h : Inv s l) (st : Stats) :
    Inv { s with stats := st } l :=
  ⟨h.shape.of_load (fun _ => rfl), h.keys, h.cache, h.size⟩

theorem fifo_Get_hit {s : Cache} {l1 l2 : List Entry} {e : Entry}
    (h : Inv s (l1 ++ e :: l2)) :
    FIFO.Get s e.key =
      some ({ s with stats := { s.stats with Hits := s.stats.Hits + 1 } }, e.value, true) := by
  have hl := h.lookup_mid
  obtain ⟨n, hn, k1, k2, k3⟩ := dataOf_eq_some (h.shape.data e (by simp))
  simp only [Entry.view] at k2
  simp only [FIFO.Get, hl]
  have : ({ s with stats := { s.stats with Hits := s.stats.Hits + 1 } } : Cache).load
      (.node e.addr) = some n := hn
  simp only [Option.bind_eq_bind, this, Option.some_bind, k2]

theorem fifo_Get_miss {s : Cache} {k : String} (h : s.cache.lookup k = none) :
    FIFO.Get s k =
      some ({ s with stats := { s.stats with Misses := s.stats.Misses + 1 } }, [], false) := by
  simp [FIFO.Get, h]

theorem sizeSum_take_drop (l : List Entry) (j : Nat) :
    sizeSum (l.take j) + sizeSum (l.drop j) = sizeSum l := by
  rw [← sizeSum_append, List.take_append_drop]

theorem PreInv.evict {s : Cache} {l : List Entry} {e : Entry} (h : PreInv s l e)
    (hz : e.size ≤ s.limit) (fuel : Nat) (hf : l.length ≤ fuel) :
    ∃ s', LRU.evict fuel s = some s' ∧
      PreInv s' (l.drop (evictCount s.limit s.currentSize l)) e ∧
      s'.currentSize ≤ s'.limit ∧ s'.limit = s.limit ∧ s'.stats = s.stats ∧
      s'.heap.length = s.heap.length := by
  obtain ⟨s', r1, r2, r3, r4, r5, r6, r7, r8, r9⟩ :=
    lru_evict_spec l fuel s h.shape hf (by rw [h.size]; omega)
  set j := evictCount s.limit s.currentSize l with hj
  have hkeys : ((l.take j).map (·.key) ++ (l.drop j ++ [e]).map (·.key)).Nodup := by
    rw [← List.map_append, ← List.append_assoc, List.take_append_drop]; exact h.keys
  refine ⟨s', r1, ⟨r2, ?_, ?_, ?_, ?_, ?_⟩, r9, r5, r6, r7⟩
  · exact (List.nodup_append.mp hkeys).2.1
  · intro hmem
    apply h.fresh
    obtain ⟨x, hx, hxe⟩ := List.mem_map.mp hmem
    exact List.mem_map.mpr ⟨x, List.mem_of_mem_drop hx, hxe⟩
  · rw [r8]; exact h.data
  · intro k p
    rw [r4, lookup_foldl_erase]
    have hdisj := (List.nodup_append.mp hkeys).2.2
    by_cases hk : k ∈ (l.take j).map (·.key)
    · rw [if_pos hk]
      constructor
      · intro h; cases h
      · rintro ⟨x, hx, h1, _⟩
        exact absurd (List.mem_map.mpr ⟨x, hx, h1⟩) (fun h2 => hdisj hk h2)
    · rw [if_neg hk, h.cache]
      constructor
      · rintro ⟨x, hx, h1, h2⟩
        refine ⟨x, ?_, h1, h2⟩
        rw [← List.take_append_drop j l, List.append_assoc] at hx
        rcases List.mem_append.mp hx with hx | hx
        · exact absurd (List.mem_map.mpr ⟨x, hx, h1⟩) hk
        · exact hx
      · rintro ⟨x, hx, h1, h2⟩
        refine ⟨x, ?_, h1, h2⟩
        rw [← List.take_append_drop j l, List.append_assoc]
        exact List.mem_append_right _ hx
  · rw [r3, h.size]
    have := sizeSum_take_drop l j
    omega

theorem PreInv.inv_of_shape {s s' : Cache} {l : List Entry} {e : Entry} (h : PreInv s l e)
    (d : SameData s s') (hs : Shape s' (l ++ [e])) : Inv s' (l ++ [e]) := by
  refine ⟨hs, h.keys, ?_, ?_⟩
  · rw [d.frame.cache]; exact h.cache
  · rw [d.frame.currentSize, h.size, sizeSum_append, sizeSum_cons, sizeSum_nil]; ring

theorem PreInv.pre_insertLRU {s : Cache} {l : List Entry} {e : Entry} (h : PreInv s l e) :
    ∃ s', LRU.InsertNode s (.node e.addr) = some s' ∧ SameData s s' ∧ Inv s' (l ++ [e]) := by
  obtain ⟨s', e1, d, hs⟩ := h.shape.shape_insertLRU h.data h.fresh
  exact ⟨s', e1, d, h.inv_of_shape d hs⟩

theorem PreInv.pre_insertFIFO {s : Cache} {l : List Entry} {e : Entry} (h : PreInv s l e) :
    ∃ s', FIFO.InsertNode s (.node e.addr) = some s' ∧ SameData s s' ∧ Inv s' (l ++ [e]) := by
  obtain ⟨s', e1, d, hs⟩ := h.shape.shape_insertFIFO h.data h.fresh
  exact ⟨s', e1, d, h.inv_of_shape d hs⟩

theorem PreInv.lookup_new {s : Cache} {l : List Entry} {e : Entry} (h : PreInv s l e) :
    s.cache.lookup e.key = some (.node e.addr) :=
  (h.cache e.key _).mpr ⟨e, by simp, rfl, rfl⟩

theorem PreInv.installed {s : Cache} {l : List Entry} {k : String} (v : List UInt8)
    (hs : Shape s l) (hkeys : (l.map (·.key)).Nodup) (hk : ∀ x ∈ l, x.key ≠ k)
    (hc : ∀ k' p, k' ≠ k → (s.cache.lookup k' = some p ↔ ∃ x ∈ l, x.key = k' ∧ p = .node x.addr))
    (hsize : s.currentSize = sizeSum l) :
    PreInv (s.installed k v) l ⟨s.heap.length, k, v⟩ := by
  have hsa := hs.alloc k v ((k.utf8ByteSize : Int) + (v.length : Int))
  refine ⟨Shape.of_load hsa (fun _ => rfl), ?_, ?_, ?_, ?_, ?_⟩
  · simp only [List.map_append, List.map_cons, List.map_nil]
    refine List.Nodup.append hkeys (List.nodup_singleton _) ?_
    intro a ha1 ha2
    simp only [List.mem_singleton] at ha2
    subst ha2
    obtain ⟨x, hx, hxe⟩ := List.mem_map.mp ha1
    exact hk x hx hxe
  · intro hmem
    obtain ⟨x, hx, hxe⟩ := List.mem_map.mp hmem
    have := hs.addr_lt hx
    simp only at hxe
    omega
  · exact alloc_new s k v _
  · intro k' p
    by_cases h : k' = k
    · subst h
      simp only [Cache.installed, Finmap.lookup_insert, Option.some.injEq]
      constructor
      · intro hp; exact ⟨⟨s.heap.length, k', v⟩, by simp, rfl, hp.symm⟩
      · rintro ⟨x, hx, h1, h2⟩
        rcases List.mem_append.mp hx with hx | hx
        · exact absurd h1 (hk x hx)
        · simp only [List.mem_singleton] at hx; subst hx; exact h2.symm
    · simp only [Cache.installed]
      rw [Finmap.lookup_insert_of_ne _ h, hc k' p h]
      constructor
      · rintro ⟨x, hx, r⟩; exact ⟨x, List.mem_append_left _ hx, r⟩
      · rintro ⟨x, hx, h1, h2⟩
        rcases List.mem_append.mp hx with hx | hx
        · exact ⟨x, hx, h1, h2⟩
        · simp only [List.mem_singleton] at hx; subst hx; exact absurd h1.symm h
  · simp only [Cache.installed, hsize, Entry.size]

theorem lru_Set_reject {s : Cache} {k : String} {v : List UInt8}
    (h : (k.utf8ByteSize : Int) + (v.length : Int) > s.limit) :
    LRU.Set s k v = some (s, false) := by
  simp [LRU.Set, h]

theorem fifo_Set_reject {s : Cache} {k : String} {v : List UInt8}
    (h : (k.utf8ByteSize : Int) + (v.length : Int) > s.limit) :
    FIFO.Set s k v = some (s, false) := by
  simp [FIFO.Set, h]

theorem lru_Set_new {s : Cache} {l : List Entry} {k : String} {v : List UInt8}
    (h : Inv s l) (hk : s.cache.lookup k = none)
    (hz : (k.utf8ByteSize : Int) + (v.length : Int) ≤ s.limit) :
    ∃ s', LRU.Set s k v = some (s', true) ∧
      Inv s' (l.drop (evictCount s.limit
        (s.currentSize + ((k.utf8ByteSize : Int) + (v.length : Int))) l) ++
          [⟨s.heap.length, k, v⟩]) ∧
      s'.currentSize ≤ s'.limit ∧ s'.limit = s.limit ∧ s'.stats = s.stats ∧
      s'.heap.length = s.heap.length + 1 := by
  have hP := PreInv.installed v h.shape h.keys (h.lookup_none hk) (fun k' p _ => h.cache k' p)
    h.size
  obtain ⟨s5, e5, p5, c5, f1, f2, f3⟩ := hP.evict hz (s.installed k v).heap.length
    (h.shape.length_le.trans (by simp [Cache.installed]))
  obtain ⟨s6, e6, d6, i6⟩ := p5.pre_insertLRU
  refine ⟨s6, ?_, i6, ?_, ?_, ?_, ?_⟩
  · have hl5 := p5.lookup_new
    simp only [Cache.installed] at hl5 e5 e6
    unfold LRU.Set
    simp only [not_lt.mpr hz, if_false, hk, Cache.alloc, Cache.index]
    simp only [Option.bind_eq_bind, Option.some_bind, Finmap.lookup_insert, Option.getD_some,
      Cache.load, List.getElem?_concat_length, e5, hl5, e6]
  · rw [d6.frame.currentSize, d6.frame.limit]; exact c5
  · rw [d6.frame.limit, f1]; rfl
  · rw [d6.frame.stats, f2]; rfl
  · rw [d6.frame.heapLen, f3]; simp [Cache.installed]

theorem fifo_Set_new {s : Cache} {l : List Entry} {k : String} {v : List UInt8}
    (h : Inv s l) (hk : s.cache.lookup k = none)
    (hz : (k.utf8ByteSize : Int) + (v.length : Int) ≤ s.limit) :
    ∃ s', FIFO.Set s k v = some (s', true) ∧
      Inv s' (l.drop (evictCount s.limit
        (s.currentSize + ((k.utf8ByteSize : Int) + (v.length : Int))) l) ++
          [⟨s.heap.length, k, v⟩]) ∧
      s'.currentSize ≤ s'.limit ∧ s'.limit = s.limit ∧ s'.stats = s.stats ∧
      s'.heap.length = s.heap.length + 1 := by
  have hP := PreInv.installed v h.shape h.keys (h.lookup_none hk) (fun k' p _ => h.cache k' p)
    h.size
  obtain ⟨s5, e5, p5, c5, f1, f2, f3⟩ := hP.evict hz (s.installed k v).heap.length
    (h.shape.length_le.trans (by simp [Cache.installed]))
  obtain ⟨s6, e6, d6, i6⟩ := p5.pre_insertFIFO
  refine ⟨s6, ?_, i6, ?_, ?_, ?_, ?_⟩
  · simp only [Cache.installed] at e5 e6
    unfold FIFO.Set
    simp only [not_lt.mpr hz, if_false, hk, Cache.alloc, fifo_evict_eq]
    simp only [Option.bind_eq_bind, Option.some_bind, e5, e6]
  · rw [d6.frame.currentSize, d6.frame.limit]; exact c5
  · rw [d6.frame.limit, f1]; rfl
  · rw [d6.frame.stats, f2]; rfl
  · rw [d6.frame.heapLen, f3]; simp [Cache.installed]

theorem lru_Set_existing {s : Cache} {l1 l2 : List Entry} {e : Entry} {v : List UInt8}
    (h : Inv s (l1 ++ e :: l2))
    (hz : (e.key.utf8ByteSize : Int) + (v.length : Int) ≤ s.limit) :
    ∃ s', LRU.Set s e.key v = some (s', true) ∧
      Inv s' ((l1 ++ l2).drop (evictCount s.limit
        (s.currentSize - e.size + ((e.key.utf8ByteSize : Int) + (v.length : Int))) (l1 ++ l2)) ++
          [⟨s.heap.length, e.key, v⟩]) ∧
      s'.currentSize ≤ s'.limit ∧ s'.limit = s.limit ∧ s'.stats = s.stats ∧
      s'.heap.length = s.heap.length + 1 := by
  have hl := h.lookup_mid
  obtain ⟨n, hn, k1, k2, k3⟩ := dataOf_eq_some (h.shape.data e (by simp))
  simp only [Entry.view] at k3
  have hs1 : Shape { s with currentSize := s.currentSize - n.storage } (l1 ++ e :: l2) :=
    h.shape.of_load (fun _ => rfl)
  obtain ⟨s2, e2, d2, hs2⟩ := hs1.remove
  have hP := PreInv.installed (k := e.key) v hs2 (keys_mid h.keys).1 (keys_mid h.keys).2
    (fun k' p hne => by
      rw [d2.frame.cache]
      have := cache_erase h.keys h.cache k' p
      rwa [Finmap.lookup_erase_ne hne] at this)
    (by rw [d2.frame.currentSize, k3]; simp only; rw [h.size, sizeSum_mid]; ring)
  obtain ⟨s5, e5, p5, c5, f1, f2, f3⟩ := hP.evict
    (by simpa [Cache.installed, d2.frame.limit] using hz) (s2.installed e.key v).heap.length
    (hs2.length_le.trans (by simp [Cache.installed]))
  obtain ⟨s6, e6, d6, i6⟩ := p5.pre_insertLRU
  refine ⟨s6, ?_, ?_, ?_, ?_, ?_, ?_⟩
  · have hl5 := p5.lookup_new
    simp only [Cache.installed] at hl5 e5 e6
    unfold LRU.Set
    simp only [not_lt.mpr hz, if_false, hl, Cache.alloc, Cache.index, hn]
    simp only [Option.bind_eq_bind, Option.some_bind, e2, Finmap.lookup_insert, Option.getD_some,
      Cache.load, List.getElem?_concat_length, e5, hl5, e6]
  · simpa [Cache.installed, d2.frame.limit, d2.frame.currentSize, d2.frame.heapLen, k3] using i6
  · rw [d6.frame.currentSize, d6.frame.limit]; exact c5
  · rw [d6.frame.limit, f1]; exact d2.frame.limit
  · rw [d6.frame.stats, f2]; exact d2.frame.stats
  · rw [d6.frame.heapLen, f3]; simp [Cache.installed, d2.frame.heapLen]

theorem setValue_spec {s : Cache} {p : Ptr} {n : Node} (v : List UInt8) (h : s.load p = some n) :
    ∃ s', s.setValue p v = some s' ∧ Frame s s' ∧
      ∀ x, s'.load x = if x = p then some { n with value := v } else s.load x := by
  obtain ⟨s', h1, h2, h3⟩ := store_spec { n with value := v } (by rw [h]; rfl : (s.load p).isSome)
  exact ⟨s', by simp [Cache.setValue, h, h1], h2, h3⟩

theorem setStorage_spec {s : Cache} {p : Ptr} {n : Node} (z : Int) (h : s.load p = some n) :
    ∃ s', s.setStorage p z = some s' ∧ Frame s s' ∧
      ∀ x, s'.load x = if x = p then some { n with storage := z } else s.load x := by
  obtain ⟨s', h1, h2, h3⟩ := store_spec { n with storage := z } (by rw [h]; rfl : (s.load p).isSome)
  exact ⟨s', by simp [Cache.setStorage, h, h1], h2, h3⟩

theorem fifo_Set_existing {s : Cache} {l1 l2 : List Entry} {e : Entry} {v : List UInt8}
    (h : Inv s (l1 ++ e :: l2))
    (hz : (e.key.utf8ByteSize : Int) + (v.length : Int) ≤ s.limit) :
    ∃ s', FIFO.Set s e.key v = some (s', true) ∧
      Inv s' (l1 ++ ⟨e.addr, e.key, v⟩ :: l2) ∧
      s'.limit = s.limit ∧ s'.stats = s.stats ∧ s'.heap.length = s.heap.length ∧
      s'.currentSize = s.currentSize - e.size + ((e.key.utf8ByteSize : Int) + (v.length : Int)) ∧
      s'.cache = s.cache := by
  have hl := h.lookup_mid
  obtain ⟨n, hn, k1, k2, k3⟩ := dataOf_eq_some (h.shape.data e (by simp))
  simp only [Entry.view] at k1 k2 k3
  have hn1 : ({ s with currentSize := s.currentSize - n.storage } : Cache).load (.node e.addr) =
      some n := hn
  obtain ⟨s2, e2, f2, l2'⟩ := setValue_spec v hn1
  have hn2 : s2.load (.node e.addr) = some { n with value := v } := by rw [l2']; simp
  obtain ⟨s3, e3, f3, l3⟩ := setStorage_spec ((e.key.utf8ByteSize : Int) + (v.length : Int)) hn2
  have hload : ∀ x, s3.load x = if x = .node e.addr then
      some { n with value := v, storage := (e.key.utf8ByteSize : Int) + (v.length : Int) }
      else s.load x := by
    intro x; rw [l3, l2']
    by_cases hx : x = .node e.addr
    · simp [hx]
    · simp only [hx, if_false]; rfl
  have hN : ∀ x, s3.nextOf x = s.nextOf x := by
    intro x; simp only [Cache.nextOf, hload]; split
    · next hx => subst hx; simp [hn]
    · rfl
  have hPv : ∀ x, s3.prevOf x = s.prevOf x := by
    intro x; simp only [Cache.prevOf, hload]; split
    · next hx => subst hx; simp [hn]
    · rfl
  have hnd := h.shape.nodup
  have hfr := (addrs_mid hnd).2
  refine ⟨{ s3 with currentSize := s3.currentSize +
      ((e.key.utf8ByteSize : Int) + (v.length : Int)) }, ?_, ?_, ?_, ?_, ?_, ?_, ?_⟩
  · unfold FIFO.Set
    simp only [not_lt.mpr hz, if_false, hl, hn]
    simp only [Option.bind_eq_bind, Option.some_bind, e2, e3]
  · refine ⟨⟨?_, ?_, ?_⟩, ?_, ?_, ?_⟩
    · simpa using hnd
    · have e1 : Cache.nextOf { s3 with currentSize := s3.currentSize +
          ((e.key.utf8ByteSize : Int) + (v.length : Int)) } = s.nextOf := funext hN
      have e2' : Cache.prevOf { s3 with currentSize := s3.currentSize +
          ((e.key.utf8ByteSize : Int) + (v.length : Int)) } = s.prevOf := funext hPv
      rw [e1, e2']
      simpa using h.shape.chain
    · intro x hx
      have hx' : x = ⟨e.addr, e.key, v⟩ ∨ x ∈ l1 ++ l2 := mem_mid.mp hx
      show Option.map _ (s3.load (.node x.addr)) = _
      rw [hload]
      rcases hx' with rfl | hx'
      · simp [Entry.view, Entry.size, k1]
      · have hne : x.addr ≠ e.addr := by
          intro heq; exact hfr (heq ▸ List.mem_map_of_mem _ hx')
        simp only [Ptr.node.injEq, hne, if_false]
        exact h.shape.data x (mem_mid.mpr (Or.inr hx'))
    · simpa using h.keys
    · intro k p
      show s3.cache.lookup k = some p ↔ _
      rw [f3.cache, f2.cache]
      show s.cache.lookup k = some p ↔ _
      rw [h.cache]
      constructor
      · rintro ⟨x, hx, h1, h2⟩
        rcases mem_mid.mp hx with rfl | hx
        · exact ⟨⟨x.addr, x.key, v⟩, by simp, h1, h2⟩
        · exact ⟨x, mem_mid.mpr (Or.inr hx), h1, h2⟩
      · rintro ⟨x, hx, h1, h2⟩
        rcases mem_mid.mp hx with rfl | hx
        · exact ⟨e, by simp, h1, h2⟩
        · exact ⟨x, mem_mid.mpr (Or.inr hx), h1, h2⟩
    · show s3.currentSize + _ = _
      rw [f3.currentSize, f2.currentSize]
      show s.currentSize - n.storage + _ = _
      rw [h.size, sizeSum_mid, sizeSum_mid, k3]
      simp only [Entry.size]; ring
  · exact f3.limit.trans f2.limit
  · exact f3.stats.trans f2.stats
  · exact f3.heapLen.trans f2.heapLen
  · show s3.currentSize + _ = _
    rw [f3.currentSize, f2.currentSize]
    show s.currentSize - n.storage + _ = _
    rw [k3]
  · exact f3.cache.trans f2.cache

/-! ## Call sequences -/

theorem Inv.new (limit : Int) : Inv (NewLru limit) [] :=
  ⟨Shape.nil_new limit, List.nodup_nil, fun k p => by simp [NewLru], rfl⟩

theorem NewFifo_eq (limit : Int) : NewFifo limit = NewLru limit := rfl

theorem lookup_cases (s : Cache) (k : String) :
    s.cache.lookup k = none ∨ ∃ p, s.cache.lookup k = some p := by
  cases h : s.cache.lookup k with
  | none => exact Or.inl rfl
  | some p => exact Or.inr ⟨p, rfl⟩

theorem lru_step_inv {s : Cache} {l : List Entry} (h : Inv s l) (op : Op) :
    ∃ s' l', LRU.step s op = some s' ∧ Inv s' l' ∧ s'.limit = s.limit ∧
      (s.currentSize ≤ s.limit → s'.currentSize ≤ s'.limit) := by
  cases op with
  | set k v =>
    by_cases hz : (k.utf8ByteSize : Int) + (v.length : Int) > s.limit
    · exact ⟨s, l, by simp [LRU.step, lru_Set_reject hz], h, rfl, id⟩
    · rcases lookup_cases s k with hk | ⟨p, hk⟩
      · obtain ⟨s', e1, i1, c1, f1, _⟩ := lru_Set_new (v := v) h hk (not_lt.mp hz)
        exact ⟨s', _, by simp [LRU.step, e1], i1, f1, fun _ => c1⟩
      · obtain ⟨l1, e, l2, rfl, rfl, rfl⟩ := h.lookup_some hk
        obtain ⟨s', e1, i1, c1, f1, _⟩ := lru_Set_existing (v := v) h (not_lt.mp hz)
        exact ⟨s', _, by simp [LRU.step, e1], i1, f1, fun _ => c1⟩
  | get k =>
    rcases lookup_cases s k with hk | ⟨p, hk⟩
    · exact ⟨{ s with stats := { s.stats with Misses := s.stats.Misses + 1 } }, l,
        by simp [LRU.step, lru_Get_miss hk], h.stats _, rfl, id⟩
    · obtain ⟨l1, e, l2, rfl, rfl, rfl⟩ := h.lookup_some hk
      obtain ⟨s', e1, i1, f1, _, _, f2, _⟩ := lru_Get_hit h
      exact ⟨s', _, by simp [LRU.step, e1], i1, f1, fun hc => by rw [f1, f2]; exact hc⟩
  | remove k =>
    rcases lookup_cases s k with hk | ⟨p, hk⟩
    · exact ⟨s, l, by simp [LRU.step, (Remove_missing hk).1], h, rfl, id⟩
    · obtain ⟨l1, e, l2, rfl, rfl, rfl⟩ := h.lookup_some hk
      obtain ⟨s', e1, _, i1, f1, _, _, f2, _⟩ := Remove_found h
      refine ⟨s', _, by simp [LRU.step, e1], i1, f1, fun hc => ?_⟩
      rw [f1, f2]; have := e.size_nonneg; omega

theorem fifo_step_inv {s : Cache} {l : List Entry} (h : Inv s l) (op : Op) :
    ∃ s' l', FIFO.step s op = some s' ∧ Inv s' l' ∧ s'.limit = s.limit := by
  cases op with
  | set k v =>
    by_cases hz : (k.utf8ByteSize : Int) + (v.length : Int) > s.limit
    · exact ⟨s, l, by simp [FIFO.step, fifo_Set_reject hz], h, rfl⟩
    · rcases lookup_cases s k with hk | ⟨p, hk⟩
      · obtain ⟨s', e1, i1, c1, f1, _⟩ := fifo_Set_new (v := v) h hk (not_lt.mp hz)
        exact ⟨s', _, by simp [FIFO.step, e1], i1, f1⟩
      · obtain ⟨l1, e, l2, rfl, rfl, rfl⟩ := h.lookup_some hk
        obtain ⟨s', e1, i1, f1, _⟩ := fifo_Set_existing (v := v) h (not_lt.mp hz)
        exact ⟨s', _, by simp [FIFO.step, e1], i1, f1⟩
  | get k =>
    rcases lookup_cases s k with hk | ⟨p, hk⟩
    · exact ⟨{ s with stats := { s.stats with Misses := s.stats.Misses + 1 } }, l,
        by simp [FIFO.step, fifo_Get_miss hk], h.stats _, rfl⟩
    · obtain ⟨l1, e, l2, rfl, rfl, rfl⟩ := h.lookup_some hk
      exact ⟨{ s with stats := { s.stats with Hits := s.stats.Hits + 1 } }, _,
        by simp [FIFO.step, fifo_Get_hit h], h.stats _, rfl⟩
  | remove k =>
    rcases lookup_cases s k with hk | ⟨p, hk⟩
    · exact ⟨s, l, by simp [FIFO.step, (Remove_missing hk).2], h, rfl⟩
    · obtain ⟨l1, e, l2, rfl, rfl, rfl⟩ := h.lookup_some hk
      obtain ⟨s', _, e1, i1, f1, _⟩ := Remove_found h
      exact ⟨s', _, by simp [FIFO.step, e1], i1, f1⟩

theorem lru_run_inv (ops : List Op) : ∀ {s : Cache} {l : List Entry}, Inv s l →
    ∃ s' l', LRU.run s ops = some s' ∧ Inv s' l' ∧ s'.limit = s.limit ∧
      (s.currentSize ≤ s.limit → s'.currentSize ≤ s'.limit) := by
  induction ops with
  | nil => intro s l h; exact ⟨s, l, rfl, h, rfl, id⟩
  | cons op ops ih =>
    intro s l h
    obtain ⟨s1, l1, e1, i1, f1, c1⟩ := lru_step_inv h op
    obtain ⟨s2, l2, e2, i2, f2, c2⟩ := ih i1
    exact ⟨s2, l2, by simp [LRU.run, e1, e2], i2, f2.trans f1, fun hc => c2 (c1 hc)⟩

theorem fifo_run_inv (ops : List Op) : ∀ {s : Cache} {l : List Entry}, Inv s l →
    ∃ s' l', FIFO.run s ops = some s' ∧ Inv s' l' ∧ s'.limit = s.limit := by
  induction ops with
  | nil => intro s l h; exact ⟨s, l, rfl, h, rfl⟩
  | cons op ops ih =>
    intro s l h
    obtain ⟨s1, l1, e1, i1, f1⟩ := fifo_step_inv h op
    obtain ⟨s2, l2, e2, i2, f2⟩ := ih i1
    exact ⟨s2, l2, by simp [FIFO.run, e1, e2], i2, f2.trans f1⟩

/-! ## Reachable states -/

theorem reachable_inv {p : Policy} {s : Cache} (h : Reachable p s) : ∃ l, Inv s l := by
  obtain ⟨limit, ops, hr⟩ := h
  cases p with
  | lru =>
    obtain ⟨s', l', e, i, _⟩ := lru_run_inv ops (Inv.new limit)
    simp only [Policy.run, Policy.New] at hr
    rw [hr] at e; cases e
    exact ⟨l', i⟩
  | fifo =>
    obtain ⟨s', l', e, i, _⟩ := fifo_run_inv ops (NewFifo_eq limit ▸ Inv.new limit)
    simp only [Policy.run, Policy.New] at hr
    rw [hr] at e; cases e
    exact ⟨l', i⟩

theorem demoThree_reachable (p : Policy) : Reachable p (demoThree p) :=
  ⟨10, [.set "a" (bytes "12345"), .set "b" (bytes "1"), .set "c" (bytes "2")],
    by cases p <;> decide⟩

/-! ## Capacity and byte accounting -/

/-- C1. FIFO capacity bound, evaluated where it fails: on NewFifo(4) the calls
Set("a", "1"), Set("b", "2") and Set("a", "123") all return true, and the
cache then has currentSize 6 above its limit 4, RemainingStorage() = -2, with
both bindings still in the list: the update of a bound key returns before the
eviction loop. -/
theorem fifo_update_exceeds_limit :
    (FIFO.Set (NewFifo 4) "a" (bytes "1")).bind (fun r1 =>
      (FIFO.Set r1.1 "b" (bytes "2")).bind (fun r2 =>
        (FIFO.Set r2.1 "a" (bytes "123")).map (fun r3 =>
          (r1.2, r2.2, r3.2, r3.1.currentSize, r3.1.limit, FIFO.RemainingStorage r3.1,
            r3.1.entries))))
      = some (true, true, true, 6, 4, -2, [("a", bytes "123", 4), ("b", bytes "2", 2)]) := by
  rfl

theorem inv_cache_eq {s : Cache} {l : List Entry} (h : Inv s l) :
    s.cache.entries = ((l.map (fun e => (⟨e.key, Ptr.node e.addr⟩ : Sigma (fun _ : String => Ptr)))) :
      Multiset (Sigma (fun _ : String => Ptr))) := by
  have hnd : (l.map (fun e => (⟨e.key, Ptr.node e.addr⟩ : Sigma (fun _ : String => Ptr)))).NodupKeys := by
    simp only [List.NodupKeys, List.keys, List.map_map]
    exact h.keys
  have heq : s.cache = AList.toFinmap ⟨_, hnd⟩ := by
    apply Finmap.ext_lookup
    intro k
    rw [Finmap.lookup_toFinmap]
    apply Option.ext
    intro p
    simp only [AList.lookup]
    rw [Option.mem_def, h.cache, List.mem_dlookup_iff hnd]
    simp only [List.mem_map, Sigma.mk.inj_iff, heq_eq_eq]
    constructor
    · rintro ⟨e, he, h1, h2⟩; exact ⟨e, he, h1, h2.symm⟩
    · rintro ⟨e, he, h1, h2⟩; exact ⟨e, he, h1, h2.symm⟩
  rw [heq]
  rfl

/-- C4. Oversized Set is rejected atomically, for both LRU and FIFO: in
every cache state, for every key and value with len(key) + len(value) >
limit, Set(key, value) returns false and the state after the call is the
state before it, whether or not the key is bound. -/
theorem oversized_set_rejected (p : Policy) (s : Cache) (key : String) (value : List UInt8)
    (h : (key.utf8ByteSize : Int) + (value.length : Int) > s.limit) :
    p.Set s key value = some (s, false) := by
  cases p with
  | lru => exact lru_Set_reject h
  | fifo => exact fifo_Set_reject h

theorem oversized_set_rejected_witness :
    (("a".utf8ByteSize : Int) + ((bytes "0123456789").length : Int) > (demoThree .fifo).limit) ∧
      "a" ∈ (demoThree .fifo).cache ∧
      Policy.fifo.Set (demoThree .fifo) "a" (bytes "0123456789") = some (demoThree .fifo, false) :=
  ⟨by decide, by decide, oversized_set_rejected .fifo (demoThree .fifo) "a" (bytes "0123456789")
    (by decide)⟩

/-! ## Set, Get and eviction -/

theorem inv_binding_mid {s : Cache} {l1 l2 : List Entry} {e : Entry}
    (h : Inv s (l1 ++ e :: l2)) : s.binding e.key = some e.value := by
  obtain ⟨n, hn, _, k2, _⟩ := dataOf_eq_some (h.shape.data e (by simp))
  simp only [Entry.view] at k2
  simp [Cache.binding, h.lookup_mid, hn, k2]

theorem inv_binding_none {s : Cache} {l : List Entry} (h : Inv s l) {k : String}
    (hk : ∀ e ∈ l, e.key ≠ k) : s.binding k = none := by
  rcases lookup_cases s k with hn | ⟨p, hp⟩
  · simp [Cache.binding, hn]
  · obtain ⟨e, he, h1, _⟩ := (h.cache k p).mp hp
    exact absurd h1 (hk e he)

theorem inv_mem_cache {s : Cache} {l : List Entry} (h : Inv s l) (k : String) :
    k ∈ s.cache ↔ k ∈ l.map (·.key) := by
  rw [Finmap.mem_iff, List.mem_map]
  constructor
  · rintro ⟨p, hp⟩
    obtain ⟨e, he, h1, _⟩ := (h.cache k p).mp hp
    exact ⟨e, he, h1⟩
  · rintro ⟨e, he, h1⟩
    exact ⟨_, (h.cache k _).mpr ⟨e, he, h1, rfl⟩⟩

theorem inv_mem_order {s : Cache} {l : List Entry} (h : Inv s l) (k : String) :
    k ∈ s.cache ↔ k ∈ s.order := by
  rw [inv_mem_cache h, h.shape.order]

theorem inv_of_mem {s : Cache} {l : List Entry} (h : Inv s l) {k : String} (hk : k ∈ s.cache) :
    ∃ l1 e l2, l = l1 ++ e :: l2 ∧ e.key = k := by
  obtain ⟨e, he, h1⟩ := List.mem_map.mp ((inv_mem_cache h k).mp hk)
  obtain ⟨l1, l2, rfl⟩ := List.append_of_mem he
  exact ⟨l1, e, l2, rfl, h1⟩

theorem get_hit_of_inv (p : Policy) {s : Cache} {l1 l2 : List Entry} {e : Entry}
    (h : Inv s (l1 ++ e :: l2)) : ∃ s', p.Get s e.key = some (s', e.value, true) := by
  cases p with
  | lru => obtain ⟨s', e1, _⟩ := lru_Get_hit h; exact ⟨s', e1⟩
  | fifo => exact ⟨_, fifo_Get_hit h⟩

theorem entries_mem_key {s : Cache} {l : List Entry} (h : Inv s l) {e : Entry} (he : e ∈ l) :
    e.key ∈ s.order := by
  rw [h.shape.order]; exact List.mem_map_of_mem _ he

/-- C5. Set/Get round trip, for both LRU and FIFO: in every reachable state,
for every key and value with len(key) + len(value) <= limit, Set(key, value)
returns true, the key is bound to the value afterwards and is in the eviction
list (the evictions of that Set did not remove it), and a Get(key) that
follows immediately returns (value, true). -/
theorem set_get_round_trip (p : Policy) (s : Cache) (key : String) (value : List UInt8)
    (hs : Reachable p s)
    (hz : (key.utf8ByteSize : Int) + (value.length : Int) ≤ s.limit) :
    ∃ s', p.Set s key value = some (s', true) ∧ s'.binding key = some value ∧
      key ∈ s'.order ∧ ∃ s'', p.Get s' key = some (s'', value, true) := by
  obtain ⟨l, h⟩ := reachable_inv hs
  have main : ∃ s' l1 l2 a, p.Set s key value = some (s', true) ∧
      Inv s' (l1 ++ (⟨a, key, value⟩ : Entry) :: l2) := by
    rcases lookup_cases s key with hk | ⟨q, hk⟩
    · cases p with
      | lru =>
        obtain ⟨s', e1, i1, _⟩ := lru_Set_new (v := value) h hk hz
        exact ⟨s', _, [], _, e1, i1⟩
      | fifo =>
        obtain ⟨s', e1, i1, _⟩ := fifo_Set_new (v := value) h hk hz
        exact ⟨s', _, [], _, e1, i1⟩
    · obtain ⟨l1, e, l2, rfl, rfl, rfl⟩ := h.lookup_some hk
      cases p with
      | lru =>
        obtain ⟨s', e1, i1, _⟩ := lru_Set_existing (v := value) h hz
        exact ⟨s', _, [], _, e1, i1⟩
      | fifo =>
        obtain ⟨s', e1, i1, _⟩ := fifo_Set_existing (v := value) h hz
        exact ⟨s', _, _, _, e1, i1⟩
  obtain ⟨s', l1, l2, a, e1, i1⟩ := main
  exact ⟨s', e1, inv_binding_mid i1, entries_mem_key (e := ⟨a, key, value⟩) i1 (by simp),
    get_hit_of_inv p i1⟩

theorem set_get_round_trip_witness :
    Reachable .fifo (demoThree .fifo) ∧
      (("a".utf8ByteSize : Int) + ((bytes "12345678").length : Int) ≤ (demoThree .fifo).limit) ∧
      ∃ s', Policy.fifo.Set (demoThree .fifo) "a" (bytes "12345678") = some (s', true) ∧
        s'.binding "a" = some (bytes "12345678") ∧ "a" ∈ s'.order ∧
        ∃ s'', Policy.fifo.Get s' "a" = some (s'', bytes "12345678", true) :=
  ⟨demoThree_reachable .fifo, by decide,
    set_get_round_trip .fifo (demoThree .fifo) "a" (bytes "12345678")
      (demoThree_reachable .fifo) (by decide)⟩

theorem inv_binding_iff {s : Cache} {l : List Entry} (h : Inv s l) (k : String)
    (v : List UInt8) : s.binding k = some v ↔ ∃ z, (k, v, z) ∈ s.entries := by
  rw [h.shape.entries]
  constructor
  · intro hb
    rcases lookup_cases s k with hn | ⟨p, hp⟩
    · simp [Cache.binding, hn] at hb
    · obtain ⟨l1, e, l2, rfl, rfl, rfl⟩ := h.lookup_some hp
      rw [inv_binding_mid h] at hb
      cases hb
      exact ⟨e.size, List.mem_map.mpr ⟨e, by simp, rfl⟩⟩
  · rintro ⟨z, hz⟩
    obtain ⟨e, he, hv⟩ := List.mem_map.mp hz
    obtain ⟨l1, l2, rfl⟩ := List.append_of_mem he
    simp only [Entry.view, Prod.mk.injEq] at hv
    obtain ⟨rfl, rfl, _⟩ := hv
    exact inv_binding_mid h

theorem filter_mid_view {l1 l2 : List Entry} {e : Entry}
    (h : ((l1 ++ e :: l2).map (·.key)).Nodup) :
    ((l1 ++ e :: l2).map Entry.view).filter (fun y => y.1 ≠ e.key) =
      (l1 ++ l2).map Entry.view := by
  obtain ⟨_, hne⟩ := keys_mid h
  have h1 : (l1.map Entry.view).filter (fun y => y.1 ≠ e.key) = l1.map Entry.view := by
    rw [List.filter_eq_self]
    intro y hy
    obtain ⟨x, hx, rfl⟩ := List.mem_map.mp hy
    simpa [Entry.view] using hne x (List.mem_append_left _ hx)
  have h2 : (l2.map Entry.view).filter (fun y => y.1 ≠ e.key) = l2.map Entry.view := by
    rw [List.filter_eq_self]
    intro y hy
    obtain ⟨x, hx, rfl⟩ := List.mem_map.mp hy
    simpa [Entry.view] using hne x (List.mem_append_right _ hx)
  simp only [List.map_append, List.map_cons, List.filter_append, h1]
  rw [List.filter_cons_of_neg (by simp [Entry.view]), h2]

theorem filter_mid_key {l1 l2 : List Entry} {e : Entry}
    (h : ((l1 ++ e :: l2).map (·.key)).Nodup) :
    ((l1 ++ e :: l2).map (·.key)).filter (fun y => y ≠ e.key) = (l1 ++ l2).map (·.key) := by
  obtain ⟨_, hne⟩ := keys_mid h
  have h1 : (l1.map (·.key)).filter (fun y => y ≠ e.key) = l1.map (·.key) := by
    rw [List.filter_eq_self]
    intro y hy
    obtain ⟨x, hx, rfl⟩ := List.mem_map.mp hy
    simpa using hne x (List.mem_append_left _ hx)
  have h2 : (l2.map (·.key)).filter (fun y => y ≠ e.key) = l2.map (·.key) := by
    rw [List.filter_eq_self]
    intro y hy
    obtain ⟨x, hx, rfl⟩ := List.mem_map.mp hy
    simpa using hne x (List.mem_append_right _ hx)
  simp only [List.map_append, List.map_cons, List.filter_append, h1]
  rw [List.filter_cons_of_neg (by simp), h2]

/-- C7. LRU Get refreshes recency: in every reachable LRU state, Get(key) on
a bound key returns (stored value, true) and the eviction list afterwards is
the old list with the binding of the key taken out and appended at the tail;
the relative order of the other bindings, every value, the store, currentSize
and limit are unchanged, and Hits grows by one. -/
theorem lru_get_refreshes_recency (s : LRU) (key : String)
    (hs : Reachable .lru s) (hk : key ∈ s.cache) :
    ∃ s' v z, LRU.Get s key = some (s', v, true) ∧ s.binding key = some v ∧
      (key, v, z) ∈ s.entries ∧
      s'.entries = s.entries.filter (fun y => y.1 ≠ key) ++ [(key, v, z)] ∧
      s'.order = s.order.filter (fun y => y ≠ key) ++ [key] ∧
      (∀ k, s'.binding k = s.binding k) ∧
      s'.cache = s.cache ∧ s'.currentSize = s.currentSize ∧ s'.limit = s.limit ∧
      s'.stats = { Hits := s.stats.Hits + 1, Misses := s.stats.Misses } := by
  obtain ⟨l, h⟩ := reachable_inv hs
  obtain ⟨l1, e, l2, rfl, rfl⟩ := inv_of_mem h hk
  obtain ⟨s', e1, i1, f1, _, f2, f3, f4⟩ := lru_Get_hit h
  refine ⟨s', e.value, e.size, e1, inv_binding_mid h, ?_, ?_, ?_, ?_, f4, f3, f1, f2⟩
  · rw [h.shape.entries]; exact List.mem_map.mpr ⟨e, by simp, rfl⟩
  · rw [i1.shape.entries, h.shape.entries, filter_mid_view h.keys]
    simp [Entry.view]
  · rw [i1.shape.order, h.shape.order, filter_mid_key h.keys]
    simp
  · intro k
    apply Option.ext
    intro v
    rw [Option.mem_def, Option.mem_def, inv_binding_iff i1, inv_binding_iff h,
      i1.shape.entries, h.shape.entries]
    simp only [List.map_append, List.map_cons, List.map_nil, List.mem_append, List.mem_cons,
      List.mem_singleton, List.not_mem_nil, or_false]
    constructor
    · rintro ⟨z, hz⟩; exact ⟨z, by tauto⟩
    · rintro ⟨z, hz⟩; exact ⟨z, by tauto⟩

theorem lru_get_refreshes_recency_witness :
    Reachable .lru (demoThree .lru) ∧ "a" ∈ (demoThree .lru).cache ∧
      (demoThree .lru).order = ["a", "b", "c"] ∧
      ∃ s' v z, LRU.Get (demoThree .lru) "a" = some (s', v, true) ∧
        (demoThree .lru).binding "a" = some v ∧
        ("a", v, z) ∈ (demoThree .lru).entries ∧
        s'.entries = (demoThree .lru).entries.filter (fun y => y.1 ≠ "a") ++ [("a", v, z)] ∧
        s'.order = (demoThree .lru).order.filter (fun y => y ≠ "a") ++ ["a"] ∧
        (∀ k, s'.binding k = (demoThree .lru).binding k) ∧
        s'.cache = (demoThree .lru).cache ∧ s'.currentSize = (demoThree .lru).currentSize ∧
        s'.limit = (demoThree .lru).limit ∧
        s'.stats = { Hits := (demoThree .lru).stats.Hits + 1,
                     Misses := (demoThree .lru).stats.Misses } :=
  ⟨demoThree_reachable .lru, by decide, by decide,
    lru_get_refreshes_recency (demoThree .lru) "a" (demoThree_reachable .lru) (by decide)⟩

theorem finmap_insert_erase (m : Finmap (fun _ : String => Ptr)) (k : String) (p : Ptr) :
    (m.erase k).insert k p = m.insert k p := by
  apply Finmap.ext_lookup
  intro x
  by_cases hx : x = k
  · subst hx; rw [Finmap.lookup_insert, Finmap.lookup_insert]
  · rw [Finmap.lookup_insert_of_ne _ hx, Finmap.lookup_insert_of_ne _ hx,
      Finmap.lookup_erase_ne hx]

/-- C8. LRU update equals remove-then-insert: in every reachable LRU state,
for every bound key and every value with len(key) + len(value) <= limit,
Set(key, value) returns true and ends in the very state (bindings, values,
eviction list, currentSize, stats) in which Remove(key) followed by
Set(key, value) ends; the key is then last in the eviction list. -/
theorem lru_update_is_remove_then_insert (s : LRU) (key : String) (value : List UInt8)
    (hs : Reachable .lru s) (hk : key ∈ s.cache)
    (hz : (key.utf8ByteSize : Int) + (value.length : Int) ≤ s.limit) :
    ∃ s' s1 old, LRU.Set s key value = some (s', true) ∧
      LRU.Remove s key = some (s1, old, true) ∧ s.binding key = some old ∧
      LRU.Set s1 key value = some (s', true) ∧ s'.order.getLast? = some key := by
  obtain ⟨l, h⟩ := reachable_inv hs
  obtain ⟨l1, e, l2, rfl, rfl⟩ := inv_of_mem h hk
  obtain ⟨s', e1, i1, _⟩ := lru_Set_existing (v := value) h hz
  obtain ⟨s1, r1, _, j1, g1, _, _, _, g5⟩ := Remove_found h
  refine ⟨s', s1, e.value, e1, r1, inv_binding_mid h, ?_, ?_⟩
  · rw [← e1]
    have hl := h.lookup_mid
    obtain ⟨n, hn, k1, k2, k3⟩ := dataOf_eq_some (h.shape.data e (by simp))
    have hs1 : Shape { s with currentSize := s.currentSize - n.storage } (l1 ++ e :: l2) :=
      h.shape.of_load (fun _ => rfl)
    obtain ⟨s2, e2, d2, hs2⟩ := hs1.remove
    have hd2 : s2.dataOf (.node e.addr) = some e.view := by
      rw [d2.data]; exact h.shape.data e (by simp)
    obtain ⟨n2, hn2, m1, _, _⟩ := dataOf_eq_some hd2
    simp only [Entry.view] at m1
    have hs1eq : s1 = { s2 with cache := s2.cache.erase e.key } := by
      have := r1
      simp only [LRU.Remove, hl, hn, Option.bind_eq_bind, Option.some_bind, e2, hn2, m1,
        Option.some.injEq, Prod.mk.injEq] at this
      exact this.1.symm
    have hl1 : s1.cache.lookup e.key = none := by rw [hs1eq]; exact Finmap.lookup_erase _ _
    have hz1 : ¬ (e.key.utf8ByteSize : Int) + (value.length : Int) > s1.limit := by
      rw [g1]; exact not_lt.mpr hz
    have lhs : LRU.Set s1 e.key value =
        (LRU.evict (s1.installed e.key value).heap.length (s1.installed e.key value)).bind
          (fun lru => match lru.cache.lookup e.key with
            | some node => (LRU.InsertNode lru node).bind (fun lru => some (lru, true))
            | none => some (lru, false)) := by
      unfold LRU.Set
      simp only [hz1, if_false, hl1, Cache.alloc, Cache.index]
      simp only [Option.bind_eq_bind, Option.some_bind, Finmap.lookup_insert, Option.getD_some,
        Cache.load, List.getElem?_concat_length]
      rfl
    have rhs : LRU.Set s e.key value =
        (LRU.evict (s2.installed e.key value).heap.length (s2.installed e.key value)).bind
          (fun lru => match lru.cache.lookup e.key with
            | some node => (LRU.InsertNode lru node).bind (fun lru => some (lru, true))
            | none => some (lru, false)) := by
      unfold LRU.Set
      simp only [not_lt.mpr hz, if_false, hl, hn, Cache.alloc, Cache.index]
      simp only [Option.bind_eq_bind, Option.some_bind, e2, Finmap.lookup_insert,
        Option.getD_some, Cache.load, List.getElem?_concat_length]
      rfl
    have hinst : s1.installed e.key value = s2.installed e.key value := by
      rw [hs1eq]
      simp only [Cache.installed, finmap_insert_erase]
    rw [lhs, rhs, hinst]
  · rw [i1.shape.order]
    simp

theorem lru_update_is_remove_then_insert_witness :
    Reachable .lru (demoThree .lru) ∧ "a" ∈ (demoThree .lru).cache ∧
      (("a".utf8ByteSize : Int) + ((bytes "1234567").length : Int) ≤ (demoThree .lru).limit) ∧
      ∃ s' s1 old, LRU.Set (demoThree .lru) "a" (bytes "1234567") = some (s', true) ∧
        LRU.Remove (demoThree .lru) "a" = some (s1, old, true) ∧
        (demoThree .lru).binding "a" = some old ∧
        LRU.Set s1 "a" (bytes "1234567") = some (s', true) ∧ s'.order.getLast? = some "a" :=
  ⟨demoThree_reachable .lru, by decide, by decide,
    lru_update_is_remove_then_insert (demoThree .lru) "a" (bytes "1234567")
      (demoThree_reachable .lru) (by decide) (by decide)⟩

/-! ## Queue order in the FIFO -/

theorem entries_update_mid {l1 l2 : List Entry} {e : Entry} (v : List UInt8)
    (h : ((l1 ++ e :: l2).map (·.key)).Nodup) :
    (l1 ++ (⟨e.addr, e.key, v⟩ : Entry) :: l2).map Entry.view =
      ((l1 ++ e :: l2).map Entry.view).map (fun x =>
        if x.1 = e.key then (e.key, v, (e.key.utf8ByteSize : Int) + (v.length : Int)) else x) := by
  obtain ⟨_, hne⟩ := keys_mid h
  have h1 : ∀ l : List Entry, (∀ x ∈ l, x.key ≠ e.key) →
      (l.map Entry.view).map (fun x =>
        if x.1 = e.key then (e.key, v, (e.key.utf8ByteSize : Int) + (v.length : Int)) else x) =
      l.map Entry.view := by
    intro l hl
    rw [List.map_map]
    apply List.map_congr_left
    intro x hx
    simp [Entry.view, hl x hx]
  simp only [List.map_append, List.map_cons]
  rw [h1 l1 (fun x hx => hne x (List.mem_append_left _ hx)),
    h1 l2 (fun x hx => hne x (List.mem_append_right _ hx))]
  simp [Entry.view, Entry.size]

/-- C9. FIFO update keeps queue position: in every reachable FIFO state, a
Set(key, value) on a bound key with len(key) + len(value) <= limit returns
true and makes the value the value of the key; the eviction list keeps its
keys in the same order (the key is not moved to the tail), only the entry of
the key changes, to the new value and size; every other binding, the store,
the counters and the limit are unchanged. -/
theorem fifo_update_keeps_position (s : FIFO) (key : String) (value : List UInt8)
    (hs : Reachable .fifo s) (hk : key ∈ s.cache)
    (hz : (key.utf8ByteSize : Int) + (value.length : Int) ≤ s.limit) :
    ∃ s', FIFO.Set s key value = some (s', true) ∧ s'.binding key = some value ∧
      s'.order = s.order ∧
      s'.entries = s.entries.map (fun x =>
        if x.1 = key then (key, value, (key.utf8ByteSize : Int) + (value.length : Int))
        else x) ∧
      (∀ k, k ≠ key → s'.binding k = s.binding k) ∧
      s'.cache = s.cache ∧ s'.stats = s.stats ∧ s'.limit = s.limit := by
  obtain ⟨l, h⟩ := reachable_inv hs
  obtain ⟨l1, e, l2, rfl, rfl⟩ := inv_of_mem h hk
  obtain ⟨s', e1, i1, f1, f2, _, _, f5⟩ := fifo_Set_existing (v := value) h hz
  have hent := entries_update_mid value h.keys
  refine ⟨s', e1, inv_binding_mid i1, ?_, ?_, ?_, f5, f2, f1⟩
  · rw [i1.shape.order, h.shape.order]; simp
  · rw [i1.shape.entries, h.shape.entries]; exact hent
  · intro k hne
    apply Option.ext
    intro v
    rw [Option.mem_def, Option.mem_def, inv_binding_iff i1, inv_binding_iff h,
      i1.shape.entries, h.shape.entries]
    have hmem : ∀ z, (k, v, z) ∈ (l1 ++ (⟨e.addr, e.key, value⟩ : Entry) :: l2).map Entry.view ↔
        (k, v, z) ∈ (l1 ++ e :: l2).map Entry.view := by
      intro z
      simp only [List.map_append, List.map_cons, List.mem_append, List.mem_cons, Entry.view,
        Prod.mk.injEq]
      constructor
      · rintro (h1 | h1 | h1)
        · exact Or.inl h1
        · exact absurd h1.1 hne
        · exact Or.inr (Or.inr h1)
      · rintro (h1 | h1 | h1)
        · exact Or.inl h1
        · exact absurd h1.1 hne
        · exact Or.inr (Or.inr h1)
    constructor
    · rintro ⟨z, hz⟩; exact ⟨z, (hmem z).mp hz⟩
    · rintro ⟨z, hz⟩; exact ⟨z, (hmem z).mpr hz⟩

theorem fifo_update_keeps_position_witness :
    Reachable .fifo (demoThree .fifo) ∧ "a" ∈ (demoThree .fifo).cache ∧
      (("a".utf8ByteSize : Int) + ((bytes "1").length : Int) ≤ (demoThree .fifo).limit) ∧
      (demoThree .fifo).order = ["a", "b", "c"] ∧
      ∃ s', FIFO.Set (demoThree .fifo) "a" (bytes "1") = some (s', true) ∧
        s'.binding "a" = some (bytes "1") ∧ s'.order = (demoThree .fifo).order ∧
        s'.entries = (demoThree .fifo).entries.map (fun x =>
          if x.1 = "a" then ("a", bytes "1", ("a".utf8ByteSize : Int) + ((bytes "1").length : Int))
          else x) ∧
        (∀ k, k ≠ "a" → s'.binding k = (demoThree .fifo).binding k) ∧
        s'.cache = (demoThree .fifo).cache ∧ s'.stats = (demoThree .fifo).stats ∧
        s'.limit = (demoThree .fifo).limit :=
  ⟨demoThree_reachable .fifo, by decide, by decide, by decide,
    fifo_update_keeps_position (demoThree .fifo) "a" (bytes "1")
      (demoThree_reachable .fifo) (by decide) (by decide)⟩

theorem sameBindings_lookup {s t : Cache} {l : List Entry} (hs : Inv s l) (ht : Inv t l)
    (k : String) : s.cache.lookup k = t.cache.lookup k := by
  apply Option.ext
  intro p
  rw [Option.mem_def, Option.mem_def, hs.cache, ht.cache]

theorem fifo_step_sameBindings {s t : Cache} (h : SameBindings s t) (op : Op) :
    ∃ s' t', FIFO.step s op = some s' ∧ FIFO.step t op = some t' ∧ SameBindings s' t' := by
  obtain ⟨l, hs, ht, hl, hh⟩ := h
  have hc : s.currentSize = t.currentSize := by rw [hs.size, ht.size]
  cases op with
  | set k v =>
    by_cases hz : (k.utf8ByteSize : Int) + (v.length : Int) > s.limit
    · exact ⟨s, t, by simp [FIFO.step, fifo_Set_reject hz],
        by simp [FIFO.step, fifo_Set_reject (hl ▸ hz)], l, hs, ht, hl, hh⟩
    · rcases lookup_cases s k with hk | ⟨p, hk⟩
      · obtain ⟨s', e1, i1, _, f1, _, g1⟩ := fifo_Set_new (v := v) hs hk (not_lt.mp hz)
        obtain ⟨t', e2, i2, _, f2, _, g2⟩ := fifo_Set_new (v := v) ht
          (by rw [← sameBindings_lookup hs ht]; exact hk) (by rw [← hl]; exact not_lt.mp hz)
        rw [← hl, ← hc, ← hh] at i2
        exact ⟨s', t', by simp [FIFO.step, e1], by simp [FIFO.step, e2], _, i1, i2,
          by rw [f1, f2, hl], by rw [g1, g2, hh]⟩
      · obtain ⟨l1, e, l2, rfl, rfl, rfl⟩ := hs.lookup_some hk
        obtain ⟨s', e1, i1, f1, _, g1, _⟩ := fifo_Set_existing (v := v) hs (not_lt.mp hz)
        obtain ⟨t', e2, i2, f2, _, g2, _⟩ := fifo_Set_existing (v := v) ht
          (by rw [← hl]; exact not_lt.mp hz)
        exact ⟨s', t', by simp [FIFO.step, e1], by simp [FIFO.step, e2], _, i1, i2,
          by rw [f1, f2, hl], by rw [g1, g2, hh]⟩
  | get k =>
    rcases lookup_cases s k with hk | ⟨p, hk⟩
    · have hk' : t.cache.lookup k = none := by rw [← sameBindings_lookup hs ht]; exact hk
      exact ⟨{ s with stats := { s.stats with Misses := s.stats.Misses + 1 } },
        { t with stats := { t.stats with Misses := t.stats.Misses + 1 } },
        by simp [FIFO.step, fifo_Get_miss hk], by simp [FIFO.step, fifo_Get_miss hk'],
        l, hs.stats _, ht.stats _, hl, hh⟩
    · obtain ⟨l1, e, l2, rfl, rfl, rfl⟩ := hs.lookup_some hk
      exact ⟨{ s with stats := { s.stats with Hits := s.stats.Hits + 1 } },
        { t with stats := { t.stats with Hits := t.stats.Hits + 1 } },
        by simp [FIFO.step, fifo_Get_hit hs], by simp [FIFO.step, fifo_Get_hit ht],
        _, hs.stats _, ht.stats _, hl, hh⟩
  | remove k =>
    rcases lookup_cases s k with hk | ⟨p, hk⟩
    · have hk' : t.cache.lookup k = none := by rw [← sameBindings_lookup hs ht]; exact hk
      exact ⟨s, t, by simp [FIFO.step, (Remove_missing hk).2],
        by simp [FIFO.step, (Remove_missing hk').2], l, hs, ht, hl, hh⟩
    · obtain ⟨l1, e, l2, rfl, rfl, rfl⟩ := hs.lookup_some hk
      obtain ⟨s', _, e1, i1, f1, _, g1, _⟩ := Remove_found hs
      obtain ⟨t', _, e2, i2, f2, _, g2, _⟩ := Remove_found ht
      exact ⟨s', t', by simp [FIFO.step, e1], by simp [FIFO.step, e2], _, i1, i2,
        by rw [f1, f2, hl], by rw [g1, g2, hh]⟩

theorem fifo_get_sameBindings {s t : Cache} (h : SameBindings s t) (k : String) :
    ∃ s', FIFO.step s (.get k) = some s' ∧ SameBindings s' t := by
  obtain ⟨l, hs, ht, hl, hh⟩ := h
  rcases lookup_cases s k with hk | ⟨p, hk⟩
  · exact ⟨{ s with stats := { s.stats with Misses := s.stats.Misses + 1 } },
      by simp [FIFO.step, fifo_Get_miss hk], l, hs.stats _, ht, hl, hh⟩
  · obtain ⟨l1, e, l2, rfl, rfl, rfl⟩ := hs.lookup_some hk
    exact ⟨{ s with stats := { s.stats with Hits := s.stats.Hits + 1 } },
      by simp [FIFO.step, fifo_Get_hit hs], _, hs.stats _, ht, hl, hh⟩

theorem fifo_run_without_gets (ops : List Op) : ∀ {s t : Cache}, SameBindings s t →
    ∃ s' t', FIFO.run s ops = some s' ∧ FIFO.run t (ops.filter Op.isUpdate) = some t' ∧
      SameBindings s' t' := by
  induction ops with
  | nil => intro s t h; exact ⟨s, t, rfl, rfl, h⟩
  | cons op ops ih =>
    intro s t h
    cases op with
    | get k =>
      obtain ⟨s1, e1, h1⟩ := fifo_get_sameBindings h k
      obtain ⟨s', t', r1, r2, r3⟩ := ih h1
      exact ⟨s', t', by simp [FIFO.run, e1, r1], by simpa [Op.isUpdate] using r2, r3⟩
    | set k v =>
      obtain ⟨s1, t1, e1, e2, h1⟩ := fifo_step_sameBindings h (.set k v)
      obtain ⟨s', t', r1, r2, r3⟩ := ih h1
      exact ⟨s', t', by simp [FIFO.run, e1, r1], by simp [Op.isUpdate, FIFO.run, e2, r2], r3⟩
    | remove k =>
      obtain ⟨s1, t1, e1, e2, h1⟩ := fifo_step_sameBindings h (.remove k)
      obtain ⟨s', t', r1, r2, r3⟩ := ih h1
      exact ⟨s', t', by simp [FIFO.run, e1, r1], by simp [Op.isUpdate, FIFO.run, e2, r2], r3⟩

theorem sameBindings_observe {s t : Cache} (h : SameBindings s t) :
    s.entries = t.entries ∧ s.order = t.order ∧ s.currentSize = t.currentSize ∧
      s.limit = t.limit ∧ (∀ k, s.binding k = t.binding k) ∧ ∀ k, k ∈ s.cache ↔ k ∈ t.cache := by
  obtain ⟨l, hs, ht, hl, _⟩ := h
  refine ⟨by rw [hs.shape.entries, ht.shape.entries], by rw [hs.shape.order, ht.shape.order],
    by rw [hs.size, ht.size], hl, ?_, fun k => by rw [inv_mem_cache hs, inv_mem_cache ht]⟩
  intro k
  apply Option.ext
  intro v
  rw [Option.mem_def, Option.mem_def, inv_binding_iff hs, inv_binding_iff ht,
    hs.shape.entries, ht.shape.entries]

theorem fifo_Get_any (u : FIFO) (key : String) (u' : FIFO) (v : List UInt8) (ok : Bool)
    (h : FIFO.Get u key = some (u', v, ok)) :
    u' = { u with stats := { Hits := u.stats.Hits + (if ok then 1 else 0),
                             Misses := u.stats.Misses + (if ok then 0 else 1) } } ∧
      (ok = true ↔ key ∈ u.cache) := by
  unfold FIFO.Get at h
  rcases lookup_cases u key with hk | ⟨p, hk⟩
  · simp only [hk, Option.some.injEq, Prod.mk.injEq] at h
    obtain ⟨rfl, rfl, rfl⟩ := h
    refine ⟨by simp, ?_⟩
    simp [Finmap.mem_iff, hk]
  · simp only [hk, Option.bind_eq_bind] at h
    have hl : ({ u with stats := { u.stats with Hits := u.stats.Hits + 1 } } : Cache).load p =
        u.load p := by cases p <;> rfl
    rw [hl] at h
    cases hn : u.load p with
    | none => rw [hn] at h; simp at h
    | some n =>
      rw [hn] at h
      simp only [Option.some_bind, Option.some.injEq, Prod.mk.injEq] at h
      obtain ⟨rfl, rfl, rfl⟩ := h
      refine ⟨by simp, ?_⟩
      simp [Finmap.mem_iff, hk]

theorem walkAddrs_chain {s : Cache} : ∀ (l : List Entry) (p : Ptr) (fuel : Nat),
    ChainF s.nextOf s.prevOf p (l.map (·.addr)) →
    (∀ e ∈ l, s.dataOf (.node e.addr) = some e.view) → l.length ≤ fuel →
    ∃ q, s.nextOf p = some q ∧ s.walkAddrs fuel q = l.map (·.addr) := by
  intro l
  induction l with
  | nil =>
    intro p fuel hc _ _
    refine ⟨.right, hc.1, ?_⟩
    cases fuel <;> simp [Cache.walkAddrs]
  | cons e l ih =>
    intro p fuel hc hd hf
    obtain ⟨c1, _, c3⟩ := hc
    refine ⟨.node e.addr, c1, ?_⟩
    cases fuel with
    | zero => simp at hf
    | succ f =>
      obtain ⟨n, hn, _, _, _⟩ := dataOf_eq_some (hd e (List.mem_cons_self _ _))
      obtain ⟨q, hq, hw⟩ := ih (.node e.addr) f c3
        (fun x hx => hd x (List.mem_cons_of_mem _ hx)) (by simpa using hf)
      have hq' : n.next = q := by simpa [Cache.nextOf, hn] using hq
      simp only [Cache.load] at hn
      simp only [Cache.walkAddrs, hn, List.map_cons, hq', hw]

theorem shape_addrs {s : Cache} {l : List Entry} (h : Shape s l) :
    s.addrs = l.map (·.addr) := by
  obtain ⟨q, hq, hw⟩ := walkAddrs_chain l .left s.heap.length h.chain h.data h.length_le
  have : s.dummyLeft.next = q := by simpa [Cache.nextOf, Cache.load] using hq
  simp only [Cache.addrs, this]
  exact hw

theorem sorted_mid {l1 l2 : List Entry} {e : Entry}
    (h : ((l1 ++ e :: l2).map (·.addr)).Pairwise (· < ·)) :
    ((l1 ++ l2).map (·.addr)).Pairwise (· < ·) := by
  refine h.sublist ?_
  simp only [List.map_append, List.map_cons]
  exact List.Sublist.append_left (List.sublist_cons_self _ _) _

theorem fifo_step_sorted {s : Cache} {l : List Entry} (h : Inv s l)
    (hsrt : (l.map (·.addr)).Pairwise (· < ·)) (op : Op) :
    ∃ s' l', FIFO.step s op = some s' ∧ Inv s' l' ∧ (l'.map (·.addr)).Pairwise (· < ·) := by
  cases op with
  | set k v =>
    by_cases hz : (k.utf8ByteSize : Int) + (v.length : Int) > s.limit
    · exact ⟨s, l, by simp [FIFO.step, fifo_Set_reject hz], h, hsrt⟩
    · rcases lookup_cases s k with hk | ⟨p, hk⟩
      · obtain ⟨s', e1, i1, _⟩ := fifo_Set_new (v := v) h hk (not_lt.mp hz)
        refine ⟨s', _, by simp [FIFO.step, e1], i1, ?_⟩
        simp only [List.map_append, List.map_cons, List.map_nil]
        rw [List.pairwise_append]
        refine ⟨?_, List.pairwise_singleton _ _, ?_⟩
        · rw [List.map_drop]; exact hsrt.sublist (List.drop_sublist _ _)
        · intro a ha b hb
          simp only [List.mem_singleton] at hb
          subst hb
          obtain ⟨x, hx, rfl⟩ := List.mem_map.mp ha
          exact h.shape.addr_lt (List.mem_of_mem_drop hx)
      · obtain ⟨l1, e, l2, rfl, rfl, rfl⟩ := h.lookup_some hk
        obtain ⟨s', e1, i1, _⟩ := fifo_Set_existing (v := v) h (not_lt.mp hz)
        exact ⟨s', _, by simp [FIFO.step, e1], i1, by simpa using hsrt⟩
  | get k =>
    rcases lookup_cases s k with hk | ⟨p, hk⟩
    · exact ⟨{ s with stats := { s.stats with Misses := s.stats.Misses + 1 } }, l,
        by simp [FIFO.step, fifo_Get_miss hk], h.stats _, hsrt⟩
    · obtain ⟨l1, e, l2, rfl, rfl, rfl⟩ := h.lookup_some hk
      exact ⟨{ s with stats := { s.stats with Hits := s.stats.Hits + 1 } }, _,
        by simp [FIFO.step, fifo_Get_hit h], h.stats _, hsrt⟩
  | remove k =>
    rcases lookup_cases s k with hk | ⟨p, hk⟩
    · exact ⟨s, l, by simp [FIFO.step, (Remove_missing hk).2], h, hsrt⟩
    · obtain ⟨l1, e, l2, rfl, rfl, rfl⟩ := h.lookup_some hk
      obtain ⟨s', _, e1, i1, _⟩ := Remove_found h
      exact ⟨s', _, by simp [FIFO.step, e1], i1, sorted_mid hsrt⟩

theorem fifo_run_sorted (ops : List Op) : ∀ {s : Cache} {l : List Entry}, Inv s l →
    (l.map (·.addr)).Pairwise (· < ·) →
    ∃ s' l', FIFO.run s ops = some s' ∧ Inv s' l' ∧ (l'.map (·.addr)).Pairwise (· < ·) := by
  induction ops with
  | nil => intro s l h hs; exact ⟨s, l, rfl, h, hs⟩
  | cons op ops ih =>
    intro s l h hs
    obtain ⟨s1, l1, e1, i1, h1⟩ := fifo_step_sorted h hs op
    obtain ⟨s2, l2, e2, i2, h2⟩ := ih i1 h1
    exact ⟨s2, l2, by simp [FIFO.run, e1, e2], i2, h2⟩

theorem fifo_reachable_sorted {s : Cache} (h : Reachable .fifo s) :
    s.addrs.Pairwise (· < ·) := by
  obtain ⟨limit, ops, hr⟩ := h
  obtain ⟨s', l', e, i, hs⟩ := fifo_run_sorted ops (l := [])
    (NewFifo_eq limit ▸ Inv.new limit) List.Pairwise.nil
  simp only [Policy.run, Policy.New] at hr
  rw [hr] at e; cases e
  rw [shape_addrs i.shape]; exact hs

theorem walk_stats (s : Cache) (st : Stats) : ∀ (fuel : Nat) (p : Ptr),
    Cache.walk { s with stats := st } fuel p = Cache.walk s fuel p := by
  intro fuel
  induction fuel with
  | zero => intro p; rfl
  | succ f ih =>
    intro p
    cases p with
    | null => rfl
    | left => rfl
    | right => rfl
    | node i =>
      simp only [Cache.walk]
      cases s.heap[i]? with
      | none => rfl
      | some n => simp only [ih]

theorem entries_stats (s : Cache) (st : Stats) :
    Cache.entries { s with stats := st } = s.entries := by
  simp only [Cache.entries, Cache.nodes, walk_stats]

theorem order_stats (s : Cache) (st : Stats) :
    Cache.order { s with stats := st } = s.order := by
  simp only [Cache.order, Cache.nodes, walk_stats]

theorem binding_stats (s : Cache) (st : Stats) (k : String) :
    Cache.binding { s with stats := st } k = s.binding k := by
  simp only [Cache.binding]
  cases s.cache.lookup k with
  | none => rfl
  | some p => cases p <;> rfl

theorem sameBindings_refl {s : Cache} {l : List Entry} (h : Inv s l) : SameBindings s s :=
  ⟨l, h, h, rfl, rfl⟩

theorem insertedWithin_iff (limit : Int) (ops : List Op) (n : Nat) (key : String) (i : Nat) :
    FIFO.insertedWithin limit ops n key i = true ↔
      i < n ∧ (∃ v, ops[i]? = some (.set key v)) ∧ FIFO.boundAfter limit ops i key = false ∧
        ∀ j, i < j → j ≤ n → FIFO.boundAfter limit ops j key = true := by
  unfold FIFO.insertedWithin
  simp only [Bool.and_eq_true, decide_eq_true_eq, Bool.not_eq_true', List.all_eq_true,
    List.mem_range]
  constructor
  · rintro ⟨⟨⟨h1, h2⟩, h3⟩, h4⟩
    refine ⟨h1, ?_, h3, ?_⟩
    · cases ho : ops[i]? with
      | none => rw [ho] at h2; cases h2
      | some op =>
        rw [ho] at h2
        cases op with
        | set k v =>
          simp only [decide_eq_true_eq] at h2
          exact ⟨v, by rw [h2]⟩
        | get k => cases h2
        | remove k => cases h2
    · intro j hj hjn
      have := h4 (j - (i + 1)) (by omega)
      rwa [show i + 1 + (j - (i + 1)) = j by omega] at this
  · rintro ⟨h1, ⟨v, h2⟩, h3, h4⟩
    refine ⟨⟨⟨h1, by rw [h2]; simp⟩, h3⟩, fun d hd => h4 _ (by omega) (by omega)⟩

theorem insertedWithin_unique {limit : Int} {ops : List Op} {n : Nat} {key : String}
    {i j : Nat} (hi : FIFO.insertedWithin limit ops n key i = true)
    (hj : FIFO.insertedWithin limit ops n key j = true) : i = j := by
  rw [insertedWithin_iff] at hi hj
  obtain ⟨a1, _, a3, a4⟩ := hi
  obtain ⟨b1, _, b3, b4⟩ := hj
  rcases Nat.lt_trichotomy i j with h | h | h
  · have := a4 j h (by omega)
    rw [b3] at this; cases this
  · exact h
  · have := b4 i h (by omega)
    rw [a3] at this; cases this

theorem fifo_run_append (a b : List Op) : ∀ s : FIFO,
    FIFO.run s (a ++ b) = (FIFO.run s a).bind (fun t => FIFO.run t b) := by
  induction a with
  | nil => intro s; rfl
  | cons op a ih =>
    intro s
    simp only [List.cons_append, FIFO.run]
    cases FIFO.step s op with
    | none => rfl
    | some t => simp [ih t]

theorem fifo_step_order {s : Cache} {l : List Entry} (h : Inv s l) (op : Op) :
    ∃ s' l', FIFO.step s op = some s' ∧ Inv s' l' ∧
      ∃ kept new, l'.map (·.key) = kept ++ new ∧ kept.Sublist (l.map (·.key)) ∧
        (new = [] ∨ ∃ k v, op = .set k v ∧ s.cache.lookup k = none ∧ new = [k]) := by
  cases op with
  | set k v =>
    by_cases hz : (k.utf8ByteSize : Int) + (v.length : Int) > s.limit
    · exact ⟨s, l, by simp [FIFO.step, fifo_Set_reject hz], h, l.map (·.key), [], by simp,
        List.Sublist.refl _, Or.inl rfl⟩
    · rcases lookup_cases s k with hk | ⟨p, hk⟩
      · obtain ⟨s', e1, i1, _⟩ := fifo_Set_new (v := v) h hk (not_lt.mp hz)
        refine ⟨s', _, by simp [FIFO.step, e1], i1, _, [k], by
          rw [List.map_append]; rfl, ?_, Or.inr ⟨k, v, rfl, hk, rfl⟩⟩
        exact (List.drop_sublist _ _).map _
      · obtain ⟨l1, e, l2, rfl, rfl, rfl⟩ := h.lookup_some hk
        obtain ⟨s', e1, i1, _⟩ := fifo_Set_existing (v := v) h (not_lt.mp hz)
        exact ⟨s', _, by simp [FIFO.step, e1], i1, (l1 ++ e :: l2).map (·.key), [], by simp,
          List.Sublist.refl _, Or.inl rfl⟩
  | get k =>
    rcases lookup_cases s k with hk | ⟨p, hk⟩
    · exact ⟨{ s with stats := { s.stats with Misses := s.stats.Misses + 1 } }, l,
        by simp [FIFO.step, fifo_Get_miss hk], h.stats _, l.map (·.key), [], by simp,
        List.Sublist.refl _, Or.inl rfl⟩
    · obtain ⟨l1, e, l2, rfl, rfl, rfl⟩ := h.lookup_some hk
      exact ⟨{ s with stats := { s.stats with Hits := s.stats.Hits + 1 } }, _,
        by simp [FIFO.step, fifo_Get_hit h], h.stats _, (l1 ++ e :: l2).map (·.key), [],
        by simp, List.Sublist.refl _, Or.inl rfl⟩
  | remove k =>
    rcases lookup_cases s k with hk | ⟨p, hk⟩
    · exact ⟨s, l, by simp [FIFO.step, (Remove_missing hk).2], h, l.map (·.key), [], by simp,
        List.Sublist.refl _, Or.inl rfl⟩
    · obtain ⟨l1, e, l2, rfl, rfl, rfl⟩ := h.lookup_some hk
      obtain ⟨s', _, e1, i1, _⟩ := Remove_found h
      refine ⟨s', _, by simp [FIFO.step, e1], i1, (l1 ++ l2).map (·.key), [], by simp, ?_,
        Or.inl rfl⟩
      simp only [List.map_append, List.map_cons]
      exact List.Sublist.append_left (List.sublist_cons_self _ _) _

theorem boundAfter_eq {limit : Int} {ops : List Op} {n : Nat} {u : FIFO}
    (hr : FIFO.run (NewFifo limit) (ops.take n) = some u) (k : String) :
    FIFO.boundAfter limit ops n k = decide (k ∈ u.cache) := by
  simp [FIFO.boundAfter, hr]

theorem insertedWithin_succ {limit : Int} {ops : List Op} {n : Nat} {k : String} {i : Nat}
    (h : FIFO.insertedWithin limit ops n k i = true)
    (hb : FIFO.boundAfter limit ops (n + 1) k = true) :
    FIFO.insertedWithin limit ops (n + 1) k i = true := by
  rw [insertedWithin_iff] at h ⊢
  obtain ⟨h1, h2, h3, h4⟩ := h
  refine ⟨by omega, h2, h3, fun j hj hjn => ?_⟩
  by_cases e : j = n + 1
  · rw [e]; exact hb
  · exact h4 j hj (by omega)

theorem fifo_run_take_succ (s : FIFO) (ops : List Op) (n : Nat) (hn : n < ops.length) :
    FIFO.run s (ops.take (n + 1)) =
      (FIFO.run s (ops.take n)).bind (fun t => FIFO.step t ops[n]) := by
  rw [List.take_succ, fifo_run_append, List.getElem?_eq_getElem hn]
  congr 1
  funext t
  simp only [Option.toList, FIFO.run]
  cases FIFO.step t ops[n] <;> rfl

theorem fifo_insertion_order (limit : Int) (ops : List Op) : ∀ n, n ≤ ops.length →
    ∃ u l, FIFO.run (NewFifo limit) (ops.take n) = some u ∧ Inv u l ∧
      (∀ k ∈ l.map (·.key), ∃ i, FIFO.insertedWithin limit ops n k i = true) ∧
      (l.map (·.key)).Pairwise (fun a b => ∃ i j,
        FIFO.insertedWithin limit ops n a i = true ∧
        FIFO.insertedWithin limit ops n b j = true ∧ i < j) := by
  intro n
  induction n with
  | zero =>
    intro _
    exact ⟨NewFifo limit, [], rfl, Inv.new limit, by simp, by simp⟩
  | succ n ih =>
    intro hn
    obtain ⟨u, l, hr, hinv, hex, hpw⟩ := ih (by omega)
    obtain ⟨u', l', hstep, hinv', kept, new, hkeys, hsub, hnew⟩ := fifo_step_order hinv ops[n]
    have hr' : FIFO.run (NewFifo limit) (ops.take (n + 1)) = some u' := by
      rw [fifo_run_take_succ _ _ _ (by omega), hr]
      exact hstep
    have hbound : ∀ k ∈ l'.map (·.key), FIFO.boundAfter limit ops (n + 1) k = true := by
      intro k hk
      rw [boundAfter_eq hr']
      exact decide_eq_true ((inv_mem_cache hinv' k).2 hk)
    have hkept : ∀ k ∈ kept, ∃ i, FIFO.insertedWithin limit ops (n + 1) k i = true ∧ i < n := by
      intro k hk
      obtain ⟨i, hi⟩ := hex k (hsub.subset hk)
      refine ⟨i, insertedWithin_succ hi (hbound k ?_), ((insertedWithin_iff _ _ _ _ _).1 hi).1⟩
      rw [hkeys]
      exact List.mem_append_left _ hk
    have hnewk : ∀ k ∈ new, FIFO.insertedWithin limit ops (n + 1) k n = true := by
      intro k hk
      rcases hnew with rfl | ⟨k', v, hop, hlk, rfl⟩
      · cases hk
      · rw [List.mem_singleton] at hk
        subst hk
        rw [insertedWithin_iff]
        refine ⟨by omega, ⟨v, ?_⟩, ?_, ?_⟩
        · rw [List.getElem?_eq_getElem (by omega), hop]
        · rw [boundAfter_eq hr]
          exact decide_eq_false (Finmap.lookup_eq_none.1 hlk)
        · intro j hj hjn
          have : j = n + 1 := by omega
          rw [this]
          exact hbound k (by rw [hkeys]; simp)
    refine ⟨u', l', hr', hinv', ?_, ?_⟩
    · intro k hk
      rw [hkeys, List.mem_append] at hk
      rcases hk with hk | hk
      · obtain ⟨i, hi, _⟩ := hkept k hk
        exact ⟨i, hi⟩
      · exact ⟨n, hnewk k hk⟩
    · rw [hkeys, List.pairwise_append]
      refine ⟨?_, ?_, ?_⟩
      · refine (hpw.sublist hsub).imp_of_mem ?_
        intro a b ha hb ⟨i, j, hi, hj, hij⟩
        have ha' : a ∈ l'.map (·.key) := by rw [hkeys]; exact List.mem_append_left _ ha
        have hb' : b ∈ l'.map (·.key) := by rw [hkeys]; exact List.mem_append_left _ hb
        exact ⟨i, j, insertedWithin_succ hi (hbound a ha'), insertedWithin_succ hj (hbound b hb'),
          hij⟩
      · rcases hnew with rfl | ⟨k', v, _, _, rfl⟩
        · exact List.Pairwise.nil
        · exact List.pairwise_singleton _ _
      · intro a ha b hb
        obtain ⟨i, hi, hin⟩ := hkept a ha
        exact ⟨i, n, hi, hnewk b hb, hin⟩

theorem fifo_order_by_insertion {limit : Int} {ops : List Op} {s : FIFO}
    (hr : FIFO.run (NewFifo limit) ops = some s) :
    (∀ k ∈ s.order, ∃ i, FIFO.insertedAt limit ops k i = true) ∧
      s.order.Pairwise (fun a b => ∀ i j, FIFO.insertedAt limit ops a i = true →
        FIFO.insertedAt limit ops b j = true → i < j) := by
  obtain ⟨u, l, hu, hinv, hex, hpw⟩ := fifo_insertion_order limit ops ops.length (le_refl _)
  rw [List.take_length, hr] at hu
  cases hu
  rw [hinv.shape.order]
  refine ⟨hex, hpw.imp ?_⟩
  rintro a b ⟨i, j, hi, hj, hij⟩ i' j' hi' hj'
  rw [← insertedWithin_unique hi hi', ← insertedWithin_unique hj hj']
  exact hij

/-- C10. FIFO Get changes nothing but the counters. In a reachable FIFO
state, Get(key) returns, and the state after it is the state before it with
Hits (on a hit) or Misses (on a miss) greater by one: bindings, values,
eviction list and currentSize are the same; a hit returns the value bound to
the key. In any state at all in which Get returns, the same holds. As a
consequence, a sequence of calls and the same sequence with its Get calls
left out end with the same eviction list, bindings and currentSize, and the
nodes of the eviction list stand in the order in which they were allocated.
The eviction order is the order of first insertion since last absence: for
every sequence of calls on a new FIFO that ends in the state (Get calls
included), the keys of the eviction order are exactly the keys held, each
once; each of them has a call that inserted it since it was last absent (a
Set of the key, before which the key is not bound and after which it stays
bound to the end); and of two keys the one earlier in the eviction order has
the earlier inserting call. -/
theorem fifo_get_changes_only_counters (s : FIFO) (key : String) (hs : Reachable .fifo s) :
    (∃ v ok, FIFO.Get s key = some
        ({ s with stats := { Hits := s.stats.Hits + (if ok then 1 else 0),
                             Misses := s.stats.Misses + (if ok then 0 else 1) } }, v, ok) ∧
      (ok = true ↔ key ∈ s.cache) ∧ (ok = true → s.binding key = some v) ∧
      (ok = false → v = [])) ∧
    (∀ (u u' : FIFO) (k : String) (v : List UInt8) (ok : Bool),
      FIFO.Get u k = some (u', v, ok) →
        u' = { u with stats := { Hits := u.stats.Hits + (if ok then 1 else 0),
                                 Misses := u.stats.Misses + (if ok then 0 else 1) } } ∧
        u'.entries = u.entries ∧ u'.order = u.order ∧ u'.cache = u.cache ∧
        u'.currentSize = u.currentSize ∧ (∀ k', u'.binding k' = u.binding k')) ∧
    (∀ ops, ∃ t t', FIFO.run s ops = some t ∧
      FIFO.run s (ops.filter Op.isUpdate) = some t' ∧
      t.entries = t'.entries ∧ t.order = t'.order ∧ t.currentSize = t'.currentSize ∧
      ∀ k, t.binding k = t'.binding k) ∧
    s.addrs.Pairwise (· < ·) ∧
    (∀ (limit : Int) (ops : List Op), FIFO.run (NewFifo limit) ops = some s →
      s.order.Nodup ∧ (∀ k, k ∈ s.order ↔ k ∈ s.cache) ∧
      (∀ k ∈ s.order, ∃ i, FIFO.insertedAt limit ops k i = true) ∧
      s.order.Pairwise (fun a b => ∀ i j, FIFO.insertedAt limit ops a i = true →
        FIFO.insertedAt limit ops b j = true → i < j)) := by
  obtain ⟨l, h⟩ := reachable_inv hs
  refine ⟨?_, ?_, ?_, fifo_reachable_sorted hs, ?_⟩
  · rcases lookup_cases s key with hk | ⟨p, hk⟩
    · refine ⟨[], false, by simp [fifo_Get_miss hk], ?_, by simp, by simp⟩
      simp [Finmap.mem_iff, hk]
    · obtain ⟨l1, e, l2, rfl, rfl, rfl⟩ := h.lookup_some hk
      refine ⟨e.value, true, by simp [fifo_Get_hit h], ?_, fun _ => inv_binding_mid h, by simp⟩
      simp [Finmap.mem_iff, hk]
  · intro u u' k v ok hg
    obtain ⟨rfl, _⟩ := fifo_Get_any u k u' v ok hg
    exact ⟨rfl, entries_stats u _, order_stats u _, rfl, rfl, fun k' => binding_stats u _ k'⟩
  · intro ops
    obtain ⟨t, t', r1, r2, r3⟩ := fifo_run_without_gets ops (sameBindings_refl h)
    obtain ⟨o1, o2, o3, _, o5, _⟩ := sameBindings_observe r3
    exact ⟨t, t', r1, r2, o1, o2, o3, o5⟩
  · intro limit ops hr
    obtain ⟨g1, g2⟩ := fifo_order_by_insertion hr
    refine ⟨?_, fun k => (inv_mem_order h k).symm, g1, g2⟩
    rw [h.shape.order]
    exact h.keys

theorem fifo_get_changes_only_counters_witness :
    Reachable .fifo (demoThree .fifo) ∧
      FIFO.Get (demoThree .fifo) "a" =
        some ({ demoThree .fifo with stats := { Hits := 1, Misses := 0 } }, bytes "12345", true) ∧
      (FIFO.run (NewFifo 10) demoReadAndUpdate).map Cache.order = some ["a", "b"] ∧
      (LRU.run (NewLru 10) demoReadAndUpdate).map Cache.order = some ["b", "a"] ∧
      FIFO.insertedAt 10 demoReadAndUpdate "a" 0 = true ∧
      FIFO.insertedAt 10 demoReadAndUpdate "b" 1 = true ∧
      FIFO.insertedAt 10 demoReadAndUpdate "a" 3 = false ∧
      ((∃ v ok, FIFO.Get (demoThree .fifo) "a" = some
          ({ demoThree .fifo with
              stats := { Hits := (demoThree .fifo).stats.Hits + (if ok then 1 else 0),
                         Misses := (demoThree .fifo).stats.Misses + (if ok then 0 else 1) } },
            v, ok) ∧
        (ok = true ↔ "a" ∈ (demoThree .fifo).cache) ∧
        (ok = true → (demoThree .fifo).binding "a" = some v) ∧
        (ok = false → v = [])) ∧
      (∀ (u u' : FIFO) (k : String) (v : List UInt8) (ok : Bool),
        FIFO.Get u k = some (u', v, ok) →
          u' = { u with stats := { Hits := u.stats.Hits + (if ok then 1 else 0),
                                   Misses := u.stats.Misses + (if ok then 0 else 1) } } ∧
          u'.entries = u.entries ∧ u'.order = u.order ∧ u'.cache = u.cache ∧
          u'.currentSize = u.currentSize ∧ (∀ k', u'.binding k' = u.binding k')) ∧
      (∀ ops, ∃ t t', FIFO.run (demoThree .fifo) ops = some t ∧
        FIFO.run (demoThree .fifo) (ops.filter Op.isUpdate) = some t' ∧
        t.entries = t'.entries ∧ t.order = t'.order ∧ t.currentSize = t'.currentSize ∧
        ∀ k, t.binding k = t'.binding k) ∧
      (demoThree .fifo).addrs.Pairwise (· < ·) ∧
      (∀ (limit : Int) (ops : List Op), FIFO.run (NewFifo limit) ops = some (demoThree .fifo) →
        (demoThree .fifo).order.Nodup ∧
        (∀ k, k ∈ (demoThree .fifo).order ↔ k ∈ (demoThree .fifo).cache) ∧
        (∀ k ∈ (demoThree .fifo).order, ∃ i, FIFO.insertedAt limit ops k i = true) ∧
        (demoThree .fifo).order.Pairwise (fun a b => ∀ i j,
          FIFO.insertedAt limit ops a i = true →
          FIFO.insertedAt limit ops b j = true → i < j))) :=
  ⟨demoThree_reachable .fifo, by decide, by decide, by decide, by decide, by decide, by decide,
    fifo_get_changes_only_counters (demoThree .fifo) "a" (demoThree_reachable .fifo)⟩

/-! ## Remove, counters and the agreement of the two policies -/

theorem len_erase {m : Finmap (fun _ : String => Ptr)} {k : String} (hk : k ∈ m) :
    ((m.erase k).keys.card : Int) = (m.keys.card : Int) - 1 := by
  rw [Finmap.keys_erase, Finset.card_erase_of_mem (Finmap.mem_keys.mpr hk)]
  have : 0 < m.keys.card := Finset.card_pos.mpr ⟨k, Finmap.mem_keys.mpr hk⟩
  omega

theorem remove_bound_aux (p : Policy) (s : Cache) (key : String)
    (hs : Reachable p s) (hk : key ∈ s.cache) :
    ∃ s' v, p.Remove s key = some (s', v, true) ∧ s.binding key = some v ∧
      key ∉ s'.cache ∧ s'.binding key = none ∧
      LRU.Len s' = LRU.Len s - 1 ∧ FIFO.Len s' = FIFO.Len s - 1 ∧
      s'.currentSize = s.currentSize - ((key.utf8ByteSize : Int) + (v.length : Int)) ∧
      s'.entries = s.entries.filter (fun y => y.1 ≠ key) ∧
      s'.order = s.order.filter (fun y => y ≠ key) ∧
      (∀ k, k ≠ key → s'.binding k = s.binding k) ∧
      s'.stats = s.stats ∧ s'.limit = s.limit := by
  obtain ⟨l, h⟩ := reachable_inv hs
  obtain ⟨l1, e, l2, rfl, rfl⟩ := inv_of_mem h hk
  obtain ⟨s', r1, r2, i1, f1, f2, _, f4, f5⟩ := Remove_found h
  have hrm : p.Remove s e.key = some (s', e.value, true) := by
    cases p with
    | lru => exact r1
    | fifo => exact r2
  have hne := (keys_mid h.keys).2
  have hnot : e.key ∉ s'.cache := by
    rw [inv_mem_cache i1]
    intro hm
    obtain ⟨x, hx, hxe⟩ := List.mem_map.mp hm
    exact hne x hx hxe
  have hlen : (s'.cache.keys.card : Int) = (s.cache.keys.card : Int) - 1 := by
    rw [f5]; exact len_erase hk
  refine ⟨s', e.value, hrm, inv_binding_mid h, hnot, inv_binding_none i1 hne, hlen, hlen, ?_, ?_,
    ?_, ?_, f2, f1⟩
  · rw [f4]; rfl
  · rw [i1.shape.entries, h.shape.entries, filter_mid_view h.keys]
  · rw [i1.shape.order, h.shape.order, filter_mid_key h.keys]
  · intro k hkne
    apply Option.ext
    intro v
    rw [Option.mem_def, Option.mem_def, inv_binding_iff i1, inv_binding_iff h,
      i1.shape.entries, h.shape.entries]
    have hmem : ∀ z, (k, v, z) ∈ (l1 ++ l2).map Entry.view ↔
        (k, v, z) ∈ (l1 ++ e :: l2).map Entry.view := by
      intro z
      simp only [List.map_append, List.map_cons, List.mem_append, List.mem_cons, Entry.view,
        Prod.mk.injEq]
      constructor
      · rintro (h1 | h1)
        · exact Or.inl h1
        · exact Or.inr (Or.inr h1)
      · rintro (h1 | h1 | h1)
        · exact Or.inl h1
        · exact absurd h1.1 hkne
        · exact Or.inr h1
    constructor
    · rintro ⟨z, hz⟩; exact ⟨z, (hmem z).mp hz⟩
    · rintro ⟨z, hz⟩; exact ⟨z, (hmem z).mpr hz⟩

/-- C11. Remove of a bound key, for both LRU and FIFO: in every reachable
state, Remove(key) on a bound key returns (stored value, true); afterwards the
key is unbound, Len() is smaller by one, currentSize is smaller by exactly
len(key) + len(stored value), the eviction list is the old one without the
entry of the key (the other entries keep their values and their order), every
other binding is unchanged, and so are the hit/miss counters and the limit. -/
theorem remove_bound_key (p : Policy) (s : Cache) (key : String)
    (hs : Reachable p s) (hk : key ∈ s.cache) :
    ∃ s' v, p.Remove s key = some (s', v, true) ∧ s.binding key = some v ∧
      key ∉ s'.cache ∧ s'.binding key = none ∧
      LRU.Len s' = LRU.Len s - 1 ∧ FIFO.Len s' = FIFO.Len s - 1 ∧
      s'.currentSize = s.currentSize - ((key.utf8ByteSize : Int) + (v.length : Int)) ∧
      s'.entries = s.entries.filter (fun y => y.1 ≠ key) ∧
      s'.order = s.order.filter (fun y => y ≠ key) ∧
      (∀ k, k ≠ key → s'.binding k = s.binding k) ∧
      s'.stats = s.stats ∧ s'.limit = s.limit :=
  remove_bound_aux p s key hs hk

theorem remove_bound_key_witness :
    Reachable .lru (demoThree .lru) ∧ "b" ∈ (demoThree .lru).cache ∧
      (demoThree .lru).order = ["a", "b", "c"] ∧
      ∃ s' v, Policy.lru.Remove (demoThree .lru) "b" = some (s', v, true) ∧
        (demoThree .lru).binding "b" = some v ∧
        "b" ∉ s'.cache ∧ s'.binding "b" = none ∧
        LRU.Len s' = LRU.Len (demoThree .lru) - 1 ∧
        FIFO.Len s' = FIFO.Len (demoThree .lru) - 1 ∧
        s'.currentSize =
          (demoThree .lru).currentSize - (("b".utf8ByteSize : Int) + (v.length : Int)) ∧
        s'.entries = (demoThree .lru).entries.filter (fun y => y.1 ≠ "b") ∧
        s'.order = (demoThree .lru).order.filter (fun y => y ≠ "b") ∧
        (∀ k, k ≠ "b" → s'.binding k = (demoThree .lru).binding k) ∧
        s'.stats = (demoThree .lru).stats ∧ s'.limit = (demoThree .lru).limit :=
  ⟨demoThree_reachable .lru, by decide, by decide,
    remove_bound_key .lru (demoThree .lru) "b" (demoThree_reachable .lru) (by decide)⟩

/-- C12. Remove is idempotent, for both LRU and FIFO. In any state at all,
Remove(key) on a key that is not bound returns found = false with an empty
value and leaves the whole state as it was, counters included. In every
reachable state, bound key or not, Remove(key) returns, and a second
Remove(key) right after it returns found = false with an empty value and
leaves the state reached by the first call unchanged: two calls end where one
call ends. -/
theorem remove_idempotent (p : Policy) (s : Cache) (key : String) (hs : Reachable p s) :
    (∃ s1 v ok, p.Remove s key = some (s1, v, ok) ∧ (ok = true ↔ key ∈ s.cache) ∧
      p.Remove s1 key = some (s1, [], false) ∧
      (p.Remove s key).bind (fun r => (p.Remove r.1 key).map (·.1)) = some s1) ∧
    (∀ (u : Cache) (k : String), k ∉ u.cache → p.Remove u k = some (u, [], false)) := by
  have hmiss : ∀ (u : Cache) (k : String), k ∉ u.cache → p.Remove u k = some (u, [], false) := by
    intro u k hk
    have := Remove_missing (Finmap.lookup_eq_none.mpr hk)
    cases p with
    | lru => exact this.1
    | fifo => exact this.2
  refine ⟨?_, hmiss⟩
  by_cases hk : key ∈ s.cache
  · obtain ⟨s', v, r1, _, hnot, _⟩ := remove_bound_aux p s key hs hk
    exact ⟨s', v, true, r1, by simp [hk], hmiss s' key hnot, by simp [r1, hmiss s' key hnot]⟩
  · exact ⟨s, [], false, hmiss s key hk, by simp [hk], hmiss s key hk,
      by simp [hmiss s key hk]⟩

theorem call_inv (p : Policy) {s : Cache} {l : List Entry} (h : Inv s l) (op : Op) :
    ∃ s' r l', p.call s op = some (s', r) ∧ Inv s' l' ∧ s'.limit = s.limit ∧
      s'.stats = { Hits := s.stats.Hits + (if r.isHit then 1 else 0),
                   Misses := s.stats.Misses + (if r.isMiss then 1 else 0) } ∧
      (∀ k v, op = .set k v → s'.stats = s.stats) ∧ (∀ k, op = .remove k → s'.stats = s.stats) := by
  have hst : ∀ st : Stats, st = { Hits := st.Hits + 0, Misses := st.Misses + 0 } := by
    intro st; simp
  cases op with
  | set k v =>
    by_cases hz : (k.utf8ByteSize : Int) + (v.length : Int) > s.limit
    · refine ⟨s, .set false, l, ?_, h, rfl, by simp [Ret.isHit, Ret.isMiss],
        fun _ _ _ => rfl, fun _ _ => rfl⟩
      cases p with
      | lru => simp [Policy.call, Policy.Set, lru_Set_reject hz]
      | fifo => simp [Policy.call, Policy.Set, fifo_Set_reject hz]
    · have key : ∃ s' l', p.Set s k v = some (s', true) ∧ Inv s' l' ∧ s'.limit = s.limit ∧
          s'.stats = s.stats := by
        rcases lookup_cases s k with hk | ⟨q, hk⟩
        · cases p with
          | lru =>
            obtain ⟨s', e1, i1, _, f1, f2, _⟩ := lru_Set_new (v := v) h hk (not_lt.mp hz)
            exact ⟨s', _, e1, i1, f1, f2⟩
          | fifo =>
            obtain ⟨s', e1, i1, _, f1, f2, _⟩ := fifo_Set_new (v := v) h hk (not_lt.mp hz)
            exact ⟨s', _, e1, i1, f1, f2⟩
        · obtain ⟨l1, e, l2, rfl, rfl, rfl⟩ := h.lookup_some hk
          cases p with
          | lru =>
            obtain ⟨s', e1, i1, _, f1, f2, _⟩ := lru_Set_existing (v := v) h (not_lt.mp hz)
            exact ⟨s', _, e1, i1, f1, f2⟩
          | fifo =>
            obtain ⟨s', e1, i1, f1, f2, _⟩ := fifo_Set_existing (v := v) h (not_lt.mp hz)
            exact ⟨s', _, e1, i1, f1, f2⟩
      obtain ⟨s', l', e1, i1, f1, f2⟩ := key
      exact ⟨s', .set true, l', by simp [Policy.call, e1], i1, f1,
        by rw [f2]; simp [Ret.isHit, Ret.isMiss], fun _ _ _ => f2,
        fun _ hc => Op.noConfusion hc⟩
  | get k =>
    rcases lookup_cases s k with hk | ⟨q, hk⟩
    · refine ⟨{ s with stats := { s.stats with Misses := s.stats.Misses + 1 } }, .get [] false, l,
        ?_, h.stats _, rfl, by simp [Ret.isHit, Ret.isMiss], fun _ _ hc => Op.noConfusion hc,
        fun _ hc => Op.noConfusion hc⟩
      cases p with
      | lru => simp [Policy.call, Policy.Get, lru_Get_miss hk]
      | fifo => simp [Policy.call, Policy.Get, fifo_Get_miss hk]
    · obtain ⟨l1, e, l2, rfl, rfl, rfl⟩ := h.lookup_some hk
      cases p with
      | lru =>
        obtain ⟨s', e1, i1, f1, _, f2, _⟩ := lru_Get_hit h
        exact ⟨s', .get e.value true, _, by simp [Policy.call, Policy.Get, e1], i1, f1,
          by rw [f2]; simp [Ret.isHit, Ret.isMiss], fun _ _ hc => Op.noConfusion hc,
          fun _ hc => Op.noConfusion hc⟩
      | fifo =>
        exact ⟨{ s with stats := { s.stats with Hits := s.stats.Hits + 1 } }, .get e.value true, _,
          by simp [Policy.call, Policy.Get, fifo_Get_hit h], h.stats _, rfl,
          by simp [Ret.isHit, Ret.isMiss], fun _ _ hc => Op.noConfusion hc, fun _ hc => Op.noConfusion hc⟩
  | remove k =>
    rcases lookup_cases s k with hk | ⟨q, hk⟩
    · refine ⟨s, .remove [] false, l, ?_, h, rfl,
        by simp [Ret.isHit, Ret.isMiss], fun _ _ _ => rfl, fun _ _ => rfl⟩
      cases p with
      | lru => simp [Policy.call, Policy.Remove, (Remove_missing hk).1]
      | fifo => simp [Policy.call, Policy.Remove, (Remove_missing hk).2]
    · obtain ⟨l1, e, l2, rfl, rfl, rfl⟩ := h.lookup_some hk
      obtain ⟨s', r1, r2, i1, f1, f2, _⟩ := Remove_found h
      refine ⟨s', .remove e.value true, _, ?_, i1, f1,
        by rw [f2]; simp [Ret.isHit, Ret.isMiss], fun _ _ hc => Op.noConfusion hc,
        fun _ _ => f2⟩
      cases p with
      | lru => simp [Policy.call, Policy.Remove, r1]
      | fifo => simp [Policy.call, Policy.Remove, r2]

theorem call_step (p : Policy) (s : Cache) (op : Op) :
    (p.call s op).map (·.1) = (match p with
      | .lru => LRU.step s op
      | .fifo => FIFO.step s op) := by
  cases p <;> cases op <;> simp [Policy.call, LRU.step, FIFO.step, Policy.Set, Policy.Get,
    Policy.Remove, Option.map_map, Function.comp_def]

theorem exec_run (p : Policy) (ops : List Op) : ∀ (s : Cache),
    (p.exec s ops).map (·.1) = p.run s ops := by
  induction ops with
  | nil => intro s; cases p <;> rfl
  | cons op ops ih =>
    intro s
    have hc := call_step p s op
    cases hcall : p.call s op with
    | none =>
      rw [hcall] at hc
      cases p with
      | lru =>
        simp only [Option.map_none'] at hc
        simp [Policy.exec, hcall, Policy.run, LRU.run, ← hc]
      | fifo =>
        simp only [Option.map_none'] at hc
        simp [Policy.exec, hcall, Policy.run, FIFO.run, ← hc]
    | some r =>
      rw [hcall] at hc
      have ih' := ih r.1
      cases p with
      | lru =>
        simp only [Option.map_some'] at hc
        simp only [Policy.exec, hcall, Option.some_bind, Option.map_map, Policy.run, LRU.run,
          ← hc]
        simpa [Function.comp_def, Policy.run] using ih'
      | fifo =>
        simp only [Option.map_some'] at hc
        simp only [Policy.exec, hcall, Option.some_bind, Option.map_map, Policy.run, FIFO.run,
          ← hc]
        simpa [Function.comp_def, Policy.run] using ih'

theorem exec_inv (p : Policy) (ops : List Op) : ∀ {s : Cache} {l : List Entry}, Inv s l →
    ∃ s' rets l', p.exec s ops = some (s', rets) ∧ Inv s' l' ∧ rets.length = ops.length ∧
      s'.limit = s.limit ∧
      s'.stats.Hits = s.stats.Hits + (rets.countP Ret.isHit : Nat) ∧
      s'.stats.Misses = s.stats.Misses + (rets.countP Ret.isMiss : Nat) := by
  induction ops with
  | nil => intro s l h; exact ⟨s, [], l, rfl, h, rfl, rfl, by simp, by simp⟩
  | cons op ops ih =>
    intro s l h
    obtain ⟨s1, r, l1, e1, i1, f1, g1, _⟩ := call_inv p h op
    obtain ⟨s2, rets, l2, e2, i2, n2, f2, h2, m2⟩ := ih i1
    refine ⟨s2, r :: rets, l2, by simp [Policy.exec, e1, e2], i2, by simp [n2], f2.trans f1, ?_, ?_⟩
    · rw [h2, g1, List.countP_cons]
      by_cases hr : r.isHit = true
      · simp [hr]; ring
      · simp [hr]
    · rw [m2, g1, List.countP_cons]
      by_cases hr : r.isMiss = true
      · simp [hr]; ring
      · simp [hr]

theorem new_inv (p : Policy) (limit : Int) : Inv (p.New limit) [] := by
  cases p with
  | lru => exact Inv.new limit
  | fifo => exact Inv.new limit

/-- C13. Stats accuracy, for both LRU and FIFO: every finite sequence of Set,
Get and Remove calls on a newly constructed cache returns, and afterwards
Hits is the number of Get calls of the sequence that returned ok = true and
Misses the number of Get calls that returned ok = false; in the state reached
a further Set or Remove returns and changes neither counter. -/
theorem stats_accuracy (p : Policy) (limit : Int) (ops : List Op) :
    ∃ s rets, p.exec (p.New limit) ops = some (s, rets) ∧ p.run (p.New limit) ops = some s ∧
      rets.length = ops.length ∧
      s.stats.Hits = (rets.countP Ret.isHit : Nat) ∧
      s.stats.Misses = (rets.countP Ret.isMiss : Nat) ∧
      (∀ key value, ∃ s' ok, p.Set s key value = some (s', ok) ∧ s'.stats = s.stats) ∧
      (∀ key, ∃ s' v ok, p.Remove s key = some (s', v, ok) ∧ s'.stats = s.stats) := by
  obtain ⟨s, rets, l, e, i, n, _, h, m⟩ := exec_inv p ops (new_inv p limit)
  have h0 : (p.New limit).stats = { Hits := 0, Misses := 0 } := by cases p <;> rfl
  refine ⟨s, rets, e, ?_, n, by simpa [h0] using h, by simpa [h0] using m, ?_, ?_⟩
  · rw [← exec_run, e]; rfl
  · intro key value
    obtain ⟨s', r, l', e1, _, _, _, g1, _⟩ := call_inv p i (.set key value)
    simp only [Policy.call, Option.map_eq_some'] at e1
    obtain ⟨⟨s1, ok⟩, e2, e3⟩ := e1
    simp only [Prod.mk.injEq] at e3
    exact ⟨s1, ok, e2, by rw [e3.1]; exact g1 key value rfl⟩
  · intro key
    obtain ⟨s', r, l', e1, _, _, _, _, g1⟩ := call_inv p i (.remove key)
    simp only [Policy.call, Option.map_eq_some'] at e1
    obtain ⟨⟨s1, v, ok⟩, e2, e3⟩ := e1
    simp only [Prod.mk.injEq] at e3
    exact ⟨s1, v, ok, e2, by rw [e3.1]; exact g1 key rfl⟩

theorem stats_accuracy_witness :
    (∀ p : Policy,
      (p.exec (p.New 10) [.get "x", .set "x" (bytes "1"), .get "x"]).map
          (fun r => (r.1.stats, r.2)) =
        some ({ Hits := 1, Misses := 1 },
          [.get [] false, .set true, .get (bytes "1") true])) ∧
    ∃ s rets, Policy.lru.exec (Policy.lru.New 10) [.get "x", .set "x" (bytes "1"), .get "x"] =
        some (s, rets) ∧
      Policy.lru.run (Policy.lru.New 10) [.get "x", .set "x" (bytes "1"), .get "x"] = some s ∧
      rets.length = [Op.get "x", .set "x" (bytes "1"), .get "x"].length ∧
      s.stats.Hits = (rets.countP Ret.isHit : Nat) ∧
      s.stats.Misses = (rets.countP Ret.isMiss : Nat) ∧
      (∀ key value, ∃ s' ok, Policy.lru.Set s key value = some (s', ok) ∧ s'.stats = s.stats) ∧
      (∀ key, ∃ s' v ok, Policy.lru.Remove s key = some (s', v, ok) ∧ s'.stats = s.stats) :=
  ⟨fun p => by cases p <;> rfl, stats_accuracy .lru 10 _⟩

theorem sameBindings_mem {s t : Cache} (h : SameBindings s t) (k : String) :
    k ∈ s.cache ↔ k ∈ t.cache := (sameBindings_observe h).2.2.2.2.2 k

theorem sameBindings_len {s t : Cache} (h : SameBindings s t) :
    s.cache.keys.card = t.cache.keys.card := by
  congr 1
  ext k
  rw [Finmap.mem_keys, Finmap.mem_keys]
  exact sameBindings_mem h k

theorem agree_call {s t : Cache} (h : SameBindings s t) (hst : s.stats = t.stats) (op : Op)
    (hq : op.isQuiet s = true) :
    ∃ s' t' r, Policy.lru.call s op = some (s', r) ∧ Policy.fifo.call t op = some (t', r) ∧
      SameBindings s' t' ∧ s'.stats = t'.stats := by
  have hmem := sameBindings_mem h
  obtain ⟨l, hs, ht, hl, hh⟩ := h
  have hc : s.currentSize = t.currentSize := by rw [hs.size, ht.size]
  cases op with
  | set k v =>
    have hk : k ∉ s.cache := by simpa [Op.isQuiet] using hq
    have hks : s.cache.lookup k = none := Finmap.lookup_eq_none.mpr hk
    have hkt : t.cache.lookup k = none := Finmap.lookup_eq_none.mpr (fun hm => hk ((hmem k).mpr hm))
    by_cases hz : (k.utf8ByteSize : Int) + (v.length : Int) > s.limit
    · exact ⟨s, t, .set false, by simp [Policy.call, Policy.Set, lru_Set_reject hz],
        by simp [Policy.call, Policy.Set, fifo_Set_reject (hl ▸ hz)], ⟨l, hs, ht, hl, hh⟩, hst⟩
    · obtain ⟨s', e1, i1, _, f1, k1, g1⟩ := lru_Set_new (v := v) hs hks (not_lt.mp hz)
      obtain ⟨t', e2, i2, _, f2, k2, g2⟩ := fifo_Set_new (v := v) ht hkt
        (by rw [← hl]; exact not_lt.mp hz)
      rw [← hl, ← hc, ← hh] at i2
      exact ⟨s', t', .set true, by simp [Policy.call, Policy.Set, e1],
        by simp [Policy.call, Policy.Set, e2],
        ⟨_, i1, i2, by rw [f1, f2, hl], by rw [g1, g2, hh]⟩, by rw [k1, k2, hst]⟩
  | get k =>
    have hk : k ∉ s.cache := by simpa [Op.isQuiet] using hq
    have hks : s.cache.lookup k = none := Finmap.lookup_eq_none.mpr hk
    have hkt : t.cache.lookup k = none := Finmap.lookup_eq_none.mpr (fun hm => hk ((hmem k).mpr hm))
    exact ⟨{ s with stats := { s.stats with Misses := s.stats.Misses + 1 } },
      { t with stats := { t.stats with Misses := t.stats.Misses + 1 } }, .get [] false,
      by simp [Policy.call, Policy.Get, lru_Get_miss hks],
      by simp [Policy.call, Policy.Get, fifo_Get_miss hkt],
      ⟨l, hs.stats _, ht.stats _, hl, hh⟩, by simp [hst]⟩
  | remove k =>
    rcases lookup_cases s k with hk | ⟨q, hk⟩
    · have hkt : t.cache.lookup k = none := by rw [← sameBindings_lookup hs ht]; exact hk
      exact ⟨s, t, .remove [] false, by simp [Policy.call, Policy.Remove, (Remove_missing hk).1],
        by simp [Policy.call, Policy.Remove, (Remove_missing hkt).2], ⟨l, hs, ht, hl, hh⟩, hst⟩
    · obtain ⟨l1, e, l2, rfl, rfl, rfl⟩ := hs.lookup_some hk
      obtain ⟨s', e1, _, i1, f1, k1, g1, _⟩ := Remove_found hs
      obtain ⟨t', _, e2, i2, f2, k2, g2, _⟩ := Remove_found ht
      exact ⟨s', t', .remove e.value true, by simp [Policy.call, Policy.Remove, e1],
        by simp [Policy.call, Policy.Remove, e2],
        ⟨_, i1, i2, by rw [f1, f2, hl], by rw [g1, g2, hh]⟩, by rw [k1, k2, hst]⟩

theorem isQuiet_congr {s t : Cache} (h : SameBindings s t) (op : Op) :
    op.isQuiet s = op.isQuiet t := by
  have hmem := sameBindings_mem h
  cases op with
  | set k v => simp [Op.isQuiet, hmem k]
  | get k => simp [Op.isQuiet, hmem k]
  | remove k => rfl

theorem agree_exec (ops : List Op) : ∀ {s t : Cache}, SameBindings s t → s.stats = t.stats →
    (Policy.lru.quiet s ops = true ∨ Policy.fifo.quiet t ops = true) →
    ∃ s' t' rets, Policy.lru.exec s ops = some (s', rets) ∧
      Policy.fifo.exec t ops = some (t', rets) ∧ SameBindings s' t' ∧ s'.stats = t'.stats := by
  induction ops with
  | nil => intro s t h hst _; exact ⟨s, t, [], rfl, rfl, h, hst⟩
  | cons op ops ih =>
    intro s t h hst hq
    have hqs : op.isQuiet s = true := by
      rcases hq with hq | hq
      · simp only [Policy.quiet, Bool.and_eq_true] at hq; exact hq.1
      · simp only [Policy.quiet, Bool.and_eq_true] at hq; rw [isQuiet_congr h]; exact hq.1
    obtain ⟨s1, t1, r, e1, e2, h1, hst1⟩ := agree_call h hst op hqs
    have hq1 : Policy.lru.quiet s1 ops = true ∨ Policy.fifo.quiet t1 ops = true := by
      rcases hq with hq | hq
      · simp only [Policy.quiet, Bool.and_eq_true, e1] at hq; exact Or.inl hq.2
      · simp only [Policy.quiet, Bool.and_eq_true, e2] at hq; exact Or.inr hq.2
    obtain ⟨s2, t2, rets, r1, r2, h2, hst2⟩ := ih h1 hst1 hq1
    exact ⟨s2, t2, r :: rets, by simp [Policy.exec, e1, r1], by simp [Policy.exec, e2, r2], h2,
      hst2⟩

/-- C14. LRU and FIFO agree whenever nothing is repositioned: for every limit
and every finite sequence of Set, Get and Remove calls in which no Get and no
Set is made on a key bound at that time (in the run of either policy), the
sequence run on NewLru(limit) and on NewFifo(limit) returns the same value at
every call and ends with the same eviction list (keys, values and sizes in
the same order), the same bindings, the same number of bindings, the same
currentSize and the same hit/miss counters. -/
theorem lru_fifo_agree_when_quiet (p : Policy) (limit : Int) (ops : List Op)
    (hq : p.quiet (p.New limit) ops = true) :
    ∃ s t rets, Policy.lru.exec (NewLru limit) ops = some (s, rets) ∧
      Policy.fifo.exec (NewFifo limit) ops = some (t, rets) ∧
      s.entries = t.entries ∧ s.order = t.order ∧ (∀ k, s.binding k = t.binding k) ∧
      LRU.Len s = FIFO.Len t ∧ s.currentSize = t.currentSize ∧ s.stats = t.stats ∧
      s.limit = t.limit := by
  have h0 : SameBindings (NewLru limit) (NewFifo limit) := sameBindings_refl (Inv.new limit)
  have hq' : Policy.lru.quiet (NewLru limit) ops = true ∨
      Policy.fifo.quiet (NewFifo limit) ops = true := by
    cases p with
    | lru => exact Or.inl hq
    | fifo => exact Or.inr hq
  obtain ⟨s, t, rets, e1, e2, h, hst⟩ := agree_exec ops h0 rfl hq'
  obtain ⟨o1, o2, o3, o4, o5, _⟩ := sameBindings_observe h
  refine ⟨s, t, rets, e1, e2, o1, o2, o5, ?_, o3, hst, o4⟩
  simp only [LRU.Len, FIFO.Len, sameBindings_len h]

theorem lru_fifo_agree_when_quiet_witness :
    Policy.fifo.quiet (Policy.fifo.New 10)
        [.set "a" (bytes "12345"), .get "b", .set "b" (bytes "123456"), .remove "a",
         .set "a" (bytes "1"), .remove "zz"] = true ∧
      ∃ s t rets, Policy.lru.exec (NewLru 10)
          [.set "a" (bytes "12345"), .get "b", .set "b" (bytes "123456"), .remove "a",
           .set "a" (bytes "1"), .remove "zz"] = some (s, rets) ∧
        Policy.fifo.exec (NewFifo 10)
          [.set "a" (bytes "12345"), .get "b", .set "b" (bytes "123456"), .remove "a",
           .set "a" (bytes "1"), .remove "zz"] = some (t, rets) ∧
        s.entries = t.entries ∧ s.order = t.order ∧ (∀ k, s.binding k = t.binding k) ∧
        LRU.Len s = FIFO.Len t ∧ s.currentSize = t.currentSize ∧ s.stats = t.stats ∧
        s.limit = t.limit :=
  ⟨by decide, lru_fifo_agree_when_quiet .fifo 10 _ (by decide)⟩

theorem lru_evict_mono : ∀ (f : Nat) (s s' : Cache), LRU.evict f s = some s' →
    ∀ f', f ≤ f' → LRU.evict f' s = some s' := by
  intro f
  induction f with
  | zero =>
    intro s s' h f' _
    simp only [LRU.evict] at h
    split at h
    · cases h
    · next hc => cases f' <;> simpa [LRU.evict, hc] using h
  | succ f ih =>
    intro s s' h f' hf
    obtain ⟨g, rfl⟩ : ∃ g, f' = g + 1 := ⟨f' - 1, by omega⟩
    simp only [LRU.evict] at h ⊢
    split
    · next hc =>
      rw [if_pos hc] at h
      simp only [Option.bind_eq_bind] at h ⊢
      cases h1 : s.load s.dummyLeft.next with
      | none => rw [h1] at h; simp at h
      | some n =>
        rw [h1] at h
        simp only [Option.some_bind] at h ⊢
        cases h2 : LRU.RemoveNode { s with currentSize := s.currentSize - n.storage }
            s.dummyLeft.next with
        | none => rw [h2] at h; simp at h
        | some s2 =>
          rw [h2] at h
          simp only [Option.some_bind] at h ⊢
          cases h3 : s2.load s.dummyLeft.next with
          | none => rw [h3] at h; simp at h
          | some n2 =>
            rw [h3] at h
            simp only [Option.some_bind] at h ⊢
            exact ih _ _ h g (by omega)
    · next hc => rw [if_neg hc] at h; exact h

theorem fifo_evictLog_eq : ∀ (fuel : Nat) (s : Cache),
    FIFO.evictLog fuel s = LRU.evictLog fuel s := by
  intro fuel
  induction fuel with
  | zero => intro s; rfl
  | succ f ih =>
    intro s
    simp only [FIFO.evictLog, LRU.evictLog, fifo_RemoveNode_eq, ih]

theorem lru_evictLog_spec : ∀ (l : List Entry) (fuel : Nat) (s : Cache),
    Shape s l → l.length ≤ fuel → s.currentSize - sizeSum l ≤ s.limit →
    LRU.evictLog fuel s = (LRU.evict fuel s).map (fun s' =>
      (s', (l.take (evictCount s.limit s.currentSize l)).map (fun e => Ptr.node e.addr))) := by
  intro l
  induction l with
  | nil =>
    intro fuel s hs _ hc
    have hc' : ¬ s.currentSize > s.limit := by simpa [sizeSum] using hc
    cases fuel <;> simp [LRU.evictLog, LRU.evict, hc', evictCount]
  | cons e l ih =>
    intro fuel s hs hf hc
    by_cases hgt : s.currentSize > s.limit
    · cases fuel with
      | zero => simp at hf
      | succ f =>
        have hnext : s.dummyLeft.next = .node e.addr := by
          have := hs.chain.1
          simpa [Cache.nextOf, Cache.load] using this
        obtain ⟨n, hn, k1, k2, k3⟩ := dataOf_eq_some (hs.data e (List.mem_cons_self _ _))
        have hs1 : Shape { s with currentSize := s.currentSize - n.storage } ([] ++ e :: l) :=
          hs.of_load (fun _ => rfl)
        obtain ⟨s2, e2, d2, hs2⟩ := hs1.remove
        have hd2 : s2.dataOf (.node e.addr) = some e.view := by
          rw [d2.data]; exact hs.data e (List.mem_cons_self _ _)
        obtain ⟨n2, hn2, j1, j2, j3⟩ := dataOf_eq_some hd2
        have hs3 : Shape { s2 with cache := s2.cache.erase n2.key } l :=
          Shape.of_load (s := s2) (by simpa using hs2) (fun _ => rfl)
        have ih' := ih f _ hs3 (by simpa using hf) (by
          simp only [d2.frame.currentSize, d2.frame.limit, k3, Entry.view]
          rw [sizeSum_cons] at hc
          omega)
        have hX : evictCount ({ s2 with cache := s2.cache.erase n2.key } : Cache).limit
            ({ s2 with cache := s2.cache.erase n2.key } : Cache).currentSize l =
            evictCount s.limit (s.currentSize - e.size) l := by
          show evictCount s2.limit s2.currentSize l = _
          rw [d2.frame.currentSize, d2.frame.limit, k3]
          rfl
        rw [hX] at ih'
        simp only [LRU.evictLog, LRU.evict, hgt, if_true, hnext, hn]
        simp only [Option.bind_eq_bind, Option.some_bind, e2, hn2, ih', evictCount, hgt, if_true,
          List.take_succ_cons, List.map_cons]
        cases LRU.evict f { s2 with cache := s2.cache.erase n2.key } <;> rfl
    · cases fuel <;> simp [LRU.evictLog, LRU.evict, hgt, evictCount]

theorem evictLog_of_evict {l : List Entry} {fuel : Nat} {s s5 : Cache} (hs : Shape s l)
    (hf : l.length ≤ fuel) (hc : s.currentSize - sizeSum l ≤ s.limit)
    (he : LRU.evict fuel s = some s5) :
    ∃ log, LRU.evictLog fuel s = some (s5, log) ∧ log.length ≤ l.length ∧
      ∀ q ∈ log, ∃ e ∈ l, q = Ptr.node e.addr := by
  have el := lru_evictLog_spec l fuel s hs hf hc
  rw [he] at el
  refine ⟨_, el, by rw [List.length_map, List.length_take]; exact min_le_right _ _, ?_⟩
  intro q hq
  obtain ⟨x, hx, rfl⟩ := List.mem_map.mp hq
  exact ⟨x, List.mem_of_mem_take hx, rfl⟩

theorem lru_SetLog_spec {s : Cache} {l : List Entry} (h : Inv s l) (k : String)
    (v : List UInt8) (fuel : Nat) (hf : l.length ≤ fuel) :
    ∃ log, LRU.SetLog fuel s k v = (LRU.Set s k v).map (fun r => (r.1, r.2, log)) ∧
      log.length ≤ l.length ∧ ∀ q ∈ log, ∃ e ∈ l, q = Ptr.node e.addr := by
  by_cases hz : (k.utf8ByteSize : Int) + (v.length : Int) > s.limit
  · exact ⟨[], by simp [LRU.SetLog, LRU.Set, hz], by simp, by simp⟩
  · rcases lookup_cases s k with hk | ⟨q, hk⟩
    · have hP := PreInv.installed v h.shape h.keys (h.lookup_none hk)
        (fun k' p _ => h.cache k' p) h.size
      obtain ⟨s5, e5, _⟩ := hP.evict (not_lt.mp hz) l.length le_rfl
      have ea := lru_evict_mono _ _ _ e5 fuel hf
      have eb := lru_evict_mono _ _ _ e5 (s.installed k v).heap.length
        (h.shape.length_le.trans (by simp [Cache.installed]))
      obtain ⟨log, el, g1, g2⟩ := evictLog_of_evict hP.shape hf
        (by rw [hP.size]; simpa [Entry.size, Cache.installed] using not_lt.mp hz) ea
      simp only [Cache.installed] at ea eb el
      refine ⟨log, ?_, g1, g2⟩
      · unfold LRU.SetLog LRU.Set
        simp only [hz, if_false, hk, Cache.alloc, Cache.index]
        simp only [Option.bind_eq_bind, Option.some_bind, Finmap.lookup_insert, Option.getD_some,
          Cache.load, List.getElem?_concat_length, el, eb]
        cases Finmap.lookup k s5.cache with
        | none => rfl
        | some node => cases hi : LRU.InsertNode s5 node <;> simp [hi]
    · obtain ⟨l1, e, l2, rfl, rfl, rfl⟩ := h.lookup_some hk
      obtain ⟨n, hn, k1, k2, k3⟩ := dataOf_eq_some (h.shape.data e (by simp))
      simp only [Entry.view] at k3
      have hs1 : Shape { s with currentSize := s.currentSize - n.storage } (l1 ++ e :: l2) :=
        h.shape.of_load (fun _ => rfl)
      obtain ⟨s2, e2, d2, hs2⟩ := hs1.remove
      have hP := PreInv.installed (k := e.key) v hs2 (keys_mid h.keys).1 (keys_mid h.keys).2
        (fun k' p hne => by
          rw [d2.frame.cache]
          have := cache_erase h.keys h.cache k' p
          rwa [Finmap.lookup_erase_ne hne] at this)
        (by rw [d2.frame.currentSize, k3]; simp only; rw [h.size, sizeSum_mid]; ring)
      have hz2 : (⟨s2.heap.length, e.key, v⟩ : Entry).size ≤ (s2.installed e.key v).limit := by
        simpa [Cache.installed, d2.frame.limit, Entry.size] using not_lt.mp hz
      have hf2 : (l1 ++ l2).length ≤ fuel := by simp at hf ⊢; omega
      obtain ⟨s5, e5, _⟩ := hP.evict hz2 (l1 ++ l2).length le_rfl
      have ea := lru_evict_mono _ _ _ e5 fuel hf2
      have eb := lru_evict_mono _ _ _ e5 (s2.installed e.key v).heap.length
        (hs2.length_le.trans (by simp [Cache.installed]))
      obtain ⟨log, el, g1, g2⟩ := evictLog_of_evict hP.shape hf2
        (by rw [hP.size]; have := hz2; omega) ea
      simp only [Cache.installed] at ea eb el
      refine ⟨log, ?_, g1.trans (by simp), fun q hq => ?_⟩
      rotate_left
      · obtain ⟨x, hx, hxq⟩ := g2 q hq
        exact ⟨x, mem_mid.mpr (Or.inr hx), hxq⟩
      · unfold LRU.SetLog LRU.Set
        simp only [hz, if_false, hk, Cache.alloc, Cache.index, hn]
        simp only [Option.bind_eq_bind, Option.some_bind, e2, Finmap.lookup_insert,
          Option.getD_some, Cache.load, List.getElem?_concat_length, el, eb]
        cases Finmap.lookup e.key s5.cache with
        | none => rfl
        | some node => cases hi : LRU.InsertNode s5 node <;> simp [hi]

theorem fifo_SetLog_spec {s : Cache} {l : List Entry} (h : Inv s l) (k : String)
    (v : List UInt8) (fuel : Nat) (hf : l.length ≤ fuel) :
    ∃ log, FIFO.SetLog fuel s k v = (FIFO.Set s k v).map (fun r => (r.1, r.2, log)) ∧
      log.length ≤ l.length ∧ ∀ q ∈ log, ∃ e ∈ l, q = Ptr.node e.addr := by
  by_cases hz : (k.utf8ByteSize : Int) + (v.length : Int) > s.limit
  · exact ⟨[], by simp [FIFO.SetLog, FIFO.Set, hz], by simp, by simp⟩
  · rcases lookup_cases s k with hk | ⟨q, hk⟩
    · have hP := PreInv.installed v h.shape h.keys (h.lookup_none hk)
        (fun k' p _ => h.cache k' p) h.size
      obtain ⟨s5, e5, _⟩ := hP.evict (not_lt.mp hz) l.length le_rfl
      have ea := lru_evict_mono _ _ _ e5 fuel hf
      have eb := lru_evict_mono _ _ _ e5 (s.installed k v).heap.length
        (h.shape.length_le.trans (by simp [Cache.installed]))
      obtain ⟨log, el, g1, g2⟩ := evictLog_of_evict hP.shape hf
        (by rw [hP.size]; simpa [Entry.size, Cache.installed] using not_lt.mp hz) ea
      simp only [Cache.installed] at ea eb el
      refine ⟨log, ?_, g1, g2⟩
      · unfold FIFO.SetLog FIFO.Set
        simp only [hz, if_false, hk, Cache.alloc, fifo_evict_eq, fifo_evictLog_eq]
        simp only [Option.bind_eq_bind, Option.some_bind, el, eb]
        cases FIFO.InsertNode s5 (.node s.heap.length) <;> rfl
    · refine ⟨[], ?_, by simp, by simp⟩
      unfold FIFO.SetLog FIFO.Set
      simp only [hz, if_false, hk, Option.bind_eq_bind]
      cases s.load q with
      | none => rfl
      | some n =>
        simp only [Option.some_bind]
        cases Cache.setValue { s with currentSize := s.currentSize - n.storage } q v with
        | none => rfl
        | some s1 =>
          simp only [Option.some_bind]
          cases s1.setStorage q ((k.utf8ByteSize : Int) + (v.length : Int)) <;> rfl

theorem nodes_length {s : Cache} {l : List Entry} (h : Shape s l) : s.nodes.length = l.length := by
  have := congrArg List.length h.entries
  simpa [Cache.entries] using this

theorem set_returns (p : Policy) {s : Cache} {l : List Entry} (h : Inv s l) (k : String)
    (v : List UInt8) : ∃ s' ok l', p.Set s k v = some (s', ok) ∧ Inv s' l' := by
  obtain ⟨s', r, l', e1, i1, _⟩ := call_inv p h (.set k v)
  simp only [Policy.call, Option.map_eq_some'] at e1
  obtain ⟨⟨s1, ok⟩, e2, e3⟩ := e1
  simp only [Prod.mk.injEq] at e3
  exact ⟨s1, ok, l', e2, by rw [e3.1]; exact i1⟩

/-- C17. FIFO growth of an existing binding, evaluated where the claim fails:
on NewFifo(10) the calls Set("a", "1"), Set("b", "1234567") and
Set("a", "123456") all return true; the last one grows the binding of the
bound key "a" from 2 to 7 bytes and raises currentSize to 15 above the limit
10, and nothing is removed: the list still holds "a" and then "b", and Len()
is 2. The same calls on NewLru(10) do evict: they end with "a" alone and
currentSize 7. -/
theorem fifo_update_does_not_evict :
    (Policy.fifo.exec (NewFifo 10)
        [.set "a" (bytes "1"), .set "b" (bytes "1234567"), .set "a" (bytes "123456")]).map
        (fun r => (r.2, r.1.currentSize, r.1.limit, r.1.entries, FIFO.Len r.1)) =
      some ([.set true, .set true, .set true], 15, 10,
        [("a", bytes "123456", 7), ("b", bytes "1234567", 8)], 2) ∧
    (Policy.lru.exec (NewLru 10)
        [.set "a" (bytes "1"), .set "b" (bytes "1234567"), .set "a" (bytes "123456")]).map
        (fun r => (r.2, r.1.currentSize, r.1.limit, r.1.entries, LRU.Len r.1)) =
      some ([.set true, .set true, .set true], 7, 10, [("a", bytes "123456", 7)], 1) :=
  ⟨rfl, rfl⟩

theorem inv_len {s : Cache} {l : List Entry} (h : Inv s l) : s.cache.keys.card = l.length := by
  show Multiset.card (s.cache.entries.keys) = _
  rw [inv_cache_eq h]
  simp [Multiset.keys]

theorem inv_order_addrs {s : Cache} {l : List Entry} (h : Inv s l) :
    s.order = s.addrs.filterMap (fun i => (s.heap[i]?).map (·.key)) := by
  rw [h.shape.order, shape_addrs h.shape, List.filterMap_map]
  rw [← List.filterMap_eq_map]
  apply List.filterMap_congr
  intro e he
  obtain ⟨n, hn, k1, _, _⟩ := dataOf_eq_some (h.shape.data e he)
  simp only [Cache.load] at hn
  simp [hn, k1, Entry.view]

theorem inv_in_step {s : Cache} {l : List Entry} (h : Inv s l) :
    s.order.Nodup ∧ s.addrs.Nodup ∧
      s.order = s.addrs.filterMap (fun i => (s.heap[i]?).map (·.key)) ∧
      (∀ k, k ∈ s.cache ↔ k ∈ s.order) ∧
      (∀ k ptr, s.cache.lookup k = some ptr →
        ∃ i n, ptr = .node i ∧ i ∈ s.addrs ∧ s.heap[i]? = some n ∧ n.key = k) ∧
      ChainF s.nextOf s.prevOf .left s.addrs ∧
      s.cache.keys.card = s.nodes.length ∧ s.nodes.length = s.addrs.length := by
  refine ⟨by rw [h.shape.order]; exact h.keys, by rw [shape_addrs h.shape]; exact h.shape.nodup,
    inv_order_addrs h, fun k => inv_mem_order h k, ?_, by rw [shape_addrs h.shape]; exact h.shape.chain,
    by rw [inv_len h, nodes_length h.shape],
    by rw [nodes_length h.shape, shape_addrs h.shape, List.length_map]⟩
  intro k ptr hk
  obtain ⟨e, he, rfl, rfl⟩ := (h.cache k ptr).mp hk
  obtain ⟨n, hn, k1, _, _⟩ := dataOf_eq_some (h.shape.data e he)
  simp only [Cache.load] at hn
  exact ⟨e.addr, n, rfl, by rw [shape_addrs h.shape]; exact List.mem_map_of_mem _ he, hn, k1⟩

/-- C18. Store and list stay in step, for both LRU and FIFO: in every state
reachable from a newly constructed cache by Set, Get and Remove, the nodes
linked between the head and tail sentinels are pairwise distinct and carry
pairwise distinct keys, the keys of the store map are exactly the keys of
those nodes, every map entry points to the linked node that holds its key,
and the links are consistent: following next from the head sentinel runs
through the nodes to the tail sentinel, and prev of every node (and of the
tail sentinel) points back to the one before. Hence Len() equals the number
of linked data nodes. -/
theorem store_and_list_in_step (p : Policy) (s : Cache) (hs : Reachable p s) :
    s.order.Nodup ∧ s.addrs.Nodup ∧
      s.order = s.addrs.filterMap (fun i => (s.heap[i]?).map (·.key)) ∧
      (∀ k, k ∈ s.cache ↔ k ∈ s.order) ∧
      (∀ k ptr, s.cache.lookup k = some ptr →
        ∃ i n, ptr = .node i ∧ i ∈ s.addrs ∧ s.heap[i]? = some n ∧ n.key = k) ∧
      ChainF s.nextOf s.prevOf .left s.addrs ∧
      LRU.Len s = s.nodes.length ∧ FIFO.Len s = s.nodes.length ∧
      s.nodes.length = s.addrs.length := by
  obtain ⟨l, h⟩ := reachable_inv hs
  obtain ⟨h1, h2, h3, h4, h5, h6, h7, h8⟩ := inv_in_step h
  exact ⟨h1, h2, h3, h4, h5, h6, by simp [LRU.Len, h7], by simp [FIFO.Len, h7], h8⟩

theorem store_and_list_in_step_witness :
    Reachable .lru (demoThree .lru) ∧ (demoThree .lru).order = ["a", "b", "c"] ∧
      (demoThree .lru).addrs = [0, 1, 2] ∧
      ((demoThree .lru).order.Nodup ∧ (demoThree .lru).addrs.Nodup ∧
        (demoThree .lru).order =
          (demoThree .lru).addrs.filterMap (fun i => ((demoThree .lru).heap[i]?).map (·.key)) ∧
        (∀ k, k ∈ (demoThree .lru).cache ↔ k ∈ (demoThree .lru).order) ∧
        (∀ k ptr, (demoThree .lru).cache.lookup k = some ptr →
          ∃ i n, ptr = .node i ∧ i ∈ (demoThree .lru).addrs ∧
            (demoThree .lru).heap[i]? = some n ∧ n.key = k) ∧
        ChainF (demoThree .lru).nextOf (demoThree .lru).prevOf .left (demoThree .lru).addrs ∧
        LRU.Len (demoThree .lru) = (demoThree .lru).nodes.length ∧
        FIFO.Len (demoThree .lru) = (demoThree .lru).nodes.length ∧
        (demoThree .lru).nodes.length = (demoThree .lru).addrs.length) :=
  ⟨demoThree_reachable .lru, by decide, by decide,
    store_and_list_in_step .lru (demoThree .lru) (demoThree_reachable .lru)⟩

/-- C19. The eviction loop is safe and terminates, for both LRU and FIFO: in
every state reachable from a newly constructed cache (any limit), every Set
call returns. Its eviction loop needs no more iterations than there are
bindings before the call: allowed that many or more, it gives the same
result, and every node it unlinks is a data node of the list before the call
(never a sentinel), so no nil link is followed. After the call the list again
runs from the head sentinel through its nodes to the tail sentinel. -/
theorem eviction_loop_safe (p : Policy) (s : Cache) (key : String) (value : List UInt8)
    (hs : Reachable p s) :
    ∃ s' ok, p.Set s key value = some (s', ok) ∧
      (∀ fuel, s.nodes.length ≤ fuel →
        ∃ log, p.SetLog fuel s key value = some (s', ok, log) ∧
          log.length ≤ s.nodes.length ∧ (log.length : Int) ≤ LRU.Len s ∧
          ∀ q ∈ log, ∃ i, q = Ptr.node i ∧ i ∈ s.addrs) ∧
      ChainF s'.nextOf s'.prevOf .left s'.addrs := by
  obtain ⟨l, h⟩ := reachable_inv hs
  obtain ⟨s', ok, l', e1, i1⟩ := set_returns p h key value
  refine ⟨s', ok, e1, ?_, by rw [shape_addrs i1.shape]; exact i1.shape.chain⟩
  intro fuel hf
  rw [nodes_length h.shape] at hf
  have key : ∃ log, p.SetLog fuel s key value = (p.Set s key value).map (fun r => (r.1, r.2, log)) ∧
      log.length ≤ l.length ∧ ∀ q ∈ log, ∃ e ∈ l, q = Ptr.node e.addr := by
    cases p with
    | lru => exact lru_SetLog_spec h key value fuel hf
    | fifo => exact fifo_SetLog_spec h key value fuel hf
  obtain ⟨log, g1, g2, g3⟩ := key
  refine ⟨log, by rw [g1, e1]; rfl, by rw [nodes_length h.shape]; exact g2, ?_, ?_⟩
  · simp only [LRU.Len, inv_len h]; exact_mod_cast g2
  · intro q hq
    obtain ⟨e, he, rfl⟩ := g3 q hq
    exact ⟨e.addr, rfl, by rw [shape_addrs h.shape]; exact List.mem_map_of_mem _ he⟩

theorem eviction_loop_safe_witness :
    Reachable .lru (demoThree .lru) ∧
      Policy.lru.SetLog 3 (demoThree .lru) "d" (bytes "1234567") =
        (Policy.lru.Set (demoThree .lru) "d" (bytes "1234567")).map
          (fun r => (r.1, r.2, [Ptr.node 0, Ptr.node 1])) ∧
      ∃ s' ok, Policy.lru.Set (demoThree .lru) "d" (bytes "1234567") = some (s', ok) ∧
        (∀ fuel, (demoThree .lru).nodes.length ≤ fuel →
          ∃ log, Policy.lru.SetLog fuel (demoThree .lru) "d" (bytes "1234567") =
              some (s', ok, log) ∧
            log.length ≤ (demoThree .lru).nodes.length ∧
            (log.length : Int) ≤ LRU.Len (demoThree .lru) ∧
            ∀ q ∈ log, ∃ i, q = Ptr.node i ∧ i ∈ (demoThree .lru).addrs) ∧
        ChainF s'.nextOf s'.prevOf .left s'.addrs :=
  ⟨demoThree_reachable .lru, rfl,
    eviction_loop_safe .lru (demoThree .lru) "d" (bytes "1234567") (demoThree_reachable .lru)⟩

theorem remove_idempotent_witness :
    Reachable .fifo (demoThree .fifo) ∧ "a" ∈ (demoThree .fifo).cache ∧
      ((∃ s1 v ok, Policy.fifo.Remove (demoThree .fifo) "a" = some (s1, v, ok) ∧
          (ok = true ↔ "a" ∈ (demoThree .fifo).cache) ∧
          Policy.fifo.Remove s1 "a" = some (s1, [], false) ∧
          (Policy.fifo.Remove (demoThree .fifo) "a").bind
            (fun r => (Policy.fifo.Remove r.1 "a").map (·.1)) = some s1) ∧
        (∀ (u : Cache) (k : String), k ∉ u.cache →
          Policy.fifo.Remove u k = some (u, [], false))) :=
  ⟨demoThree_reachable .fifo, by decide,
    remove_idempotent .fifo (demoThree .fifo) "a" (demoThree_reachable .fifo)⟩

end InMemoryCache

/-! ## The conversion of names -/

namespace Dorm

theorem toUpper_ne_underscore (c : Char) (h : c ≠ '_') : c.toUpper ≠ '_' := by
  unfold Char.toUpper
  simp only
  split
  · next hc =>
    obtain ⟨h1, h2⟩ := hc
    generalize c.toNat = n at h1 h2
    interval_cases n <;> decide
  · exact h

theorem toLower_ne_underscore (c : Char) (h : c ≠ '_') : c.toLower ≠ '_' := by
  unfold Char.toLower
  simp only
  split
  · next hc =>
    obtain ⟨h1, h2⟩ := hc
    generalize c.toNat = n at h1 h2
    interval_cases n <;> decide
  · exact h

theorem splitOn_cons_underscore (rest : List Char) :
    ('_' :: rest).splitOn '_' = [] :: rest.splitOn '_' := by
  simp [List.splitOn, List.splitOnP_cons]

theorem splitOn_cons_other {c : Char} (h : c ≠ '_') (rest : List Char) :
    ∃ w tail, rest.splitOn '_' = w :: tail ∧ (c :: rest).splitOn '_' = (c :: w) :: tail := by
  have hne : rest.splitOn '_' ≠ [] := List.splitOnP_ne_nil _ _
  obtain ⟨w, tail, hw⟩ := List.exists_cons_of_ne_nil hne
  refine ⟨w, tail, hw, ?_⟩
  have : (c == '_') = false := by simpa using h
  simp only [List.splitOn] at hw ⊢
  rw [List.splitOnP_cons, this, hw]
  simp

theorem foldl_camelStep (s : List Char) : ∀ (b : List Char),
    (s.foldl camelStep (b, true)).1 = b ++ underscoreToCamelSpec s ∧
    ∃ w tail, s.splitOn '_' = w :: tail ∧
      (s.foldl camelStep (b, false)).1 =
        b ++ (w.map Char.toLower ++ ((tail.filter (fun w => w ≠ [])).map capitalizeSpec).flatten) := by
  induction s with
  | nil =>
    intro b
    refine ⟨by simp [underscoreToCamelSpec, wordsSpec, List.splitOn], [], [], by simp [List.splitOn], by simp⟩
  | cons c rest ih =>
    intro b
    by_cases hc : c = '_'
    · subst hc
      have hsplit := splitOn_cons_underscore rest
      obtain ⟨h1, _⟩ := ih b
      refine ⟨?_, [], rest.splitOn '_', hsplit, ?_⟩
      · simp only [List.foldl_cons, camelStep, if_true]
        rw [h1]
        simp [underscoreToCamelSpec, wordsSpec, hsplit]
      · simp only [List.foldl_cons, camelStep, if_true]
        rw [h1]
        simp [underscoreToCamelSpec, wordsSpec]
    · obtain ⟨w, tail, hw, hsplit⟩ := splitOn_cons_other hc rest
      refine ⟨?_, c :: w, tail, hsplit, ?_⟩
      · obtain ⟨w', tail', hw', h2⟩ := (ih (b ++ [ToUpper c])).2
        rw [hw] at hw'
        obtain ⟨rfl, rfl⟩ := List.cons.inj hw'
        simp only [List.foldl_cons, camelStep, hc, if_false, if_true]
        rw [h2]
        simp [underscoreToCamelSpec, wordsSpec, hsplit, capitalizeSpec, ToUpper]
      · obtain ⟨w', tail', hw', h2⟩ := (ih (b ++ [ToLower c])).2
        rw [hw] at hw'
        obtain ⟨rfl, rfl⟩ := List.cons.inj hw'
        simp only [List.foldl_cons, camelStep, hc, if_false]
        simp only [Bool.false_eq_true, if_false]
        rw [h2]
        simp [ToLower]

theorem foldl_camelStep_clean (s : List Char) : ∀ (b : List Char) (cap : Bool), '_' ∉ b →
    '_' ∉ (s.foldl camelStep (b, cap)).1 := by
  induction s with
  | nil => intro b cap h; exact h
  | cons c rest ih =>
    intro b cap h
    simp only [List.foldl_cons, camelStep]
    by_cases hc : c = '_'
    · simp only [hc, if_true]; exact ih b true h
    · simp only [hc, if_false]
      cases cap with
      | true =>
        simp only [if_true]
        apply ih
        simp only [List.mem_append, List.mem_singleton, not_or]
        exact ⟨h, fun e => toUpper_ne_underscore c hc e.symm⟩
      | false =>
        simp only [Bool.false_eq_true, if_false]
        apply ih
        simp only [List.mem_append, List.mem_singleton, not_or]
        exact ⟨h, fun e => toLower_ne_underscore c hc e.symm⟩

/-- C16. UnderscoreToCamel: for every string of ASCII letters and
underscores, UnderscoreToCamel(s) is the concatenation, over the non-empty
maximal underscore-free words of s in order, of the word with its first
letter upper-cased and its remaining letters lower-cased; and the result
contains no underscore. -/
theorem underscore_to_camel (field : String)
    (_h : ∀ c ∈ field.data, c.isAlpha = true ∨ c = '_') :
    UnderscoreToCamel field = String.mk (underscoreToCamelSpec field.data) ∧
      '_' ∉ (UnderscoreToCamel field).data := by
  refine ⟨?_, ?_⟩
  · simp only [UnderscoreToCamel]
    rw [(foldl_camelStep field.data []).1]
    simp
  · simp only [UnderscoreToCamel]
    exact foldl_camelStep_clean field.data [] true (by simp)

theorem underscore_to_camel_witness :
    (∀ c ∈ "old_cos_files".data, c.isAlpha = true ∨ c = '_') ∧
      UnderscoreToCamel "old_cos_files" = "OldCosFiles" ∧
      UnderscoreToCamel "e_mail" = "EMail" ∧
      wordsSpec "old_cos_files".data = ["old".data, "cos".data, "files".data] ∧
      (UnderscoreToCamel "old_cos_files" =
          String.mk (underscoreToCamelSpec "old_cos_files".data) ∧
        '_' ∉ (UnderscoreToCamel "old_cos_files").data) :=
  ⟨by decide, by decide, by decide, by decide, underscore_to_camel "old_cos_files" (by decide)⟩

theorem upper_not_lower (c : Char) (h : c.isUpper = true) : c.isLower = false := by
  simp only [Char.isUpper, Char.isLower, Bool.and_eq_true, decide_eq_true_eq, ge_iff_le,
    Bool.and_eq_false_imp] at *
  intro h1
  have a1 : c.val.toNat ≤ 90 := UInt32.toNat_le_of_le (m := 90) (by decide) h.2
  have a2 : 97 ≤ c.val.toNat := UInt32.le_toNat_of_le (m := 97) (by decide) h1
  omega

theorem upperAt_lt {s : List Char} {j : Nat} (h : upperAt s j = true) : j < s.length := by
  by_contra hn
  have : s[j]? = none := List.getElem?_eq_none (by omega)
  simp [upperAt, this] at h

theorem lowerAt_lt {s : List Char} {j : Nat} (h : lowerAt s j = true) : j < s.length := by
  by_contra hn
  have : s[j]? = none := List.getElem?_eq_none (by omega)
  simp [lowerAt, this] at h

theorem lowerAt_ge {s : List Char} {j : Nat} (h : s.length ≤ j) : lowerAt s j = false := by
  have : s[j]? = none := List.getElem?_eq_none h
  simp [lowerAt, this]

theorem upperAt_not_lowerAt {s : List Char} {j : Nat} (h : upperAt s j = true) :
    lowerAt s j = false := by
  unfold upperAt at h
  unfold lowerAt
  cases hj : s[j]? with
  | none => rfl
  | some c =>
    rw [hj] at h
    exact upper_not_lower c h

theorem lowerAt_not_upperAt {s : List Char} {j : Nat} (h : lowerAt s j = true) :
    upperAt s j = false := by
  cases hu : upperAt s j with
  | false => rfl
  | true => rw [upperAt_not_lowerAt hu] at h; cases h

theorem letters_at {s : List Char} (hs : ∀ c ∈ s, c.isAlpha = true) {j : Nat}
    (hj : j < s.length) : upperAt s j = true ∨ lowerAt s j = true := by
  have hm : s[j] ∈ s := List.getElem_mem hj
  have ha := hs _ hm
  have hg : s[j]? = some s[j] := List.getElem?_eq_getElem hj
  simp only [upperAt, lowerAt, hg, IsUpper, IsLower]
  simpa [Char.isAlpha] using ha

theorem scanLower_spec (s : List Char) : ∀ fuel j, s.length ≤ fuel + j →
    j ≤ scanLower s fuel j ∧ (j ≤ s.length → scanLower s fuel j ≤ s.length) ∧
    (∀ k, j ≤ k → k < scanLower s fuel j → lowerAt s k = true) ∧
    lowerAt s (scanLower s fuel j) = false := by
  intro fuel
  induction fuel with
  | zero =>
    intro j hj
    simp only [scanLower]
    exact ⟨le_refl _, fun h => h, fun k h1 h2 => by omega, lowerAt_ge (by omega)⟩
  | succ fuel ih =>
    intro j hj
    simp only [scanLower]
    by_cases hl : lowerAt s j = true
    · rw [if_pos hl]
      have hlt := lowerAt_lt hl
      obtain ⟨a, b, c, d⟩ := ih (j + 1) (by omega)
      refine ⟨by omega, fun _ => b (by omega), ?_, d⟩
      intro k h1 h2
      by_cases hk : k = j
      · rw [hk]; exact hl
      · exact c k (by omega) h2
    · rw [if_neg hl]
      refine ⟨le_refl _, fun h => h, fun k h1 h2 => by omega, by simpa using hl⟩

theorem scanUpper_spec (s : List Char) : ∀ fuel j, s.length ≤ fuel + j →
    j ≤ scanUpper s fuel j ∧ (j ≤ s.length → scanUpper s fuel j ≤ s.length) ∧
    (∀ k, j ≤ k → k < scanUpper s fuel j → upperAt s k = true ∧ lowerAt s (k + 1) = false) ∧
    (upperAt s (scanUpper s fuel j) = false ∨ lowerAt s (scanUpper s fuel j + 1) = true) := by
  intro fuel
  induction fuel with
  | zero =>
    intro j hj
    simp only [scanUpper]
    refine ⟨le_refl _, fun h => h, fun k h1 h2 => by omega, Or.inl ?_⟩
    cases hu : upperAt s j with
    | false => rfl
    | true => have := upperAt_lt hu; omega
  | succ fuel ih =>
    intro j hj
    simp only [scanUpper]
    by_cases hu : upperAt s j = true
    · rw [if_pos hu]
      by_cases hl : lowerAt s (j + 1) = true
      · rw [if_pos hl]
        exact ⟨le_refl _, fun h => h, fun k h1 h2 => by omega, Or.inr hl⟩
      · rw [if_neg hl]
        have hlt := upperAt_lt hu
        obtain ⟨a, b, c, d⟩ := ih (j + 1) (by omega)
        refine ⟨by omega, fun _ => b (by omega), ?_, d⟩
        intro k h1 h2
        by_cases hk : k = j
        · rw [hk]; exact ⟨hu, by simpa using hl⟩
        · exact c k (by omega) h2
    · rw [if_neg hu]
      exact ⟨le_refl _, fun h => h, fun k h1 h2 => by omega, Or.inl (by simpa using hu)⟩

/-- The end `j` of the component that the outer loop cuts at `i`. -/
theorem component_end (s : List Char) (hs : ∀ c ∈ s, c.isAlpha = true) (i : Nat)
    (hi : i < s.length) :
    let j := if upperAt s i then
        scanLower s s.length (scanUpper s s.length (i + 1))
      else scanLower s s.length (i + 1)
    i < j ∧ j ≤ s.length ∧ (∀ k, i < k → k < j → isWordStart s k = false) ∧
      (j < s.length → isWordStart s j = true) := by
  intro j
  by_cases hu : upperAt s i = true
  · obtain ⟨a1, a2, a3, a4⟩ := scanUpper_spec s s.length (i + 1) (by omega)
    obtain ⟨b1, b2, b3, b4⟩ :=
      scanLower_spec s s.length (scanUpper s s.length (i + 1)) (by omega)
    have hj : j = scanLower s s.length (scanUpper s s.length (i + 1)) := by
      simp only [j]; rw [if_pos hu]
    rw [hj]
    generalize scanUpper s s.length (i + 1) = u at *
    generalize scanLower s s.length u = e at *
    refine ⟨by omega, b2 (a2 (by omega)), ?_, ?_⟩
    · intro k h1 h2
      by_cases hk : k < u
      · obtain ⟨c1, c2⟩ := a3 k (by omega) hk
        have c3 : lowerAt s (k - 1) = false := by
          by_cases hk1 : k - 1 = i
          · rw [hk1]; exact upperAt_not_lowerAt hu
          · exact upperAt_not_lowerAt (a3 (k - 1) (by omega) (by omega)).1
        simp [isWordStart, c2, c3]
      · have c1 := b3 k (by omega) h2
        simp [isWordStart, lowerAt_not_upperAt c1]
    · intro he
      have hue : upperAt s e = true := by
        rcases letters_at hs he with h | h
        · exact h
        · rw [b4] at h; cases h
      have h0 : 0 < e := by omega
      by_cases heu : u < e
      · have c1 := b3 (e - 1) (by omega) (by omega)
        simp [isWordStart, hue, c1, h0]
      · have : e = u := by omega
        subst this
        rcases a4 with h | h
        · rw [hue] at h; cases h
        · simp [isWordStart, hue, h, h0]
  · obtain ⟨b1, b2, b3, b4⟩ := scanLower_spec s s.length (i + 1) (by omega)
    have hj : j = scanLower s s.length (i + 1) := by
      simp only [j]; rw [if_neg hu]
    rw [hj]
    generalize scanLower s s.length (i + 1) = e at *
    have hli : lowerAt s i = true := by
      rcases letters_at hs hi with h | h
      · exact absurd h hu
      · exact h
    refine ⟨by omega, b2 (by omega), ?_, ?_⟩
    · intro k h1 h2
      have c1 := b3 k (by omega) h2
      simp [isWordStart, lowerAt_not_upperAt c1]
    · intro he
      have hue : upperAt s e = true := by
        rcases letters_at hs he with h | h
        · exact h
        · rw [b4] at h; cases h
      have h0 : 0 < e := by omega
      have c1 : lowerAt s (e - 1) = true := by
        by_cases hk1 : e - 1 = i
        · rw [hk1]; exact hli
        · exact b3 (e - 1) (by omega) (by omega)
      simp [isWordStart, hue, c1, h0]

/-- Over a stretch with no word start the claim's result is the lower-cased
stretch. -/
theorem spec_stretch (s : List Char) : ∀ (m a : Nat), a + m ≤ s.length →
    (∀ k, a ≤ k → k < a + m → isWordStart s k = false) →
    (List.range' a m).flatMap (specAt s) = ((s.drop a).take m).map Char.toLower := by
  intro m
  induction m with
  | zero => intro a _ _; simp
  | succ m ih =>
    intro a ha hk
    have hlt : a < s.length := by omega
    have hd : s.drop a = s[a] :: s.drop (a + 1) := List.drop_eq_getElem_cons hlt
    have hg : s[a]? = some s[a] := List.getElem?_eq_getElem hlt
    rw [List.range'_succ, List.flatMap_cons, ih (a + 1) (by omega)
      (fun k h1 h2 => hk k (by omega) (by omega)), hd, List.take_succ_cons, List.map_cons]
    simp [specAt, hk a (le_refl _) (by omega), hg]

theorem writeComponents_spec (s : List Char) (hs : ∀ c ∈ s, c.isAlpha = true) :
    ∀ (fuel i idx : Nat), s.length ≤ fuel + i → i ≤ s.length →
      (i < s.length → (0 < idx ↔ isWordStart s i = true)) →
      writeComponents idx (components s fuel i) =
        (List.range' i (s.length - i)).flatMap (specAt s) := by
  intro fuel
  induction fuel with
  | zero =>
    intro i idx h1 h2 _
    have : s.length - i = 0 := by omega
    simp [components, writeComponents, this]
  | succ fuel ih =>
    intro i idx h1 h2 h3
    simp only [components]
    by_cases hi : i < s.length
    · simp only [hi, if_true]
      obtain ⟨c1, c2, c3, c4⟩ := component_end s hs i hi
      generalize (if upperAt s i = true then
        scanLower s s.length (scanUpper s s.length (i + 1))
        else scanLower s s.length (i + 1)) = j at *
      simp only [writeComponents]
      rw [ih j (idx + 1) (by omega) c2 (fun hj => ⟨fun _ => c4 hj, fun _ => by omega⟩)]
      obtain ⟨d, hd1⟩ : ∃ d, j - i = d + 1 := ⟨j - i - 1, by omega⟩
      have hd2 : j - i - 1 = d := by omega
      have hr : List.range' i (s.length - i) =
          i :: (List.range' (i + 1) d ++ List.range' j (s.length - j)) := by
        have e1 := List.range'_append i (d + 1) (s.length - j) 1
        rw [one_mul, show i + (d + 1) = j by omega,
          show s.length - j + (d + 1) = s.length - i by omega] at e1
        rw [← e1, List.range'_succ]
        rfl
      have hT : ToLower = Char.toLower := rfl
      rw [hr, List.flatMap_cons, List.flatMap_append,
        spec_stretch s d (i + 1) (by omega) (fun k k1 k2 => c3 k (by omega) (by omega))]
      have hd : s.drop i = s[i] :: s.drop (i + 1) := List.drop_eq_getElem_cons hi
      have hg : s[i]? = some s[i] := List.getElem?_eq_getElem hi
      rw [hd1, hd, List.take_succ_cons]
      have hw := h3 hi
      by_cases hidx : 0 < idx
      · have hws := hw.1 hidx
        simp [specAt, hws, hidx, hg, stringsToLower, hT]
      · have hws : isWordStart s i = false := by
          cases h : isWordStart s i with
          | false => rfl
          | true => exact absurd (hw.2 h) hidx
        simp [specAt, hws, hidx, hg, stringsToLower, hT]
    · have : s.length - i = 0 := by omega
      simp [hi, writeComponents, this]

/-- C15. CamelToUnderscore word boundaries: for every string s of ASCII
letters, CamelToUnderscore(s) is the lower-cased s with one underscore
inserted before exactly those positions i > 0 where s[i] is upper case and
either s[i-1] is lower case or s[i+1] exists and is lower case. -/
theorem camel_to_underscore_word_boundaries (field : String)
    (h : ∀ c ∈ field.data, c.isAlpha = true) :
    CamelToUnderscore field = String.mk (camelToUnderscoreSpec field.data) := by
  simp only [CamelToUnderscore, camelToUnderscoreSpec]
  rw [writeComponents_spec field.data h field.data.length 0 0 (by omega) (by omega)
    (fun _ => by simp [isWordStart])]
  simp [List.range_eq_range']

theorem camel_to_underscore_word_boundaries_witness :
    (∀ c ∈ "COSFilesX".data, c.isAlpha = true) ∧
      CamelToUnderscore "COSFilesX" = "cos_files_x" ∧
      CamelToUnderscore "EMail" = "e_mail" ∧
      CamelToUnderscore "camelCase" = "camel_case" ∧
      (List.range 9).filter (isWordStart "COSFilesX".data) = [3, 8] ∧
      CamelToUnderscore "COSFilesX" = String.mk (camelToUnderscoreSpec "COSFilesX".data) :=
  ⟨by decide, by decide, by decide, by decide, by decide,
    camel_to_underscore_word_boundaries "COSFilesX" (by decide)⟩

/-! ### The statement of Create and the round trip of names -/

/-- C23. SQL text built by Create, evaluated where the claim fails: for the
model type User of the tests (table user, fields FirstName and LastName)
Create passes the text "INSERT INTRO user (Firstname, Lastname) VALUES (?, ?"
to Exec, where the claim describes
"INSERT INTO user (first_name, last_name) VALUES (?, ?)" (the columns that
ColumnNames gives); and for no model type at all is the text of Create the
statement the claim describes. -/
theorem create_statement_text :
    createQueryStatement userType = "INSERT INTRO user (Firstname, Lastname) VALUES (?, ?" ∧
      createStatementSpec userType = "INSERT INTO user (first_name, last_name) VALUES (?, ?)" ∧
      ColumnNames userType = ["first_name", "last_name"] ∧
      ∀ modelType : StructType, createQueryStatement modelType ≠ createStatementSpec modelType := by
  refine ⟨by decide, by decide, by decide, ?_⟩
  intro modelType h
  have h1 := congrArg (fun s : String => s.data[10]?) h
  simp [createQueryStatement, createStatementSpec, insertStatementSpec, String.data_append] at h1

theorem lower_char_cases (P : Char → Prop)
    (hP : ∀ n, 97 ≤ n → n ≤ 122 → P (Char.ofNat n)) (c : Char) (h : c.isLower = true) : P c := by
  simp only [Char.isLower, Bool.and_eq_true, decide_eq_true_eq, ge_iff_le] at h
  have a1 : 97 ≤ c.val.toNat := UInt32.le_toNat_of_le (m := 97) (by decide) h.1
  have a2 : c.val.toNat ≤ 122 := UInt32.toNat_le_of_le (m := 122) (by decide) h.2
  have h3 : Char.ofNat c.toNat = c := Char.ofNat_toNat c
  rw [← h3]
  exact hP _ a1 a2

theorem lower_facts (c : Char) (h : c.isLower = true) :
    c.toLower = c ∧ c.toUpper.toLower = c ∧ c.toUpper.isUpper = true ∧ c.isUpper = false ∧
      c.isAlpha = true ∧ c.toUpper.isAlpha = true ∧ c ≠ '_' ∧ c.toUpper.isLower = false := by
  refine lower_char_cases (fun c => c.toLower = c ∧ c.toUpper.toLower = c ∧
    c.toUpper.isUpper = true ∧ c.isUpper = false ∧ c.isAlpha = true ∧
    c.toUpper.isAlpha = true ∧ c ≠ '_' ∧ c.toUpper.isLower = false) ?_ c h
  intro n h1 h2
  interval_cases n <;> decide

theorem camelToUnderscore_eq_spec (s : List Char) (h : ∀ c ∈ s, c.isAlpha = true) :
    CamelToUnderscore (String.mk s) = String.mk (camelToUnderscoreSpec s) := by
  simp only [CamelToUnderscore, camelToUnderscoreSpec]
  rw [writeComponents_spec s h s.length 0 0 (by omega) (by omega)
    (fun _ => by simp [isWordStart])]
  simp [List.range_eq_range']

theorem lowerAt_eq (l : List Char) (j : Nat) : lowerAt l j = lowerOpt l[j]? := by
  unfold lowerAt lowerOpt
  cases l[j]? <;> rfl

theorem getElem_at_length_some (pre : List Char) (c : Char) (rest : List Char) :
    (pre ++ c :: rest)[pre.length]? = some c := by
  rw [List.getElem?_append_right (le_refl _)]
  simp

theorem isWordStart_at (pre : List Char) (c : Char) (rest : List Char) :
    isWordStart (pre ++ c :: rest) pre.length =
      (pre.getLast?.isSome && c.isUpper && (lowerOpt pre.getLast? || lowerOpt rest.head?)) := by
  have h1 := getElem_at_length_some pre c rest
  have h2 : (pre ++ c :: rest)[pre.length + 1]? = rest.head? := by
    rw [List.getElem?_append_right (by omega)]
    simp [List.head?_eq_getElem?]
  unfold isWordStart
  rw [lowerAt_eq, lowerAt_eq, h2]
  unfold upperAt
  rw [h1]
  rcases List.eq_nil_or_concat pre with rfl | ⟨init, b, hpre⟩
  · simp
  · rw [List.concat_eq_append] at hpre
    subst hpre
    have h3 : (init ++ [b] ++ c :: rest)[(init ++ [b]).length - 1]? = some b := by
      have := getElem_at_length_some init b (c :: rest)
      simpa using this
    rw [h3]
    simp [IsUpper]

theorem spec_render (s : List Char) : ∀ pre : List Char,
    (List.range' pre.length s.length).flatMap (specAt (pre ++ s)) =
      renderFrom pre.getLast? s := by
  induction s with
  | nil => intro pre; simp [renderFrom]
  | cons c rest ih =>
    intro pre
    have h1 := getElem_at_length_some pre c rest
    have e : pre ++ c :: rest = (pre ++ [c]) ++ rest := by simp
    have ih2 := ih (pre ++ [c])
    rw [← e] at ih2
    have hl : (pre ++ [c]).getLast? = some c := by simp
    rw [hl, List.length_append, List.length_singleton] at ih2
    rw [List.length_cons, List.range'_succ, List.flatMap_cons, ih2]
    simp only [specAt, isWordStart_at, h1, renderFrom, Option.toList, List.map_cons,
      List.map_nil]
    simp

theorem camelToUnderscoreSpec_render (s : List Char) :
    camelToUnderscoreSpec s = renderFrom none s := by
  have h := spec_render s []
  simpa [camelToUnderscoreSpec, List.range_eq_range'] using h

theorem render_lower_run (r : List Char) : ∀ (p : Char) (rest : List Char),
    (∀ c ∈ r, c.isLower = true) →
    renderFrom (some p) (r ++ rest) =
      r ++ renderFrom (some ((p :: r).getLast (List.cons_ne_nil _ _))) rest := by
  induction r with
  | nil => intro p rest _; rfl
  | cons c r ih =>
    intro p rest h
    obtain ⟨f1, _, _, f4, _⟩ := lower_facts c (h c (List.mem_cons_self _ _))
    have ih2 := ih c rest (fun x hx => h x (List.mem_cons_of_mem _ hx))
    simp only [List.cons_append, renderFrom, f4, f1, List.append_eq]
    rw [ih2]
    simp [List.getLast_cons]

theorem map_toLower_lower (r : List Char) (h : ∀ x ∈ r, x.isLower = true) :
    r.map Char.toLower = r := by
  induction r with
  | nil => rfl
  | cons c r ih =>
    rw [List.map_cons, (lower_facts c (h c (List.mem_cons_self _ _))).1,
      ih (fun x hx => h x (List.mem_cons_of_mem _ hx))]

theorem intercalate_cons_cons (w w2 : List Char) (ws : List (List Char)) :
    ['_'].intercalate (w :: w2 :: ws) = w ++ '_' :: ['_'].intercalate (w2 :: ws) := by
  simp [List.intercalate]

theorem render_words : ∀ (ws : List (List Char)) (prev : Option Char),
    ws ≠ [] → (∀ w ∈ ws, w ≠ [] ∧ ∀ c ∈ w, c.isLower = true) →
    ws.Chain' (fun a b => ¬ (a.length = 1 ∧ b.length = 1)) →
    (∀ p w, prev = some p → ws.head? = some w → p.isLower = true ∨ 2 ≤ w.length) →
    renderFrom prev ((ws.map capitalizeSpec).flatten) =
      (if prev.isSome then ['_'] else []) ++ ['_'].intercalate ws := by
  intro ws
  induction ws with
  | nil => intro prev h; exact absurd rfl h
  | cons w ws ih =>
    intro prev _ hw hadj hprev
    obtain ⟨hwne, hwl⟩ := hw w (List.mem_cons_self _ _)
    cases w with
    | nil => exact absurd rfl hwne
    | cons c r =>
      obtain ⟨f1, f2, f3, f4, f5, f6, f7, f8⟩ := lower_facts c (hwl c (List.mem_cons_self _ _))
      have hr : ∀ x ∈ r, x.isLower = true := fun x hx => hwl x (List.mem_cons_of_mem _ hx)
      have hcap : capitalizeSpec (c :: r) = c.toUpper :: r := by
        simp only [capitalizeSpec, map_toLower_lower r hr]
      have hund : (prev.isSome && c.toUpper.isUpper &&
          (lowerOpt prev || lowerOpt (r ++ (ws.map capitalizeSpec).flatten).head?)) =
          prev.isSome := by
        cases prev with
        | none => rfl
        | some p =>
          rcases hprev p (c :: r) rfl rfl with h | h
          · simp [lowerOpt, h, f3]
          · cases r with
            | nil => simp at h
            | cons c2 r2 =>
              simp [lowerOpt, hr c2 (List.mem_cons_self _ _), f3]
      rw [List.map_cons, List.flatten_cons, hcap, List.cons_append]
      simp only [renderFrom]
      rw [hund, f2, render_lower_run r c.toUpper _ hr]
      cases ws with
      | nil => simp [renderFrom, List.intercalate]
      | cons w2 ws2 =>
        have hw2 := hw w2 (List.mem_cons_of_mem _ (List.mem_cons_self _ _))
        rw [List.chain'_cons] at hadj
        rw [ih _ (List.cons_ne_nil _ _) (fun x hx => hw x (List.mem_cons_of_mem _ hx)) hadj.2,
          intercalate_cons_cons]
        · simp
        · intro p w3 hp hw3
          simp only [List.head?_cons, Option.some.injEq] at hw3 hp
          subst hw3
          subst hp
          cases r with
          | nil =>
            right
            have h1 := hadj.1
            have h2 : w2.length ≠ 0 := fun e => hw2.1 (List.length_eq_zero.1 e)
            simp only [List.length_singleton, true_and] at h1
            omega
          | cons c2 r2 =>
            left
            rw [List.getLast_cons (List.cons_ne_nil _ _)]
            exact hr _ (List.getLast_mem _)

theorem camel_of_joined (words : List (List Char)) (hne : words ≠ [])
    (hw : ∀ w ∈ words, w ≠ [] ∧ ∀ c ∈ w, c.isLower = true) :
    UnderscoreToCamel (joinWords words) = String.mk ((words.map capitalizeSpec).flatten) := by
  have hsplit : (['_'].intercalate words).splitOn '_' = words :=
    List.splitOn_intercalate words '_' (fun w hwm hm => by
      have := (hw w hwm).2 '_' hm
      revert this
      decide) hne
  have hfilter : wordsSpec (['_'].intercalate words) = words := by
    unfold wordsSpec
    rw [hsplit, List.filter_eq_self]
    intro w hwm
    simpa using (hw w hwm).1
  simp only [UnderscoreToCamel, joinWords]
  rw [(foldl_camelStep (['_'].intercalate words) []).1, List.nil_append, underscoreToCamelSpec,
    hfilter]

theorem capitalised_letters (words : List (List Char))
    (hw : ∀ w ∈ words, w ≠ [] ∧ ∀ c ∈ w, c.isLower = true) :
    ∀ c ∈ (words.map capitalizeSpec).flatten, c.isAlpha = true := by
  intro c hc
  rw [List.mem_flatten] at hc
  obtain ⟨l, hl, hcl⟩ := hc
  obtain ⟨w, hwm, rfl⟩ := List.mem_map.1 hl
  obtain ⟨hwne, hwl⟩ := hw w hwm
  cases w with
  | nil => exact absurd rfl hwne
  | cons a r =>
    have hr : ∀ x ∈ r, x.isLower = true := fun x hx => hwl x (List.mem_cons_of_mem _ hx)
    simp only [capitalizeSpec, map_toLower_lower r hr, List.mem_cons] at hcl
    rcases hcl with rfl | h
    · exact (lower_facts a (hwl a (List.mem_cons_self _ _))).2.2.2.2.2.1
    · exact (lower_facts c (hr c h)).2.2.2.2.1

/-- C22. Name conversion round trip: for every non-empty list of non-empty
words of lower-case ASCII letters in which no two adjacent words both have
length 1, with s the words joined by single underscores,
CamelToUnderscore(UnderscoreToCamel(s)) = s. -/
theorem name_round_trip (words : List (List Char)) (hne : words ≠ [])
    (hw : ∀ w ∈ words, w ≠ [] ∧ ∀ c ∈ w, c.isLower = true)
    (hadj : words.Chain' (fun a b => ¬ (a.length = 1 ∧ b.length = 1))) :
    CamelToUnderscore (UnderscoreToCamel (joinWords words)) = joinWords words := by
  rw [camel_of_joined words hne hw,
    camelToUnderscore_eq_spec _ (capitalised_letters words hw), camelToUnderscoreSpec_render,
    render_words words none hne hw hadj (fun p w hp => by cases hp)]
  rfl

theorem name_round_trip_witness :
    joinWords ["cos".data, "files".data, "x".data] = "cos_files_x" ∧
      UnderscoreToCamel "cos_files_x" = "CosFilesX" ∧
      (["camel_case", "e_mail", "cos_files", "old_cos_files", "cos_files_x"].map
          (fun s => CamelToUnderscore (UnderscoreToCamel s)) =
        ["camel_case", "e_mail", "cos_files", "old_cos_files", "cos_files_x"]) ∧
      CamelToUnderscore (UnderscoreToCamel "a_b") = "ab" ∧
      CamelToUnderscore (UnderscoreToCamel (joinWords ["cos".data, "files".data, "x".data])) =
        joinWords ["cos".data, "files".data, "x".data] :=
  ⟨by decide, by decide, by decide, by decide,
    name_round_trip ["cos".data, "files".data, "x".data] (by decide) (by decide) (by simp)⟩

end Dorm

/-! ## The choice of the dynamic route -/

namespace HttpRouter

theorem precedenceLoop_spec : ∀ (cs bs : List (List Char)),
    (precedenceLoop cs bs = some true → leadingStatic bs ≤ leadingStatic cs) ∧
    (precedenceLoop cs bs = some false → leadingStatic cs ≤ leadingStatic bs) ∧
    (precedenceLoop cs bs = none → cs.length = bs.length → leadingStatic cs = leadingStatic bs)
  | [], [] => by simp [precedenceLoop, leadingStatic]
  | [], _ :: _ => by simp [precedenceLoop]
  | _ :: _, [] => by simp [precedenceLoop]
  | c :: cs, b :: bs => by
    obtain ⟨i1, i2, i3⟩ := precedenceLoop_spec cs bs
    simp only [leadingStatic] at i1 i2 i3
    cases hc : isCapture c <;> cases hb : isCapture b <;>
      (simp [precedenceLoop, leadingStatic, hc, hb, List.takeWhile_cons]; try exact ⟨i1, i2, i3⟩)

theorem higher_true {cur best : String} (h : IsHigherPrecedence cur best = true)
    (hl : (stringsSplit cur).length = (stringsSplit best).length) :
    leadingStaticOf best ≤ leadingStaticOf cur := by
  obtain ⟨i1, i2, i3⟩ := precedenceLoop_spec (stringsSplit cur) (stringsSplit best)
  unfold IsHigherPrecedence at h
  simp only at h
  cases hp : precedenceLoop (stringsSplit cur) (stringsSplit best) with
  | none => rw [hp] at h; simp [hl] at h
  | some r =>
    rw [hp] at h
    simp only at h
    subst h
    exact i1 hp

theorem higher_false {cur best : String} (h : IsHigherPrecedence cur best = false)
    (hl : (stringsSplit cur).length = (stringsSplit best).length) :
    leadingStaticOf cur ≤ leadingStaticOf best := by
  obtain ⟨i1, i2, i3⟩ := precedenceLoop_spec (stringsSplit cur) (stringsSplit best)
  unfold IsHigherPrecedence at h
  simp only at h
  cases hp : precedenceLoop (stringsSplit cur) (stringsSplit best) with
  | none => exact le_of_eq (i3 hp hl)
  | some r =>
    rw [hp] at h
    simp only at h
    subst h
    exact i2 hp

theorem foldl_bestStep (rs : List RoutesField) : ∀ (b : RoutesField),
    (∀ q ∈ rs, (stringsSplit q.Pattern).length = (stringsSplit b.Pattern).length) →
    ∃ best, rs.foldl bestStep (some b) = some best ∧ (best = b ∨ best ∈ rs) ∧
      leadingStaticOf b.Pattern ≤ leadingStaticOf best.Pattern ∧
      ∀ q ∈ rs, leadingStaticOf q.Pattern ≤ leadingStaticOf best.Pattern := by
  induction rs with
  | nil => intro b _; exact ⟨b, rfl, Or.inl rfl, le_refl _, by simp⟩
  | cons r rs ih =>
    intro b hl
    have hr := hl r (List.mem_cons_self _ _)
    simp only [List.foldl_cons, bestStep]
    by_cases hh : IsHigherPrecedence r.Pattern b.Pattern = true
    · rw [if_pos hh]
      obtain ⟨best, e, m, p1, p2⟩ := ih r (fun q hq => by
        rw [hl q (List.mem_cons_of_mem _ hq), hr])
      have hrb := higher_true hh hr
      refine ⟨best, e, ?_, le_trans hrb p1, ?_⟩
      · rcases m with m | m
        · exact Or.inr (m ▸ List.mem_cons_self _ _)
        · exact Or.inr (List.mem_cons_of_mem _ m)
      · intro q hq
        rcases List.mem_cons.1 hq with rfl | hq
        · exact p1
        · exact p2 q hq
    · rw [if_neg hh]
      obtain ⟨best, e, m, p1, p2⟩ := ih b (fun q hq => hl q (List.mem_cons_of_mem _ hq))
      have hrb := higher_false (by simpa using hh) hr
      refine ⟨best, e, ?_, p1, ?_⟩
      · rcases m with m | m
        · exact Or.inl m
        · exact Or.inr (List.mem_cons_of_mem _ m)
      · intro q hq
        rcases List.mem_cons.1 hq with rfl | hq
        · exact le_trans hrb p1
        · exact p2 q hq

/-- C20. Dynamic route choice in ServeHTTP: for every non-empty list of
routes whose patterns all have the same number of '/'-separated components,
the fold that replaces the best route when IsHigherPrecedence(route, best)
holds finds a route of the list, and its pattern has the largest number of
non-capturing components to the left of its first capture among the patterns
of the list. -/
theorem dynamic_route_choice (dynamicRoutes : List RoutesField) (hne : dynamicRoutes ≠ [])
    (hlen : ∀ r ∈ dynamicRoutes, ∀ q ∈ dynamicRoutes,
      (stringsSplit r.Pattern).length = (stringsSplit q.Pattern).length) :
    ∃ best, bestRoute dynamicRoutes = some best ∧ best ∈ dynamicRoutes ∧
      ∀ q ∈ dynamicRoutes, leadingStaticOf q.Pattern ≤ leadingStaticOf best.Pattern := by
  cases dynamicRoutes with
  | nil => exact absurd rfl hne
  | cons b rs =>
    obtain ⟨best, e, m, p1, p2⟩ := foldl_bestStep rs b (fun q hq =>
      hlen q (List.mem_cons_of_mem _ hq) b (List.mem_cons_self _ _))
    refine ⟨best, e, ?_, ?_⟩
    · rcases m with m | m
      · exact m ▸ List.mem_cons_self _ _
      · exact List.mem_cons_of_mem _ m
    · intro q hq
      rcases List.mem_cons.1 hq with rfl | hq
      · exact p1
      · exact p2 q hq

theorem dynamic_route_choice_witness :
    demoRoutes ≠ [] ∧
      (∀ r ∈ demoRoutes, ∀ q ∈ demoRoutes,
        (stringsSplit r.Pattern).length = (stringsSplit q.Pattern).length) ∧
      bestRoute demoRoutes = some ⟨"GET", "users/:user/recent", 2⟩ ∧
      demoRoutes.map (fun r => leadingStaticOf r.Pattern) = [0, 1, 1] ∧
      ∃ best, bestRoute demoRoutes = some best ∧ best ∈ demoRoutes ∧
        ∀ q ∈ demoRoutes, leadingStaticOf q.Pattern ≤ leadingStaticOf best.Pattern :=
  ⟨by decide, by decide, by decide, by decide,
    dynamic_route_choice demoRoutes (by decide) (by decide)⟩

/-! ### Routes stay unique -/

theorem canonComponent_eq_iff (a b : List Char) :
    canonComponent a = canonComponent b ↔ (isCapture a = true ∧ isCapture b = true) ∨ a = b := by
  unfold canonComponent
  cases ha : isCapture a <;> cases hb : isCapture b <;> simp
  · constructor
    · intro h
      rw [h] at ha
      simp [isCapture] at ha
    · intro h
      rw [h, hb] at ha
      cases ha
  · constructor
    · intro h
      rw [← h] at hb
      simp [isCapture] at hb
    · intro h
      rw [h, hb] at ha
      cases ha

theorem existingPathLoop_iff : ∀ (n e : List (List Char)),
    (n.length = e.length ∧ existingPathLoop n e = true) ↔
      n.map canonComponent = e.map canonComponent
  | [], [] => by simp [existingPathLoop]
  | [], _ :: _ => by simp
  | _ :: _, [] => by simp
  | a :: n, b :: e => by
    have ih := existingPathLoop_iff n e
    have hc := canonComponent_eq_iff a b
    simp only [List.map_cons, List.cons.injEq, List.length_cons, add_left_inj, ← ih, hc,
      existingPathLoop]
    cases ha : isCapture a <;> cases hb : isCapture b <;> by_cases hab : a = b <;>
      simp [ha, hb, hab]

theorem sameUpToCaptureNames_iff (p q : String) :
    sameUpToCaptureNames p q = true ↔
      (stringsSplit p).map canonComponent = (stringsSplit q).map canonComponent := by
  unfold sameUpToCaptureNames
  generalize stringsSplit p = n
  generalize stringsSplit q = e
  induction n generalizing e with
  | nil => cases e <;> simp
  | cons a n ih =>
    cases e with
    | nil => simp
    | cons b e =>
      have hc := canonComponent_eq_iff a b
      have ih2 := ih e
      simp only [Bool.and_eq_true, decide_eq_true_eq] at ih2
      simp only [List.map_cons, List.cons.injEq, ← ih2, hc, List.length_cons, add_left_inj,
        List.zipWith_cons_cons, List.all_cons, Bool.and_eq_true, decide_eq_true_eq,
        Bool.or_eq_true, id]
      tauto

theorem IsExistingPath_iff (p q : String) :
    IsExistingPath p q = true ↔
      (stringsSplit p).map canonComponent = (stringsSplit q).map canonComponent := by
  rw [← existingPathLoop_iff]
  unfold IsExistingPath
  simp only
  by_cases hl : (stringsSplit p).length = (stringsSplit q).length
  · by_cases he : p = "" ∧ q = ""
    · obtain ⟨rfl, rfl⟩ := he
      simp [stringsSplit, existingPathLoop, List.splitOn, isCapture]
    · simp [hl, he]
  · simp [hl]

theorem routeKey_eq_iff (route : RoutesField) (method pattern : String) :
    (route.Method = method ∧ route.Pattern = pattern) ∨
        (route.Method = method ∧ IsExistingPath pattern route.Pattern = true) ↔
      routeKey route = (method, (stringsSplit pattern).map canonComponent) := by
  simp only [routeKey, Prod.mk.injEq, IsExistingPath_iff]
  constructor
  · rintro (⟨h1, h2⟩ | ⟨h1, h2⟩)
    · exact ⟨h1, by rw [h2]⟩
    · exact ⟨h1, h2.symm⟩
  · rintro ⟨h1, h2⟩
    exact Or.inr ⟨h1, h2.symm⟩

theorem addRouteLoop_none (method pattern : String) (handler : Nat) :
    ∀ routes : List RoutesField,
      (∀ r ∈ routes, routeKey r ≠ (method, (stringsSplit pattern).map canonComponent)) →
      addRouteLoop method pattern handler routes = none := by
  intro routes
  induction routes with
  | nil => intro _; rfl
  | cons route rest ih =>
    intro h
    have h0 := mt (routeKey_eq_iff route method pattern).1 (h route (List.mem_cons_self _ _))
    rw [not_or] at h0
    simp only [addRouteLoop]
    rw [if_neg h0.1, if_neg h0.2, ih (fun r hr => h r (List.mem_cons_of_mem _ hr))]
    rfl

theorem addRouteLoop_some (method pattern : String) (handler : Nat) :
    ∀ (routes : List RoutesField) (i : Nat) (route : RoutesField),
      (routes.map routeKey).Nodup → routes[i]? = some route →
      routeKey route = (method, (stringsSplit pattern).map canonComponent) →
      addRouteLoop method pattern handler routes =
        some (routes.set i ⟨method, pattern, handler⟩) := by
  intro routes
  induction routes with
  | nil => intro i route _ hi; simp at hi
  | cons r rest ih =>
    intro i route hnd hi hk
    rw [List.map_cons, List.nodup_cons] at hnd
    simp only [addRouteLoop]
    cases i with
    | zero =>
      simp only [List.getElem?_cons_zero, Option.some.injEq] at hi
      subst hi
      rcases (routeKey_eq_iff r method pattern).2 hk with ⟨h1, h2⟩ | ⟨h1, h2⟩
      · rw [if_pos ⟨h1, h2⟩, List.set_cons_zero, ← h1, ← h2]
      · by_cases h3 : r.Method = method ∧ r.Pattern = pattern
        · rw [if_pos h3, List.set_cons_zero, ← h3.1, ← h3.2]
        · rw [if_neg h3, if_pos ⟨h1, h2⟩, List.set_cons_zero, ← h1]
    | succ i =>
      simp only [List.getElem?_cons_succ] at hi
      have hmem : routeKey route ∈ rest.map routeKey :=
        List.mem_map_of_mem _ (List.getElem?_mem hi)
      have hne0 : routeKey r ≠ (method, (stringsSplit pattern).map canonComponent) := by
        intro e
        rw [← hk] at e
        exact hnd.1 (e ▸ hmem)
      have hne := mt (routeKey_eq_iff r method pattern).1 hne0
      rw [not_or] at hne
      rw [if_neg hne.1, if_neg hne.2, ih i route hnd.2 hi hk]
      rfl

theorem AddRoute_keys (router : HTTPRouter) (stringsToUpper : String → String)
    (method pattern : String) (handler : Nat)
    (h : (router.Routes.map routeKey).Nodup) :
    ((router.AddRoute stringsToUpper method pattern handler).Routes.map routeKey).Nodup := by
  by_cases hex : ∃ r ∈ router.Routes,
      routeKey r = (stringsToUpper method, (stringsSplit (normalisePattern pattern)).map
        canonComponent)
  · obtain ⟨r, hr, hk⟩ := hex
    obtain ⟨i, hi, hri⟩ := List.getElem_of_mem hr
    have hi2 : router.Routes[i]? = some r := by rw [List.getElem?_eq_getElem hi, hri]
    have hs := addRouteLoop_some (stringsToUpper method) (normalisePattern pattern) handler
      router.Routes i r h hi2 hk
    simp only [HTTPRouter.AddRoute, hs]
    have hkeys : (router.Routes.set i
        ⟨stringsToUpper method, normalisePattern pattern, handler⟩).map routeKey =
        router.Routes.map routeKey := by
      rw [List.map_set]
      apply List.ext_getElem?
      intro j
      by_cases hj : i = j
      · subst hj
        rw [List.getElem?_set_self (by rw [List.length_map]; exact hi), List.getElem?_map, hi2,
          Option.map_some', hk]
        rfl
      · rw [List.getElem?_set_ne hj]
    rw [hkeys]
    exact h
  · have hn : ∀ r ∈ router.Routes, routeKey r ≠
        (stringsToUpper method, (stringsSplit (normalisePattern pattern)).map canonComponent) :=
      fun r hr e => hex ⟨r, hr, e⟩
    have hs := addRouteLoop_none (stringsToUpper method) (normalisePattern pattern) handler
      router.Routes hn
    simp only [HTTPRouter.AddRoute, hs, List.map_append, List.map_cons, List.map_nil]
    rw [List.nodup_append]
    refine ⟨h, List.nodup_singleton _, ?_⟩
    intro k hk1 hk2
    rw [List.mem_singleton] at hk2
    obtain ⟨r, hr, rfl⟩ := List.mem_map.1 hk1
    exact hn r hr hk2

theorem routerAfter_keys (stringsToUpper : String → String) (calls : List AddRouteCall) :
    ((routerAfter stringsToUpper calls).Routes.map routeKey).Nodup := by
  unfold routerAfter
  suffices h : ∀ router : HTTPRouter, (router.Routes.map routeKey).Nodup →
      ((calls.foldl (fun router call =>
          router.AddRoute stringsToUpper call.method call.pattern call.handler)
        router).Routes.map routeKey).Nodup from h NewRouter (by simp [NewRouter])
  induction calls with
  | nil => intro router h; exact h
  | cons call rest ih =>
    intro router h
    exact ih _ (AddRoute_keys router stringsToUpper call.method call.pattern call.handler h)

/-- C21. AddRoute keeps routes unique up to capture names: whatever function
strings.ToUpper is (so also for methods outside ASCII), in the router reached
from NewRouter() by any AddRoute calls, no two entries of Routes at different
places have the same Method and patterns that are equal, or differ only in
the names of their captures, or are matched by IsExistingPath (in either
order); and an AddRoute whose upper-cased method and normalised pattern match
the entry at place i in that sense makes that entry the new method, pattern
and handler, leaves len(Routes) unchanged and leaves every other entry
unchanged. -/
theorem add_route_unique (stringsToUpper : String → String) (calls : List AddRouteCall) :
    (∀ (i j : Nat) (r q : RoutesField), i ≠ j →
      (routerAfter stringsToUpper calls).Routes[i]? = some r →
      (routerAfter stringsToUpper calls).Routes[j]? = some q →
      ¬ (r.Method = q.Method ∧
        (r.Pattern = q.Pattern ∨ sameUpToCaptureNames r.Pattern q.Pattern = true ∨
          IsExistingPath r.Pattern q.Pattern = true ∨
          IsExistingPath q.Pattern r.Pattern = true))) ∧
    (∀ (method pattern : String) (handler i : Nat) (r : RoutesField),
      (routerAfter stringsToUpper calls).Routes[i]? = some r →
      r.Method = stringsToUpper method →
      (r.Pattern = normalisePattern pattern ∨
        sameUpToCaptureNames (normalisePattern pattern) r.Pattern = true ∨
        IsExistingPath (normalisePattern pattern) r.Pattern = true) →
      ((routerAfter stringsToUpper calls).AddRoute stringsToUpper method pattern handler).Routes =
          (routerAfter stringsToUpper calls).Routes.set i
            ⟨stringsToUpper method, normalisePattern pattern, handler⟩ ∧
        ((routerAfter stringsToUpper calls).AddRoute stringsToUpper method pattern handler).Routes[i]? =
          some ⟨stringsToUpper method, normalisePattern pattern, handler⟩ ∧
        ((routerAfter stringsToUpper calls).AddRoute stringsToUpper method pattern handler).Routes.length =
          (routerAfter stringsToUpper calls).Routes.length ∧
        ∀ j, j ≠ i → ((routerAfter stringsToUpper calls).AddRoute stringsToUpper method pattern handler).Routes[j]? =
          (routerAfter stringsToUpper calls).Routes[j]?) := by
  have hnd := routerAfter_keys stringsToUpper calls
  generalize (routerAfter stringsToUpper calls) = router at hnd
  refine ⟨?_, ?_⟩
  · intro i j r q hij hi hj ⟨hm, hp⟩
    have hk : routeKey r = routeKey q := by
      simp only [routeKey, Prod.mk.injEq]
      refine ⟨hm, ?_⟩
      rcases hp with h | h | h | h
      · rw [h]
      · exact (sameUpToCaptureNames_iff _ _).1 h
      · exact (IsExistingPath_iff _ _).1 h
      · exact ((IsExistingPath_iff _ _).1 h).symm
    have h1 : (router.Routes.map routeKey)[i]? = some (routeKey r) := by
      rw [List.getElem?_map, hi]; rfl
    have h2 : (router.Routes.map routeKey)[j]? = some (routeKey r) := by
      rw [List.getElem?_map, hj, hk]; rfl
    have hi1 : i < (router.Routes.map routeKey).length := by
      by_contra hc
      rw [List.getElem?_eq_none (by omega)] at h1
      cases h1
    have hj1 : j < (router.Routes.map routeKey).length := by
      by_contra hc
      rw [List.getElem?_eq_none (by omega)] at h2
      cases h2
    have e1 := List.getElem?_eq_some.1 h1
    have e2 := List.getElem?_eq_some.1 h2
    obtain ⟨_, e1⟩ := e1
    obtain ⟨_, e2⟩ := e2
    exact hij ((List.Nodup.getElem_inj_iff hnd).1 (e1.trans e2.symm))
  · intro method pattern handler i r hi hm hp
    have hk : routeKey r =
        (stringsToUpper method, (stringsSplit (normalisePattern pattern)).map canonComponent) := by
      simp only [routeKey, Prod.mk.injEq]
      refine ⟨hm, ?_⟩
      rcases hp with h | h | h
      · rw [h]
      · exact ((sameUpToCaptureNames_iff _ _).1 h).symm
      · exact ((IsExistingPath_iff _ _).1 h).symm
    have hs := addRouteLoop_some (stringsToUpper method) (normalisePattern pattern) handler
      router.Routes i r hnd hi hk
    have hlt : i < router.Routes.length := by
      by_contra hc
      rw [List.getElem?_eq_none (by omega)] at hi
      cases hi
    have hr : (router.AddRoute stringsToUpper method pattern handler).Routes =
        router.Routes.set i ⟨stringsToUpper method, normalisePattern pattern, handler⟩ := by
      simp only [HTTPRouter.AddRoute, hs]
    rw [hr]
    refine ⟨rfl, ?_, List.length_set _ _ _, fun j hj => List.getElem?_set_ne (Ne.symm hj)⟩
    exact List.getElem?_set_self hlt

theorem add_route_unique_witness :
    (routerAfter asciiToUpper demoCalls).Routes =
        [⟨"GET", "users/:id", 1⟩, ⟨"GET", "users/recent", 2⟩, ⟨"POST", "", 3⟩] ∧
      ((routerAfter asciiToUpper demoCalls).AddRoute asciiToUpper "Get" "users/:name" 7).Routes =
        [⟨"GET", "users/:name", 7⟩, ⟨"GET", "users/recent", 2⟩, ⟨"POST", "", 3⟩] ∧
      ¬ ((⟨"GET", "users/:id", 1⟩ : RoutesField).Method =
            (⟨"GET", "users/recent", 2⟩ : RoutesField).Method ∧
          ("users/:id" = "users/recent" ∨
            sameUpToCaptureNames "users/:id" "users/recent" = true ∨
            IsExistingPath "users/:id" "users/recent" = true ∨
            IsExistingPath "users/recent" "users/:id" = true)) ∧
      ((routerAfter asciiToUpper demoCalls).AddRoute asciiToUpper "Get" "users/:name" 7).Routes.length =
        (routerAfter asciiToUpper demoCalls).Routes.length :=
  ⟨by decide, by decide,
    (add_route_unique asciiToUpper demoCalls).1 0 1 _ _ (by decide) (by decide) (by decide),
    ((add_route_unique asciiToUpper demoCalls).2 "Get" "users/:name" 7 0 ⟨"GET", "users/:id", 1⟩
      (by decide) (by decide) (by decide)).2.2.1⟩

end HttpRouter

namespace SocketClient

/-! ## The argument check of the client -/

/-- C24. Client argument check, evaluated where the claim fails: on the
argument vector of `./client 127.0.0.1` (two entries, no port) the usage check
of main does not stop the program and reading os.Args[2] is out of range. The
check stops exactly the vectors shorter than 2, the panic happens exactly on
the vectors of length 2, and from length 3 on main calls client. -/
theorem client_usage_check_misses_port :
    main ["./client", "127.0.0.1"] = .indexOutOfRange 2 2 ∧
      (∀ osArgs : List String, (∃ message, main osArgs = .fatal message) ↔ osArgs.length < 2) ∧
      (∀ osArgs : List String,
        (∃ index length, main osArgs = .indexOutOfRange index length) ↔ osArgs.length = 2) ∧
      (∀ osArgs : List String,
        (∃ ip port, main osArgs = .client ip port) ↔ 3 ≤ osArgs.length) := by
  refine ⟨by decide, ?_, ?_, ?_⟩ <;> intro osArgs
  all_goals
    match osArgs with
    | [] => simp [main]
    | [_] => simp [main]
    | [_, _] => simp [main]
    | _ :: _ :: _ :: rest =>
      have h : ¬ (rest.length + 1 + 1 + 1 < 2) := by omega
      simp [main, h]

end SocketClient
